import Mathlib

/-
Shallow embedding of timsort.h (class TimSortImpl) over lists with Nat indices.

Modelling conventions:
* A random-access range [first, last) over `RandomAccessIterator` becomes a
  `List α` together with Nat indices; `*it` becomes `List.getD arr i default`.
* The comparator `Compare comp` becomes `comp : α → α → Bool`; the element
  type's built-in `operator<=` (used verbatim in DetectRunAndMakeAscending,
  line 276 of timsort.h) becomes a separate parameter `le : α → α → Bool`.
* `std::lower_bound` / `std::upper_bound` are external library calls; they are
  modelled by their specification: the first position in [lo, hi) whose
  element satisfies the respective predicate (`findFrom`).
* `std::copy` / `std::copy_backward` are modelled as element-by-element
  sequential copies in the same order the STL mandates, which is also what
  makes them well defined on the overlapping ranges the merge routines use.
* Loops are modelled with explicit fuel (structural recursion) so that all
  definitions compute by kernel reduction; every call site passes a fuel that
  provably dominates the number of iterations of the corresponding C++ loop.
  Running out of fuel returns the current state unchanged.
-/

namespace TimSortImpl

/-- kMaxMinRunLength = 32 (timsort.h line 43). -/
def kMaxMinRunLength : Nat := 32

/-- kMaxMergeStackSize = 100 (timsort.h line 47). -/
def kMaxMergeStackSize : Nat := 100

/-- kMinGallop = 7 (timsort.h line 49). -/
def kMinGallop : Nat := 7

/-- Loop of CalcMinRunLength (timsort.h lines 245-252):
`while (n >= kMaxMinRunLength) { bumper |= (n & 1); n >>= 1; } return n + bumper;`.
The fuel dominates the iteration count because n strictly decreases while
n ≥ 32. -/
def calcMinRunLoop : Nat → Nat → Nat → Nat
  | 0, n, bumper => n + bumper
  | fuel + 1, n, bumper =>
    if kMaxMinRunLength ≤ n then calcMinRunLoop fuel (n >>> 1) (bumper ||| (n &&& 1))
    else n + bumper

/-- CalcMinRunLength (timsort.h lines 241-253). -/
def calcMinRunLength (n : Nat) : Nat := calcMinRunLoop n n 0

/-- The assertion `assert(n > 0)` at the entry of CalcMinRunLength
(timsort.h line 243). -/
def calcMinRunLengthAssertion (n : Nat) : Bool := decide (0 < n)

/-- Scan for the first index i in [lo, lo+cnt) with P i; returns lo+cnt if
none. This is the specification of the STL binary searches, which the source
calls as external library routines. -/
def findFromAux (P : Nat → Bool) : Nat → Nat → Nat
  | 0, lo => lo
  | cnt + 1, lo => if P lo then lo else findFromAux P cnt (lo + 1)

/-- First index i in [lo, hi) with P i, else hi (for lo ≤ hi). -/
def findFrom (P : Nat → Bool) (lo hi : Nat) : Nat := findFromAux P (hi - lo) lo

variable {α : Type}

/-- std::lower_bound(first, last, value, comp): first position p in [lo, hi)
with `comp(*p, value) == false`. -/
def lowerBoundIdx [Inhabited α] (arr : List α) (comp : α → α → Bool) (value : α)
    (lo hi : Nat) : Nat :=
  findFrom (fun i => !comp (arr.getD i default) value) lo hi

/-- std::upper_bound(first, last, value, comp): first position p in [lo, hi)
with `comp(value, *p) == true`. -/
def upperBoundIdx [Inhabited α] (arr : List α) (comp : α → α → Bool) (value : α)
    (lo hi : Nat) : Nat :=
  findFrom (fun i => comp value (arr.getD i default)) lo hi

/-- The leftward exponential-search loop shared by GallopLeft (lines 708-715)
and GallopRight (lines 752-759), parameterized by the guard predicate P that
the respective caller instantiates:
`for (k = 1, begin = hint - 1, end = hint; begin > first && P(begin); ++k) {
   end = begin; begin = begin - (1LL << k); }`.
In C++ `begin` can transiently go below `first` (even negative); the loop
guard then fails. With Nat truncated subtraction the guard fails at the same
iterations because `begin > first` is checked before any dereference, so the
returned pair matches the C++ pair after the caller's clamp to `first`. -/
def gallopDownLoop (P : Nat → Bool) (first : Nat) : Nat → Nat → Nat → Nat → Nat × Nat
  | 0, _, b, e => (b, e)
  | fuel + 1, k, b, e =>
    if first < b ∧ P b then gallopDownLoop P first fuel (k + 1) (b - 2 ^ k) b
    else (b, e)

/-- The rightward exponential-search loop shared by GallopLeft (lines 721-727)
and GallopRight (lines 765-771), parameterized by the guard predicate P:
`for (k = 1, begin = hint, end = hint + 1; end < last && P(end); ++k) {
   begin = end; end = end + (1LL << k); }`. -/
def gallopUpLoop (P : Nat → Bool) (last : Nat) : Nat → Nat → Nat → Nat → Nat × Nat
  | 0, _, b, e => (b, e)
  | fuel + 1, k, b, e =>
    if e < last ∧ P e then gallopUpLoop P last fuel (k + 1) e (e + 2 ^ k)
    else (b, e)

/-- GallopLeft (timsort.h lines 693-736): lower_bound-style galloping search
in [first, last) starting from hint. -/
def gallopLeft [Inhabited α] (arr : List α) (comp : α → α → Bool)
    (first last hint : Nat) (value : α) : Nat :=
  if !comp (arr.getD hint default) value then
    -- value <= *hint: exponential search right-to-left, guard comp(*begin, value) == false
    let be := gallopDownLoop (fun i => !comp (arr.getD i default) value) first hint 1 (hint - 1) hint
    let b := if first ≤ be.1 then be.1 else first   -- begin = begin >= first ? begin : first
    lowerBoundIdx arr comp value b be.2
  else
    -- value > *hint: exponential search left-to-right, guard comp(*end, value)
    let be := gallopUpLoop (fun i => comp (arr.getD i default) value) last (last - hint) 1 hint (hint + 1)
    let e := if be.2 ≤ last then be.2 else last     -- end = end <= last ? end : last
    lowerBoundIdx arr comp value be.1 e

/-- GallopRight (timsort.h lines 738-780): upper_bound-style galloping search
in [first, last) starting from hint. -/
def gallopRight [Inhabited α] (arr : List α) (comp : α → α → Bool)
    (first last hint : Nat) (value : α) : Nat :=
  if comp value (arr.getD hint default) then
    -- value < *hint: exponential search right-to-left, guard comp(value, *begin)
    let be := gallopDownLoop (fun i => comp value (arr.getD i default)) first hint 1 (hint - 1) hint
    let b := if first ≤ be.1 then be.1 else first
    upperBoundIdx arr comp value b be.2
  else
    -- value >= *hint: exponential search left-to-right, guard comp(value, *end) == false
    let be := gallopUpLoop (fun i => !comp value (arr.getD i default)) last (last - hint) 1 hint (hint + 1)
    let e := if be.2 ≤ last then be.2 else last
    upperBoundIdx arr comp value be.1 e

/-- std::copy from a separate source buffer into the working array:
copies src[srcPos .. srcPos+n) to dst[dstPos .. dstPos+n), first to last. -/
def copyFromTo [Inhabited α] (src : List α) (dst : List α) : Nat → Nat → Nat → List α
  | _, _, 0 => dst
  | srcPos, dstPos, n + 1 =>
    copyFromTo src (dst.set dstPos (src.getD srcPos default)) (srcPos + 1) (dstPos + 1) n

/-- std::copy within the working array (sequential forward copy, as the STL
iterates; well defined for the dst ≤ src overlaps the merge uses). -/
def copyWithin [Inhabited α] (arr : List α) : Nat → Nat → Nat → List α
  | _, _, 0 => arr
  | srcPos, dstPos, n + 1 =>
    copyWithin (arr.set dstPos (arr.getD srcPos default)) (srcPos + 1) (dstPos + 1) n

/-- std::copy_backward within the working array: copies
[srcEnd-n, srcEnd) to [dstEnd-n, dstEnd), last to first. -/
def copyBackwardWithin [Inhabited α] (arr : List α) : Nat → Nat → Nat → List α
  | _, _, 0 => arr
  | srcEnd, dstEnd, n + 1 =>
    copyBackwardWithin (arr.set (dstEnd - 1) (arr.getD (srcEnd - 1) default)) (srcEnd - 1) (dstEnd - 1) n

/-- std::copy_backward from a separate source buffer:
copies src[srcEnd-n, srcEnd) to dst[dstEnd-n, dstEnd), last to first. -/
def copyBackwardFromTo [Inhabited α] (src : List α) (dst : List α) : Nat → Nat → Nat → List α
  | _, _, 0 => dst
  | srcEnd, dstEnd, n + 1 =>
    copyBackwardFromTo src (dst.set (dstEnd - 1) (src.getD (srcEnd - 1) default)) (srcEnd - 1) (dstEnd - 1) n

/-- Loop of ReverseRun (timsort.h lines 258-264):
`--last; while (first < last) { std::swap(*first, *last); ++first; --last; }`. -/
def reverseRunLoop [Inhabited α] : Nat → List α → Nat → Nat → List α
  | 0, arr, _, _ => arr
  | fuel + 1, arr, first, last =>
    if first < last then
      let a := arr.getD first default
      let b := arr.getD last default
      reverseRunLoop fuel ((arr.set first b).set last a) (first + 1) (last - 1)
    else arr

/-- ReverseRun (timsort.h lines 255-265). -/
def reverseRun [Inhabited α] (arr : List α) (first last : Nat) : List α :=
  reverseRunLoop last arr first (last - 1)

/-- Ascending branch of DetectRunAndMakeAscending (line 279):
`while (++p < last && comp(*p, *(p - 1)) == false) {}`. -/
def detectAscLoop [Inhabited α] (arr : List α) (comp : α → α → Bool) (last : Nat) :
    Nat → Nat → Nat
  | 0, p => p
  | fuel + 1, p =>
    let p := p + 1
    if p < last ∧ !comp (arr.getD p default) (arr.getD (p - 1) default) then
      detectAscLoop arr comp last fuel p
    else p

/-- Descending branch of DetectRunAndMakeAscending (line 281):
`while (++p < last && comp(*p, *(p - 1))) {}`. -/
def detectDescLoop [Inhabited α] (arr : List α) (comp : α → α → Bool) (last : Nat) :
    Nat → Nat → Nat
  | 0, p => p
  | fuel + 1, p =>
    let p := p + 1
    if p < last ∧ comp (arr.getD p default) (arr.getD (p - 1) default) then
      detectDescLoop arr comp last fuel p
    else p

/-- DetectRunAndMakeAscending (timsort.h lines 267-286). Returns the right
boundary of the run together with the (possibly reversed) array. Note that
line 276 decides the run direction with the element type's built-in
`operator<=` (`bool isAscending = *(p - 1) <= *p;`), modelled by `le`,
not with the comparator `comp`. -/
def detectRunAndMakeAscending [Inhabited α] (arr : List α) (le comp : α → α → Bool)
    (first last : Nat) : Nat × List α :=
  if last ≤ first then (first, arr)
  else if last ≤ first + 1 then (first + 1, arr)
  else
    let p := first + 1
    let isAscending := le (arr.getD (p - 1) default) (arr.getD p default)
    if isAscending then (detectAscLoop arr comp last last p, arr)
    else
      let p := detectDescLoop arr comp last last p
      (p, reverseRun arr first p)

/-- Body of BinaryInsertionSort's for-loop (timsort.h lines 231-238), indexed
by i running from first+1 to last-1. -/
def binaryInsertionSortLoop [Inhabited α] (comp : α → α → Bool) (first last : Nat) :
    Nat → List α → Nat → List α
  | 0, arr, _ => arr
  | fuel + 1, arr, i =>
    if i < last then
      let value := arr.getD i default
      let j := upperBoundIdx arr comp value first i
      let arr := copyBackwardWithin arr i (i + 1) (i - j)  -- std::copy_backward(j, i, i + 1)
      binaryInsertionSortLoop comp first last fuel (arr.set j value) (i + 1)
    else arr

/-- BinaryInsertionSort (timsort.h lines 226-239). -/
def binaryInsertionSort [Inhabited α] (arr : List α) (comp : α → α → Bool)
    (first last : Nat) : List α :=
  binaryInsertionSortLoop comp first last (last - first) arr (first + 1)

/-- The contiguous segment [i, j) of a list (used to model copying a run into
the merge area). -/
def slice (l : List α) (i j : Nat) : List α := (l.drop i).take (j - i)

/-- A Run [first, last) (timsort.h lines 66-77), as a pair of indices. -/
structure Run where
  first : Nat
  last : Nat

/-- Run::GetLength (timsort.h lines 71-76). -/
def Run.getLength (r : Run) : Nat := r.last - r.first

/-- The value an out-of-bounds stack slot yields in the model. In C++ reading
mStack[-1] is undefined behaviour; the model makes it a fixed junk run so the
read itself stays observable and deterministic. -/
def junkRun : Run := ⟨0, 0⟩

/-- MergeState (timsort.h lines 79-125). The stack is modelled as a list of
length kMaxMergeStackSize; mMergeArea holds the contents of the scratch
buffer (EnsureMergeAreaSize only changes its capacity, which is not
observable through the element reads the merges perform). -/
structure MergeState (α : Type) where
  mArraySize : Nat
  mNumRunInStack : Nat
  mStack : List Run
  mMinGallop : Nat
  mMergeArea : List α

/-- Read of a stack slot at a possibly negative index (as ForceMerge performs
with mStack[pos - 1] when pos == 0). -/
def stackGet (stack : List Run) (i : Int) : Run :=
  if 0 ≤ i then stack.getD i.toNat junkRun else junkRun

/-- Local variables of the MergeLow/MergeHigh loops. In MergeLow, cursorA
indexes the merge area and cursorB/cursorDest index the working array; in
MergeHigh, cursorB indexes the merge area and cursorA/cursorDest index the
working array. -/
structure MergeVars (α : Type) where
  arr : List α
  cursorA : Nat
  cursorB : Nat
  cursorDest : Nat
  lengthA : Nat
  lengthB : Nat
  minGallop : Nat
  countA : Nat
  countB : Nat

/-- How a merge inner loop hands control back: one of the two goto labels,
a plain return, falling to the outer loop, or fuel exhaustion (never taken
at the fuels the call sites pass). -/
inductive MergeRes (α : Type) where
  | toDest (v : MergeVars α)
  | toAppend (v : MergeVars α)
  | retDirect (v : MergeVars α)
  | nextOuter (v : MergeVars α)
  | fuelOut (v : MergeVars α)

/-- One-pair-at-a-time mode of MergeLow (timsort.h lines 428-452), a do-while
on `(countA | countB) < minGallop`. -/
def mergeLowPairwise [Inhabited α] (comp : α → α → Bool) (scratch : List α) :
    Nat → MergeVars α → MergeRes α
  | 0, v => .fuelOut v
  | fuel + 1, v =>
    if comp (v.arr.getD v.cursorB default) (scratch.getD v.cursorA default) then
      let v := { v with
        arr := v.arr.set v.cursorDest (v.arr.getD v.cursorB default),
        cursorDest := v.cursorDest + 1, cursorB := v.cursorB + 1,
        lengthB := v.lengthB - 1, countA := 0, countB := v.countB + 1 }
      if v.lengthB = 0 then .toDest v
      else if (v.countA ||| v.countB) < v.minGallop then mergeLowPairwise comp scratch fuel v
      else .nextOuter v
    else
      let v := { v with
        arr := v.arr.set v.cursorDest (scratch.getD v.cursorA default),
        cursorDest := v.cursorDest + 1, cursorA := v.cursorA + 1,
        lengthA := v.lengthA - 1, countA := v.countA + 1, countB := 0 }
      if v.lengthA = 1 then .toAppend v
      else if (v.countA ||| v.countB) < v.minGallop then mergeLowPairwise comp scratch fuel v
      else .nextOuter v

/-- Galloping mode of MergeLow (timsort.h lines 455-512), a do-while on
`countA >= kMinGallop || countB >= kMinGallop`. lastAs is the length of the
copied run A inside the merge area, lastB the right end of run B. -/
def mergeLowGallop [Inhabited α] (comp : α → α → Bool) (scratch : List α)
    (lastAs lastB : Nat) : Nat → MergeVars α → MergeRes α
  | 0, v => .fuelOut v
  | fuel + 1, v0 =>
    let p := gallopRight scratch comp v0.cursorA lastAs v0.cursorA (v0.arr.getD v0.cursorB default)
    let cA := p - v0.cursorA
    let v1 := if cA ≠ 0 then
        { v0 with
          arr := copyFromTo scratch v0.arr v0.cursorA v0.cursorDest cA,
          cursorDest := v0.cursorDest + cA, cursorA := v0.cursorA + cA,
          lengthA := v0.lengthA - cA, countA := cA }
      else { v0 with countA := cA }
    if cA ≠ 0 ∧ v1.lengthA = 0 then .retDirect v1
    else if cA ≠ 0 ∧ v1.lengthA = 1 then .toAppend v1
    else
      let v2 := { v1 with
        arr := v1.arr.set v1.cursorDest (v1.arr.getD v1.cursorB default),
        cursorDest := v1.cursorDest + 1, cursorB := v1.cursorB + 1,
        lengthB := v1.lengthB - 1 }
      if v2.lengthB = 0 then .toDest v2
      else
        let q := gallopLeft v2.arr comp v2.cursorB lastB v2.cursorB (scratch.getD v2.cursorA default)
        let cB := q - v2.cursorB
        let v3 := if cB ≠ 0 then
            { v2 with
              arr := copyWithin v2.arr v2.cursorB v2.cursorDest cB,
              cursorDest := v2.cursorDest + cB, cursorB := v2.cursorB + cB,
              lengthB := v2.lengthB - cB, countB := cB }
          else { v2 with countB := cB }
        if cB ≠ 0 ∧ v3.lengthB = 0 then .toDest v3
        else
          let v4 := { v3 with
            arr := v3.arr.set v3.cursorDest (scratch.getD v3.cursorA default),
            cursorDest := v3.cursorDest + 1, cursorA := v3.cursorA + 1,
            lengthA := v3.lengthA - 1 }
          if v4.lengthA = 1 then .toAppend v4
          else
            let v5 := { v4 with minGallop := v4.minGallop - (if 1 < v4.minGallop then 1 else 0) }
            if kMinGallop ≤ v5.countA ∨ kMinGallop ≤ v5.countB then
              mergeLowGallop comp scratch lastAs lastB fuel v5
            else .nextOuter v5

/-- LABEL_COPY_MERGE_AREA_TO_DEST of MergeLow (timsort.h lines 519-522):
`std::copy(cursorA, cursorA + lengthA, cursorDest)`. -/
def mergeLowCopyRest [Inhabited α] (scratch : List α) (v : MergeVars α) : List α :=
  copyFromTo scratch v.arr v.cursorA v.cursorDest v.lengthA

/-- LABEL_COPY_B_TO_DEST_AND_APPEND_A of MergeLow (timsort.h lines 524-529). -/
def mergeLowAppendA [Inhabited α] (scratch : List α) (v : MergeVars α) : List α :=
  let arr := copyWithin v.arr v.cursorB v.cursorDest v.lengthB
  arr.set (v.cursorDest + v.lengthB) (scratch.getD v.cursorA default)

/-- The `while (1)` main loop of MergeLow (timsort.h lines 422-515) together
with the code that follows it: the write-back `state.mMinGallop = minGallop`
on line 517 sits after the loop, so it executes only if the loop condition
`1` tests false, which is the `(1 : Nat) = 0` branch below; all exits from
the loop body jump past it. Returns the array and the final value of
state.mMinGallop. -/
def mergeLowMainLoop [Inhabited α] (comp : α → α → Bool) (scratch : List α)
    (lastAs lastB stMinGallop : Nat) : Nat → MergeVars α → List α × Nat
  | 0, v => (v.arr, stMinGallop)
  | fuel + 1, v =>
    if (1 : Nat) = 0 then
      -- fall out of while (1): state.mMinGallop = minGallop, then the code at
      -- LABEL_COPY_MERGE_AREA_TO_DEST runs (labels do not stop control flow)
      (mergeLowCopyRest scratch v, v.minGallop)
    else
      let v := { v with countA := 0, countB := 0 }
      match mergeLowPairwise comp scratch (v.lengthA + v.lengthB + 1) v with
      | .nextOuter v1 =>
        match mergeLowGallop comp scratch lastAs lastB (v1.lengthB + 1) v1 with
        | .nextOuter v2 =>
          mergeLowMainLoop comp scratch lastAs lastB stMinGallop fuel
            { v2 with minGallop := v2.minGallop + 1 }
        | .toDest v2 => (mergeLowCopyRest scratch v2, stMinGallop)
        | .toAppend v2 => (mergeLowAppendA scratch v2, stMinGallop)
        | .retDirect v2 => (v2.arr, stMinGallop)
        | .fuelOut v2 => (v2.arr, stMinGallop)
      | .toDest v1 => (mergeLowCopyRest scratch v1, stMinGallop)
      | .toAppend v1 => (mergeLowAppendA scratch v1, stMinGallop)
      | .retDirect v1 => (v1.arr, stMinGallop)
      | .fuelOut v1 => (v1.arr, stMinGallop)

/-- MergeLow (timsort.h lines 378-530). Returns the working array, the final
state.mMinGallop, and the final contents of the merge area. -/
def mergeLow [Inhabited α] (comp : α → α → Bool) (stMinGallop : Nat) (arr : List α)
    (firstA lastA firstB lastB : Nat) : List α × Nat × List α :=
  let lengthA := lastA - firstA
  let lengthB := lastB - firstB
  -- EnsureMergeAreaSize(lengthA); std::copy(firstA, lastA, mMergeArea.begin())
  let scratch := slice arr firstA lastA
  -- cursorA = mMergeArea.begin() (index 0), lastA = cursorA + lengthA,
  -- cursorB = firstB, cursorDest = firstA; then the first element of B moves:
  -- *cursorDest = *cursorB; ++cursorDest; ++cursorB; --lengthB
  let v : MergeVars α := {
    arr := arr.set firstA (arr.getD firstB default),
    cursorA := 0, cursorB := firstB + 1, cursorDest := firstA + 1,
    lengthA := lengthA, lengthB := lengthB - 1,
    minGallop := stMinGallop, countA := 0, countB := 0 }
  if v.lengthB = 0 then (mergeLowCopyRest scratch v, stMinGallop, scratch)
  else if v.lengthA = 1 then (mergeLowAppendA scratch v, stMinGallop, scratch)
  else
    let r := mergeLowMainLoop comp scratch lengthA lastB stMinGallop (lengthA + lengthB + 1) v
    (r.1, r.2, scratch)

/-- One-pair-at-a-time mode of MergeHigh (timsort.h lines 585-611). -/
def mergeHighPairwise [Inhabited α] (comp : α → α → Bool) (scratch : List α) :
    Nat → MergeVars α → MergeRes α
  | 0, v => .fuelOut v
  | fuel + 1, v =>
    if comp (scratch.getD v.cursorB default) (v.arr.getD v.cursorA default) then
      let v := { v with
        arr := v.arr.set v.cursorDest (v.arr.getD v.cursorA default),
        cursorDest := v.cursorDest - 1, cursorA := v.cursorA - 1,
        lengthA := v.lengthA - 1, countA := v.countA + 1, countB := 0 }
      if v.lengthA = 0 then .toDest v
      else if (v.countA ||| v.countB) < v.minGallop then mergeHighPairwise comp scratch fuel v
      else .nextOuter v
    else
      let v := { v with
        arr := v.arr.set v.cursorDest (scratch.getD v.cursorB default),
        cursorDest := v.cursorDest - 1, cursorB := v.cursorB - 1,
        lengthB := v.lengthB - 1, countA := 0, countB := v.countB + 1 }
      if v.lengthB = 1 then .toAppend v
      else if (v.countA ||| v.countB) < v.minGallop then mergeHighPairwise comp scratch fuel v
      else .nextOuter v

/-- Galloping mode of MergeHigh (timsort.h lines 614-673). firstA is the left
end of run A in the working array; the copied run B lives in the merge area
at [0, cursorB]. -/
def mergeHighGallop [Inhabited α] (comp : α → α → Bool) (scratch : List α)
    (firstA : Nat) : Nat → MergeVars α → MergeRes α
  | 0, v => .fuelOut v
  | fuel + 1, v0 =>
    let p := gallopRight v0.arr comp firstA (v0.cursorA + 1) v0.cursorA (scratch.getD v0.cursorB default)
    let cA := v0.cursorA + 1 - p
    let v1 := if cA ≠ 0 then
        { v0 with
          arr := copyBackwardWithin v0.arr (v0.cursorA + 1) (v0.cursorDest + 1) cA,
          cursorDest := v0.cursorDest - cA, cursorA := v0.cursorA - cA,
          lengthA := v0.lengthA - cA, countA := cA }
      else { v0 with countA := cA }
    if cA ≠ 0 ∧ v1.lengthA = 0 then .toDest v1
    else
      let v2 := { v1 with
        arr := v1.arr.set v1.cursorDest (scratch.getD v1.cursorB default),
        cursorDest := v1.cursorDest - 1, cursorB := v1.cursorB - 1,
        lengthB := v1.lengthB - 1 }
      if v2.lengthB = 1 then .toAppend v2
      else
        let q := gallopLeft scratch comp 0 (v2.cursorB + 1) v2.cursorB (v2.arr.getD v2.cursorA default)
        let cB := v2.cursorB + 1 - q
        let v3 := if cB ≠ 0 then
            { v2 with
              arr := copyBackwardFromTo scratch v2.arr (v2.cursorB + 1) (v2.cursorDest + 1) cB,
              cursorDest := v2.cursorDest - cB, cursorB := v2.cursorB - cB,
              lengthB := v2.lengthB - cB, countB := cB }
          else { v2 with countB := cB }
        if cB ≠ 0 ∧ v3.lengthB = 0 then .retDirect v3
        else if cB ≠ 0 ∧ v3.lengthB = 1 then .toAppend v3
        else
          let v4 := { v3 with
            arr := v3.arr.set v3.cursorDest (v3.arr.getD v3.cursorA default),
            cursorDest := v3.cursorDest - 1, cursorA := v3.cursorA - 1,
            lengthA := v3.lengthA - 1 }
          if v4.lengthA = 0 then .toDest v4
          else
            let v5 := { v4 with minGallop := v4.minGallop - (if 1 < v4.minGallop then 1 else 0) }
            if kMinGallop ≤ v5.countA ∨ kMinGallop ≤ v5.countB then
              mergeHighGallop comp scratch firstA fuel v5
            else .nextOuter v5

/-- LABEL_COPY_MERGE_AREA_TO_DEST of MergeHigh (timsort.h lines 680-683):
`std::copy_backward(firstB, cursorB + 1, cursorDest + 1)` with firstB the
merge-area base. -/
def mergeHighCopyRest [Inhabited α] (scratch : List α) (v : MergeVars α) : List α :=
  copyBackwardFromTo scratch v.arr (v.cursorB + 1) (v.cursorDest + 1) (v.cursorB + 1)

/-- LABEL_COPY_A_TO_DEST_AND_PREPEND_B of MergeHigh (timsort.h lines 685-690). -/
def mergeHighPrependB [Inhabited α] (scratch : List α) (firstA : Nat) (v : MergeVars α) : List α :=
  let arr := copyBackwardWithin v.arr (v.cursorA + 1) (v.cursorDest + 1) (v.cursorA + 1 - firstA)
  arr.set (v.cursorDest - v.lengthA) (scratch.getD v.cursorB default)

/-- The `while (1)` main loop of MergeHigh (timsort.h lines 579-676) with the
write-back `state.mMinGallop = minGallop` of line 678 in the branch where
the loop condition `1` tests false. -/
def mergeHighMainLoop [Inhabited α] (comp : α → α → Bool) (scratch : List α)
    (firstA stMinGallop : Nat) : Nat → MergeVars α → List α × Nat
  | 0, v => (v.arr, stMinGallop)
  | fuel + 1, v =>
    if (1 : Nat) = 0 then
      (mergeHighCopyRest scratch v, v.minGallop)
    else
      let v := { v with countA := 0, countB := 0 }
      match mergeHighPairwise comp scratch (v.lengthA + v.lengthB + 1) v with
      | .nextOuter v1 =>
        match mergeHighGallop comp scratch firstA (v1.lengthB + 1) v1 with
        | .nextOuter v2 =>
          mergeHighMainLoop comp scratch firstA stMinGallop fuel
            { v2 with minGallop := v2.minGallop + 1 }
        | .toDest v2 => (mergeHighCopyRest scratch v2, stMinGallop)
        | .toAppend v2 => (mergeHighPrependB scratch firstA v2, stMinGallop)
        | .retDirect v2 => (v2.arr, stMinGallop)
        | .fuelOut v2 => (v2.arr, stMinGallop)
      | .toDest v1 => (mergeHighCopyRest scratch v1, stMinGallop)
      | .toAppend v1 => (mergeHighPrependB scratch firstA v1, stMinGallop)
      | .retDirect v1 => (v1.arr, stMinGallop)
      | .fuelOut v1 => (v1.arr, stMinGallop)

/-- MergeHigh (timsort.h lines 532-691). Returns the working array, the final
state.mMinGallop, and the final contents of the merge area. -/
def mergeHigh [Inhabited α] (comp : α → α → Bool) (stMinGallop : Nat) (arr : List α)
    (firstA lastA firstB lastB : Nat) : List α × Nat × List α :=
  let lengthA := lastA - firstA
  let lengthB := lastB - firstB
  -- EnsureMergeAreaSize(lengthB); std::copy(firstB, lastB, mMergeArea.begin())
  let scratch := slice arr firstB lastB
  -- cursorA = lastA - 1, firstB = mMergeArea.begin(), cursorB = lengthB - 1
  -- (merge-area index), cursorDest = lastB - 1; then the last element of A
  -- moves: *cursorDest = *cursorA; --cursorDest; --cursorA; --lengthA
  let v : MergeVars α := {
    arr := arr.set (lastB - 1) (arr.getD (lastA - 1) default),
    cursorA := lastA - 1 - 1, cursorB := lengthB - 1, cursorDest := lastB - 1 - 1,
    lengthA := lengthA - 1, lengthB := lengthB,
    minGallop := stMinGallop, countA := 0, countB := 0 }
  if v.lengthA = 0 then (mergeHighCopyRest scratch v, stMinGallop, scratch)
  else if v.lengthB = 1 then (mergeHighPrependB scratch firstA v, stMinGallop, scratch)
  else
    let r := mergeHighMainLoop comp scratch firstA stMinGallop (lengthA + lengthB + 1) v
    (r.1, r.2, scratch)

/-- MergeAt (timsort.h lines 325-376): merges stack entries stackPos and
stackPos + 1. The C++ test `stackPos == state.mNumRunInStack - 3` subtracts
in size_t, which wraps rather than truncates when mNumRunInStack < 3, so it
is rendered wrap-free as `stackPos + 3 = mNumRunInStack`. -/
def mergeAt [Inhabited α] (comp : α → α → Bool) (st : MergeState α) (arr : List α)
    (stackPos : Nat) : List α × MergeState α :=
  let firstA := (st.mStack.getD stackPos junkRun).first
  let lastA := (st.mStack.getD stackPos junkRun).last
  let firstB := (st.mStack.getD (stackPos + 1) junkRun).first
  let lastB := (st.mStack.getD (stackPos + 1) junkRun).last
  let stack := st.mStack.set stackPos ⟨firstA, lastB⟩
  let stack := if stackPos + 3 = st.mNumRunInStack then
      stack.set (stackPos + 1) (stack.getD (stackPos + 2) junkRun)
    else stack
  let st := { st with mStack := stack, mNumRunInStack := st.mNumRunInStack - 1 }
  let pA := gallopRight arr comp firstA lastA firstA (arr.getD firstB default)
  let lengthA := lastA - pA
  if lengthA = 0 then (arr, st)
  else
    let pB := gallopLeft arr comp firstB lastB (lastB - 1) (arr.getD (lastA - 1) default)
    let lengthB := pB - firstB
    if lengthB = 0 then (arr, st)
    else if lengthA ≤ lengthB then
      let r := mergeLow comp st.mMinGallop arr pA lastA firstB pB
      (r.1, { st with mMinGallop := r.2.1, mMergeArea := r.2.2 })
    else
      let r := mergeHigh comp st.mMinGallop arr pA lastA firstB pB
      (r.1, { st with mMinGallop := r.2.1, mMergeArea := r.2.2 })

/-- The `while (state.mNumRunInStack > 1)` loop of TryMerge (timsort.h lines
292-308), including the self-comparison
`state.mStack[pos].GetLength() <= state.mStack[pos].GetLength()` of line 301
exactly as written in the source. -/
def tryMergeLoop [Inhabited α] (comp : α → α → Bool) :
    Nat → MergeState α → List α → List α × MergeState α
  | 0, st, arr => (arr, st)
  | fuel + 1, st, arr =>
    if 1 < st.mNumRunInStack then
      let pos := st.mNumRunInStack - 2
      if 0 < pos ∧ (st.mStack.getD (pos - 1) junkRun).getLength ≤
          (st.mStack.getD pos junkRun).getLength + (st.mStack.getD (pos + 1) junkRun).getLength then
        let pos := pos - (if (st.mStack.getD (pos - 1) junkRun).getLength <
            (st.mStack.getD (pos + 1) junkRun).getLength then 1 else 0)
        let r := mergeAt comp st arr pos
        tryMergeLoop comp fuel r.2 r.1
      else if (st.mStack.getD pos junkRun).getLength ≤ (st.mStack.getD pos junkRun).getLength then
        let r := mergeAt comp st arr pos
        tryMergeLoop comp fuel r.2 r.1
      else (arr, st)
    else (arr, st)

/-- TryMerge (timsort.h lines 292-308). The fuel mNumRunInStack dominates the
iteration count because every iteration that does not exit merges and loses
one stack entry. -/
def tryMerge [Inhabited α] (comp : α → α → Bool) (st : MergeState α) (arr : List α) :
    List α × MergeState α :=
  tryMergeLoop comp st.mNumRunInStack st arr

/-- The stack slots read by one iteration of ForceMerge's smaller-neighbor
tie-break (timsort.h lines 317-318): with `int32_t pos = mNumRunInStack - 2`,
`length0` reads `mStack[pos - 1]` and `length1` reads `mStack[pos + 1]`, both
before the `pos > 0` test on line 319. -/
def forceMergeTieBreakReads (numRunInStack : Nat) : List Int :=
  [(numRunInStack : Int) - 2 - 1, (numRunInStack : Int) - 2 + 1]

/-- The `while (state.mNumRunInStack > 1)` loop of ForceMerge (timsort.h
lines 310-323). Note that length0 reads the slot below pos unconditionally;
the `pos > 0` guard only enters the tie-break on line 319. -/
def forceMergeLoop [Inhabited α] (comp : α → α → Bool) :
    Nat → MergeState α → List α → List α × MergeState α
  | 0, st, arr => (arr, st)
  | fuel + 1, st, arr =>
    if 1 < st.mNumRunInStack then
      let pos : Int := (st.mNumRunInStack : Int) - 2
      let length0 := (stackGet st.mStack (pos - 1)).getLength
      let length1 := (stackGet st.mStack (pos + 1)).getLength
      let pos := pos - (if 0 < pos ∧ length0 < length1 then 1 else 0)
      let r := mergeAt comp st arr pos.toNat
      forceMergeLoop comp fuel r.2 r.1
    else (arr, st)

/-- ForceMerge (timsort.h lines 310-323). -/
def forceMerge [Inhabited α] (comp : α → α → Bool) (st : MergeState α) (arr : List α) :
    List α × MergeState α :=
  forceMergeLoop comp st.mNumRunInStack st arr

/-- The fresh MergeState the driver builds (timsort.h lines 93-97, 789). -/
def initMergeState (α : Type) (arraySize : Nat) : MergeState α :=
  { mArraySize := arraySize, mNumRunInStack := 0,
    mStack := List.replicate kMaxMergeStackSize junkRun,
    mMinGallop := kMinGallop, mMergeArea := [] }

/-- The `while (next < last)` loop of Sort (timsort.h lines 794-816). -/
def sortLoop [Inhabited α] (le comp : α → α → Bool) (last minRunLength : Nat) :
    Nat → MergeState α → List α → Nat → List α × MergeState α
  | 0, st, arr, _ => (arr, st)
  | fuel + 1, st, arr, next =>
    if next < last then
      let d := detectRunAndMakeAscending arr le comp next last
      let runLast := d.1
      let arr := d.2
      let numRemainElems := last - next
      let realRunLength := runLast - next
      let boosted :=
        if realRunLength < minRunLength ∧ realRunLength < numRemainElems then
          let realRunLength := if minRunLength < numRemainElems then minRunLength else numRemainElems
          (next + realRunLength, binaryInsertionSort arr comp next (next + realRunLength))
        else (runLast, arr)
      let runLast := boosted.1
      let arr := boosted.2
      let st := { st with
        mStack := st.mStack.set st.mNumRunInStack ⟨next, runLast⟩,
        mNumRunInStack := st.mNumRunInStack + 1 }
      let r := tryMerge comp st arr
      sortLoop le comp last minRunLength fuel r.2 r.1 runLast
    else (arr, st)

/-- Sort (timsort.h lines 782-822) on a whole list, returning the array and
the final merge state. `le` models the element type's built-in operator<=
that DetectRunAndMakeAscending uses, `comp` the caller's comparator. -/
def sortWithState [Inhabited α] (le comp : α → α → Bool) (arr : List α) :
    List α × MergeState α :=
  let numElems := arr.length
  let minRunLength := calcMinRunLength numElems
  let st := initMergeState α numElems
  let r := sortLoop le comp numElems minRunLength (numElems + 1) st arr 0
  if r.2.mNumRunInStack ≠ 0 then forceMerge comp r.2 r.1 else r

/-- TimSort (timsort.h lines 830-835): the public entry point. -/
def timSort [Inhabited α] (le comp : α → α → Bool) (arr : List α) : List α :=
  (sortWithState le comp arr).1

/-! Spec-side definitions used to state the claims. -/

/-- Weakly ascending under comp: every adjacent pair i, i+1 satisfies
`comp(*(i+1), *i) == false` (the spec's postcondition). -/
def chainAscending (comp : α → α → Bool) : List α → Prop :=
  List.Chain' (fun a b => comp b a = false)

/-- Negative transitivity: the consequence of comp being a strict weak order
that the galloping-search proofs rely on. -/
def negTrans (comp : α → α → Bool) : Prop :=
  ∀ a b c, comp a b = false → comp b c = false → comp a c = false

/-- The built-in `operator<=` of int. -/
def natLe (a b : Nat) : Bool := decide (a ≤ b)

/-- The default comparator std::less on int. -/
def natLt (a b : Nat) : Bool := decide (a < b)

/-- The comparator std::greater on int, a strict weak order. -/
def natGt (a b : Nat) : Bool := decide (b < a)

/-- The built-in `operator<=` of std::pair of ints (lexicographic). -/
def pairLexLe (a b : Nat × Nat) : Bool :=
  decide (a.1 < b.1 ∨ (a.1 = b.1 ∧ a.2 ≤ b.2))

/-- A comparator on tagged values that orders by the first component only;
values with equal first components are equivalent, so a stable sort must
keep their input order. -/
def pairFstLt (a b : Nat × Nat) : Bool := decide (a.1 < b.1)

/-- A merge state holding exactly two runs, of lengths 3 and 2, over
twoRunArr: the deeper run is [0, 3), the top run is [3, 5). Both runs are
weakly ascending under natLt and len(B) = 3 > 2 = len(C), so the documented
merge policy is to leave the stack alone. -/
def twoRunState : MergeState Nat := {
  mArraySize := 5, mNumRunInStack := 2,
  mStack := ((List.replicate kMaxMergeStackSize junkRun).set 0 ⟨0, 3⟩).set 1 ⟨3, 5⟩,
  mMinGallop := kMinGallop, mMergeArea := [] }

/-- The array behind twoRunState: runs [0,2,4] and [1,3]. -/
def twoRunArr : List Nat := [0, 2, 4, 1, 3]

/-- Index bookkeeping of the MergeLow loops (a proof device for the
permutation argument): pA is the left end of the merge region, lastAs the
length of the copied run A in the merge area, lastB the right end of run B,
N the array length. -/
def MLInv (scratch : List α) (pA lastAs lastB N : Nat) (v : MergeVars α) : Prop :=
  v.arr.length = N ∧ scratch.length = lastAs ∧
  v.cursorA + v.lengthA = lastAs ∧
  v.cursorB + v.lengthB = lastB ∧ lastB ≤ N ∧
  v.cursorB = v.cursorDest + v.lengthA ∧
  pA ≤ v.cursorDest

/-- The live contents of the MergeLow merge region: emitted prefix, the rest
of run A in the merge area, the rest of run B in place. -/
def comboLow [Inhabited α] (scratch : List α) (pA lastAs lastB : Nat) (v : MergeVars α) : List α :=
  slice v.arr pA v.cursorDest ++ slice scratch v.cursorA lastAs ++ slice v.arr v.cursorB lastB

/-- Index bookkeeping of the MergeHigh loops: firstA is the left end of the
merge region, lastB its right end, N the array length; run B lives in the
merge area at [0, cursorB]. -/
def MHInv (scratch : List α) (firstA lastB N : Nat) (v : MergeVars α) : Prop :=
  v.arr.length = N ∧
  firstA + v.lengthA = v.cursorA + 1 ∧
  v.lengthB = v.cursorB + 1 ∧
  v.cursorB + 1 ≤ scratch.length ∧
  firstA + v.lengthA + v.lengthB = v.cursorDest + 1 ∧
  v.cursorDest < lastB ∧ lastB ≤ N

/-- The live contents of the MergeHigh merge region: the rest of run A in
place, the rest of run B in the merge area, the emitted suffix. -/
def comboHigh [Inhabited α] (scratch : List α) (firstA lastB : Nat) (v : MergeVars α) : List α :=
  slice v.arr firstA (v.cursorA + 1) ++ slice scratch 0 (v.cursorB + 1) ++ slice v.arr (v.cursorDest + 1) lastB

/-- One step of a MergeLow loop only rewrites inside [pA, lastB) and
preserves the live contents of the region as a multiset. -/
def MLStep [Inhabited α] (scratch : List α) (pA lastAs lastB : Nat) (v vnew : MergeVars α) : Prop :=
  vnew.arr.length = v.arr.length ∧
  (∀ k, k < pA ∨ lastB ≤ k → vnew.arr[k]? = v.arr[k]?) ∧
  (comboLow scratch pA lastAs lastB vnew).Perm (comboLow scratch pA lastAs lastB v)

/-- The final array of a MergeLow loop relates to an entry state: same
length, untouched outside [pA, lastB), and the region holds a permutation of
the entry state's live contents. -/
def MLBooks [Inhabited α] (scratch : List α) (pA lastAs lastB : Nat) (v : MergeVars α)
    (arrOut : List α) : Prop :=
  arrOut.length = v.arr.length ∧
  (∀ k, k < pA ∨ lastB ≤ k → arrOut[k]? = v.arr[k]?) ∧
  (slice arrOut pA lastB).Perm (comboLow scratch pA lastAs lastB v)

/-- One step of a MergeHigh loop only rewrites inside [firstA, lastB) and
preserves the live contents of the region as a multiset. -/
def MHStep [Inhabited α] (scratch : List α) (firstA lastB : Nat) (v vnew : MergeVars α) : Prop :=
  vnew.arr.length = v.arr.length ∧
  (∀ k, k < firstA ∨ lastB ≤ k → vnew.arr[k]? = v.arr[k]?) ∧
  (comboHigh scratch firstA lastB vnew).Perm (comboHigh scratch firstA lastB v)

/-- The final array of a MergeHigh loop relates to an entry state. -/
def MHBooks [Inhabited α] (scratch : List α) (firstA lastB : Nat) (v : MergeVars α)
    (arrOut : List α) : Prop :=
  arrOut.length = v.arr.length ∧
  (∀ k, k < firstA ∨ lastB ≤ k → arrOut[k]? = v.arr[k]?) ∧
  (slice arrOut firstA lastB).Perm (comboHigh scratch firstA lastB v)

/-- Validity of the run stack: every run on it is nonempty, lies inside the
array, and adjacent entries are adjacent ranges. -/
def StackOK (st : MergeState α) (N : Nat) : Prop :=
  ∀ i, i + 1 ≤ st.mNumRunInStack →
    (st.mStack.getD i junkRun).first < (st.mStack.getD i junkRun).last ∧
    (st.mStack.getD i junkRun).last ≤ N ∧
    (i + 2 ≤ st.mNumRunInStack →
      (st.mStack.getD i junkRun).last = (st.mStack.getD (i + 1) junkRun).first)

/-- Outcome classification for the MergeLow loops: every exit carries the
bookkeeping relation back to the loop's entry state together with the facts
the exit's handler needs; running out of fuel is ruled out. -/
def MLGood [Inhabited α] (scratch : List α) (pA lastAs lastB N : Nat) (v : MergeVars α) :
    MergeRes α → Prop
  | .fuelOut _ => False
  | .toDest v1 => (MLInv scratch pA lastAs lastB N v1 ∧ MLStep scratch pA lastAs lastB v v1) ∧
      v1.lengthB = 0
  | .toAppend v1 => (MLInv scratch pA lastAs lastB N v1 ∧ MLStep scratch pA lastAs lastB v v1) ∧
      v1.lengthA = 1 ∧ 1 ≤ v1.lengthB
  | .retDirect v1 => (MLInv scratch pA lastAs lastB N v1 ∧ MLStep scratch pA lastAs lastB v v1) ∧
      v1.lengthA = 0
  | .nextOuter v1 => (MLInv scratch pA lastAs lastB N v1 ∧ MLStep scratch pA lastAs lastB v v1) ∧
      2 ≤ v1.lengthA ∧ 1 ≤ v1.lengthB ∧ v1.lengthA + v1.lengthB < v.lengthA + v.lengthB

/-- Outcome classification for the MergeHigh loops. The toDest and retDirect
exits carry the finished books directly (their states may hold clamped
cursors after a Nat underflow that the C++ code never reads again). -/
def MHGood [Inhabited α] (scratch : List α) (firstA lastB N : Nat) (v : MergeVars α) :
    MergeRes α → Prop
  | .fuelOut _ => False
  | .toDest v1 => MHBooks scratch firstA lastB v (mergeHighCopyRest scratch v1)
  | .toAppend v1 => (MHInv scratch firstA lastB N v1 ∧ MHStep scratch firstA lastB v v1) ∧
      v1.lengthB = 1 ∧ 1 ≤ v1.lengthA
  | .retDirect v1 => MHBooks scratch firstA lastB v v1.arr
  | .nextOuter v1 => (MHInv scratch firstA lastB N v1 ∧ MHStep scratch firstA lastB v v1) ∧
      1 ≤ v1.lengthA ∧ 2 ≤ v1.lengthB ∧ v1.lengthA + v1.lengthB < v.lengthA + v.lengthB

/-! Theorems. Claim theorems are named cN_...; the remaining theorems are
supporting lemmas. -/

/-- C1: the spec claims that for every strict weak order `less`, Sort leaves
the range weakly ascending. The code decides run direction with the element
type's operator<= (line 276) instead of `less`, so with less = greater-than
on int the range [1, 2] is kept as an "ascending run"
and returned unchanged, violating the postcondition !less(*(i+1), *i):
here less(2, 1)... less(arr[1], arr[0]) = natGt 2 1 = true. -/
theorem c1_sort_unsorted_under_greater :
    timSort natLe natGt [1, 2] = [1, 2] ∧ natGt 2 1 = true := by
  constructor <;> rfl

/-- C2: the spec claims stability for every strict weak order. With the
tag-ignoring comparator pairFstLt, the elements (1,1) and (1,0) are
equivalent (neither compares less), yet the detector classifies the pair as
a descending run using the built-in pair operator<= (line 276) and reverses
it, so Sort swaps two equal elements. -/
theorem c2_sort_unstable_for_tagged_pairs :
    timSort pairLexLe pairFstLt [(1, 1), (1, 0)] = [(1, 0), (1, 1)] ∧
    pairFstLt (1, 1) (1, 0) = false ∧ pairFstLt (1, 0) (1, 1) = false := by
  refine ⟨?_, ?_, ?_⟩ <;> rfl

/-- C4: the claim says that with only two runs B, C on the stack (A absent)
and len(B) > len(C), TryMerge performs no merge. twoRunState has runs of
lengths 3 and 2, yet TryMerge merges them down to a single run because the
second condition of line 301 compares len(B) with itself and is always
true. -/
theorem c4_tryMerge_merges_despite_invariants :
    (twoRunState.mStack.getD 1 junkRun).getLength < (twoRunState.mStack.getD 0 junkRun).getLength ∧
    (tryMerge natLt twoRunState twoRunArr).2.mNumRunInStack = 1 ∧
    (tryMerge natLt twoRunState twoRunArr).1 = [0, 1, 2, 3, 4] := by
  refine ⟨by decide, ?_, ?_⟩ <;> rfl

/-- C5: the claim says the tie-break of ForceMerge reads the slot below pos
only under a pos > 0 guard. In the source (lines 317-319) length0 reads
mStack[pos - 1] before the guard, so with exactly two runs on the stack
(pos = 0) slot -1 is read. -/
theorem c5_forceMerge_reads_slot_below_zero :
    forceMergeTieBreakReads 2 = [-1, 1] ∧ (-1 : Int) ∈ forceMergeTieBreakReads 2 := by
  constructor
  · rfl
  · simp [forceMergeTieBreakReads]

/-- C8 counterexample: the claim says CalcMinRunLength(32) = 32; the code
halves 32 once (32 is a power of two at the loop threshold) and returns 16. -/
theorem c8_minrun_at_32_is_not_32 : calcMinRunLength 32 ≠ 32 := by decide

/-- C8 amended: CalcMinRunLength(32) = 16 and CalcMinRunLength(33) = 17. -/
theorem c8_minrun_at_32_and_33 : calcMinRunLength 32 = 16 ∧ calcMinRunLength 33 = 17 := by
  constructor <;> rfl

/-- C9: Sort on the empty range does return the range unchanged, but it
reaches CalcMinRunLength with n = numElems = 0 (line 788), whose entry
assertion assert(n > 0) (line 243) is then false: the claim that every
assertion evaluated on the empty-range path holds fails. -/
theorem c9_empty_sort_hits_failed_assertion :
    timSort natLe natLt ([] : List Nat) = [] ∧
    List.length ([] : List Nat) = 0 ∧
    calcMinRunLengthAssertion 0 = false := by
  refine ⟨?_, ?_, ?_⟩ <;> rfl

/-- The loop of CalcMinRunLength is the identity (plus bumper) below the
threshold. -/
theorem calcMinRunLoop_small (fuel n b : Nat) (h : n < 32) :
    calcMinRunLoop fuel n b = n + b := by
  cases fuel with
  | zero => rfl
  | succ fuel =>
    have hn : ¬ kMaxMinRunLength ≤ n := by simp only [kMaxMinRunLength]; omega
    simp [calcMinRunLoop, hn]

/-- Bitwise or of two bits is a bit. -/
theorem or_le_one {b m : Nat} (hb : b ≤ 1) (hm : m ≤ 1) : b ||| m ≤ 1 := by
  interval_cases b <;> interval_cases m <;> decide

/-- Bounds of the CalcMinRunLength loop for n at or above the threshold. -/
theorem calcMinRunLoop_bounds :
    ∀ fuel n b, n ≤ fuel → 32 ≤ n → b ≤ 1 →
      16 ≤ calcMinRunLoop fuel n b ∧ calcMinRunLoop fuel n b ≤ 32 := by
  intro fuel
  induction fuel with
  | zero => intro n b hf h32 _; omega
  | succ fuel ih =>
    intro n b hf h32 hb
    have hguard : kMaxMinRunLength ≤ n := by simp only [kMaxMinRunLength]; omega
    have hshift : n >>> 1 = n / 2 := Nat.shiftRight_one n
    have hand : n &&& 1 = n % 2 := Nat.and_one_is_mod n
    have hb' : b ||| (n &&& 1) ≤ 1 := by
      rw [hand]; exact or_le_one hb (by omega)
    simp only [calcMinRunLoop, if_pos hguard, hshift]
    rcases Nat.lt_or_ge (n / 2) 32 with hlt | hge
    · rw [calcMinRunLoop_small fuel _ _ hlt]
      omega
    · exact ih (n / 2) _ (by omega) hge hb'

/-- The CalcMinRunLength loop sends a power of two at or above the threshold
to 16. -/
theorem calcMinRunLoop_pow :
    ∀ k fuel, 5 ≤ k → 2 ^ k ≤ fuel → calcMinRunLoop fuel (2 ^ k) 0 = 16 := by
  intro k
  induction k with
  | zero => omega
  | succ k ih =>
    intro fuel h5 hf
    have hpos : 1 ≤ 2 ^ (k + 1) := Nat.one_le_two_pow
    cases fuel with
    | zero => omega
    | succ fuel =>
      have hguard : kMaxMinRunLength ≤ 2 ^ (k + 1) := by
        simp only [kMaxMinRunLength]
        calc (32 : Nat) = 2 ^ 5 := by norm_num
        _ ≤ 2 ^ (k + 1) := Nat.pow_le_pow_right (by omega) (by omega)
      have hshift : 2 ^ (k + 1) >>> 1 = 2 ^ k := by
        rw [Nat.shiftRight_one, Nat.pow_succ, Nat.mul_div_cancel _ (by omega)]
      have hand : 2 ^ (k + 1) &&& 1 = 0 := by
        rw [Nat.and_one_is_mod, Nat.pow_succ, Nat.mul_mod_left]
      simp only [calcMinRunLoop, if_pos hguard, hshift, hand, Nat.zero_or]
      rcases Nat.lt_or_ge k 5 with hk5 | hk5
      · have hk : k = 4 := by omega
        subst hk
        exact calcMinRunLoop_small fuel _ _ (by norm_num)
      · refine ih fuel hk5 ?_
        have : 2 ^ k < 2 ^ (k + 1) := Nat.pow_lt_pow_right (by omega) (by omega)
        omega

/-- C7: CalcMinRunLength(n) lies in [1, 32] for n ≥ 1; it is the identity
below 32; it maps powers of two ≥ 32 to 16; and it maps every n ≥ 32 into
[16, 32]. -/
theorem c7_minrun_bounds (n : Nat) (h : 1 ≤ n) :
    (1 ≤ calcMinRunLength n ∧ calcMinRunLength n ≤ 32) ∧
    (n < 32 → calcMinRunLength n = n) ∧
    ((∃ k, n = 2 ^ k) → 32 ≤ n → calcMinRunLength n = 16) ∧
    (32 ≤ n → 16 ≤ calcMinRunLength n ∧ calcMinRunLength n ≤ 32) := by
  unfold calcMinRunLength
  refine ⟨?_, ?_, ?_, ?_⟩
  · rcases Nat.lt_or_ge n 32 with hlt | hge
    · rw [calcMinRunLoop_small n n 0 hlt]; omega
    · have := calcMinRunLoop_bounds n n 0 le_rfl hge (by omega)
      omega
  · intro hlt
    rw [calcMinRunLoop_small n n 0 hlt]
    omega
  · rintro ⟨k, rfl⟩ hge
    have h5 : 5 ≤ k := by
      by_contra hk
      push_neg at hk
      interval_cases k <;> omega
    exact calcMinRunLoop_pow k (2 ^ k) h5 le_rfl
  · intro hge
    exact calcMinRunLoop_bounds n n 0 le_rfl hge (by omega)

/-- Witness for c7_minrun_bounds at n = 32. -/
theorem c7_minrun_bounds_applied :
    1 ≤ 32 ∧
    ((1 ≤ calcMinRunLength 32 ∧ calcMinRunLength 32 ≤ 32) ∧
     (32 < 32 → calcMinRunLength 32 = 32) ∧
     ((∃ k, 32 = 2 ^ k) → 32 ≤ 32 → calcMinRunLength 32 = 16) ∧
     (32 ≤ 32 → 16 ≤ calcMinRunLength 32 ∧ calcMinRunLength 32 ≤ 32)) :=
  ⟨by decide, c7_minrun_bounds 32 (by decide)⟩

/-- The main loop of MergeLow hands back the caller's mMinGallop unchanged:
the write-back after `while (1)` sits in the unreachable branch. -/
theorem mergeLowMainLoop_mg [Inhabited α] (comp : α → α → Bool) (scratch : List α)
    (lastAs lastB g : Nat) :
    ∀ fuel v, (mergeLowMainLoop comp scratch lastAs lastB g fuel v).2 = g := by
  intro fuel
  induction fuel with
  | zero => intro v; rfl
  | succ fuel ih =>
    intro v
    unfold mergeLowMainLoop
    rw [if_neg (by omega : ¬ (1 : Nat) = 0)]
    dsimp only
    repeat' split
    all_goals first | rfl | exact ih _

/-- The main loop of MergeHigh hands back the caller's mMinGallop
unchanged. -/
theorem mergeHighMainLoop_mg [Inhabited α] (comp : α → α → Bool) (scratch : List α)
    (firstA g : Nat) :
    ∀ fuel v, (mergeHighMainLoop comp scratch firstA g fuel v).2 = g := by
  intro fuel
  induction fuel with
  | zero => intro v; rfl
  | succ fuel ih =>
    intro v
    unfold mergeHighMainLoop
    rw [if_neg (by omega : ¬ (1 : Nat) = 0)]
    dsimp only
    repeat' split
    all_goals first | rfl | exact ih _

/-- MergeLow returns state.mMinGallop unchanged. -/
theorem mergeLow_mg [Inhabited α] (comp : α → α → Bool) (g : Nat) (arr : List α)
    (firstA lastA firstB lastB : Nat) :
    (mergeLow comp g arr firstA lastA firstB lastB).2.1 = g := by
  unfold mergeLow
  dsimp only
  split
  · rfl
  · split
    · rfl
    · exact mergeLowMainLoop_mg comp _ _ _ g _ _

/-- MergeHigh returns state.mMinGallop unchanged. -/
theorem mergeHigh_mg [Inhabited α] (comp : α → α → Bool) (g : Nat) (arr : List α)
    (firstA lastA firstB lastB : Nat) :
    (mergeHigh comp g arr firstA lastA firstB lastB).2.1 = g := by
  unfold mergeHigh
  dsimp only
  split
  · rfl
  · split
    · rfl
    · exact mergeHighMainLoop_mg comp _ _ g _ _

/-- MergeAt preserves mMinGallop. -/
theorem mergeAt_mg [Inhabited α] (comp : α → α → Bool) (st : MergeState α)
    (arr : List α) (stackPos : Nat) :
    (mergeAt comp st arr stackPos).2.mMinGallop = st.mMinGallop := by
  unfold mergeAt
  try dsimp only
  repeat' split
  all_goals try dsimp only
  all_goals first | rfl | simp [mergeLow_mg, mergeHigh_mg]

/-- The TryMerge loop preserves mMinGallop. -/
theorem tryMergeLoop_mg [Inhabited α] (comp : α → α → Bool) :
    ∀ fuel (st : MergeState α) arr,
      (tryMergeLoop comp fuel st arr).2.mMinGallop = st.mMinGallop := by
  intro fuel
  induction fuel with
  | zero => intro st arr; rfl
  | succ fuel ih =>
    intro st arr
    unfold tryMergeLoop
    try dsimp only
    repeat' split
    all_goals try dsimp only
    all_goals first | rfl | rw [ih, mergeAt_mg]

/-- The ForceMerge loop preserves mMinGallop. -/
theorem forceMergeLoop_mg [Inhabited α] (comp : α → α → Bool) :
    ∀ fuel (st : MergeState α) arr,
      (forceMergeLoop comp fuel st arr).2.mMinGallop = st.mMinGallop := by
  intro fuel
  induction fuel with
  | zero => intro st arr; rfl
  | succ fuel ih =>
    intro st arr
    unfold forceMergeLoop
    try dsimp only
    repeat' split
    all_goals try dsimp only
    all_goals first | rfl | rw [ih, mergeAt_mg]

/-- The driver loop preserves mMinGallop. -/
theorem sortLoop_mg [Inhabited α] (le comp : α → α → Bool) (last minRunLength : Nat) :
    ∀ fuel (st : MergeState α) arr next,
      (sortLoop le comp last minRunLength fuel st arr next).2.mMinGallop = st.mMinGallop := by
  intro fuel
  induction fuel with
  | zero => intro st arr next; rfl
  | succ fuel ih =>
    intro st arr next
    unfold sortLoop
    try dsimp only
    repeat' split
    all_goals try dsimp only
    all_goals first | rfl | (rw [ih]; simp [tryMerge, tryMergeLoop_mg])

/-- C10: the per-merge local minGallop adjustments never persist. MergeLow
and MergeHigh return state.mMinGallop unchanged for every input (the
write-back after `while (1)` is unreachable), and consequently the merge
state's mMinGallop still equals its initial value kMinGallop = 7 when Sort
returns. -/
theorem c10_minGallop_invariant :
    (∀ (α : Type) (_ : Inhabited α) (comp : α → α → Bool) (g : Nat) (arr : List α)
      (firstA lastA firstB lastB : Nat),
        (mergeLow comp g arr firstA lastA firstB lastB).2.1 = g) ∧
    (∀ (α : Type) (_ : Inhabited α) (comp : α → α → Bool) (g : Nat) (arr : List α)
      (firstA lastA firstB lastB : Nat),
        (mergeHigh comp g arr firstA lastA firstB lastB).2.1 = g) ∧
    (∀ (α : Type) (_ : Inhabited α) (le comp : α → α → Bool) (arr : List α),
        (sortWithState le comp arr).2.mMinGallop = kMinGallop) := by
  refine ⟨fun α _ => mergeLow_mg, fun α _ => mergeHigh_mg, fun α _ le comp arr => ?_⟩
  unfold sortWithState
  dsimp only
  split
  · simp [forceMerge, forceMergeLoop_mg, sortLoop_mg, initMergeState]
  · simp [sortLoop_mg, initMergeState]

/-! Machinery for C6: the galloping searches agree with the STL binary
searches on sorted data. -/

/-- The scan never moves left. -/
theorem findFromAux_ge (P : Nat → Bool) : ∀ cnt lo, lo ≤ findFromAux P cnt lo := by
  intro cnt
  induction cnt with
  | zero => intro lo; exact le_rfl
  | succ cnt ih =>
    intro lo
    unfold findFromAux
    split
    · exact le_rfl
    · exact le_trans (by omega) (ih (lo + 1))

/-- The scan stays within the window. -/
theorem findFromAux_le (P : Nat → Bool) : ∀ cnt lo, findFromAux P cnt lo ≤ lo + cnt := by
  intro cnt
  induction cnt with
  | zero => intro lo; simp [findFromAux]
  | succ cnt ih =>
    intro lo
    unfold findFromAux
    split
    · omega
    · have := ih (lo + 1); omega

/-- Positions the scan passes over fail the predicate. -/
theorem findFromAux_skipped (P : Nat → Bool) :
    ∀ cnt lo i, lo ≤ i → i < findFromAux P cnt lo → P i = false := by
  intro cnt
  induction cnt with
  | zero =>
    intro lo i hle hlt
    unfold findFromAux at hlt
    omega
  | succ cnt ih =>
    intro lo i hle hlt
    unfold findFromAux at hlt
    split at hlt
    · omega
    · rcases Nat.eq_or_lt_of_le hle with rfl | hlt'
      · rename_i h
        exact Bool.not_eq_true _ ▸ h
      · exact ih (lo + 1) i hlt' hlt

/-- If the scan stops inside the window, the stop satisfies the predicate. -/
theorem findFromAux_found (P : Nat → Bool) :
    ∀ cnt lo, findFromAux P cnt lo < lo + cnt → P (findFromAux P cnt lo) = true := by
  intro cnt
  induction cnt with
  | zero => intro lo h; unfold findFromAux at h; omega
  | succ cnt ih =>
    intro lo h
    unfold findFromAux at h ⊢
    split
    · rename_i hP; exact hP
    · rename_i hP
      rw [if_neg hP] at h
      exact ih (lo + 1) (by omega)

/-- The scan is determined by the predicate: it returns any m whose prefix
fails P and which either equals the right end or satisfies P. -/
theorem findFromAux_eq_of (P : Nat → Bool) :
    ∀ cnt lo m, lo ≤ m → m ≤ lo + cnt →
      (∀ i, lo ≤ i → i < m → P i = false) → (m < lo + cnt → P m = true) →
      findFromAux P cnt lo = m := by
  intro cnt
  induction cnt with
  | zero => intro lo m h1 h2 _ _; unfold findFromAux; omega
  | succ cnt ih =>
    intro lo m h1 h2 hbelow hat
    unfold findFromAux
    rcases Nat.eq_or_lt_of_le h1 with rfl | hlt
    · rw [if_pos (hat (by omega))]
    · rw [if_neg (by simp [hbelow lo le_rfl hlt])]
      exact ih (lo + 1) m hlt (by omega) (fun i h h' => hbelow i (by omega) h') (fun h => hat (by omega))

/-- findFrom never moves left of lo. -/
theorem findFrom_ge (P : Nat → Bool) (lo hi : Nat) : lo ≤ findFrom P lo hi :=
  findFromAux_ge P (hi - lo) lo

/-- findFrom stays at or below hi. -/
theorem findFrom_le (P : Nat → Bool) (lo hi : Nat) (h : lo ≤ hi) : findFrom P lo hi ≤ hi := by
  have := findFromAux_le P (hi - lo) lo
  unfold findFrom
  omega

/-- Positions below the findFrom result fail the predicate. -/
theorem findFrom_skipped (P : Nat → Bool) (lo hi i : Nat) (h1 : lo ≤ i)
    (h2 : i < findFrom P lo hi) : P i = false :=
  findFromAux_skipped P (hi - lo) lo i h1 h2

/-- A findFrom result inside the window satisfies the predicate. -/
theorem findFrom_found (P : Nat → Bool) (lo hi : Nat) (h : findFrom P lo hi < hi) :
    P (findFrom P lo hi) = true := by
  apply findFromAux_found
  have := findFromAux_ge P (hi - lo) lo
  unfold findFrom at h
  omega

/-- findFrom is determined by the predicate on the window. -/
theorem findFrom_eq_of (P : Nat → Bool) (lo hi m : Nat) (h1 : lo ≤ m) (h2 : m ≤ hi)
    (hbelow : ∀ i, lo ≤ i → i < m → P i = false) (hat : m < hi → P m = true) :
    findFrom P lo hi = m := by
  apply findFromAux_eq_of P (hi - lo) lo m h1 (by omega) hbelow
  intro h
  exact hat (by omega)

/-- A position satisfying the predicate bounds the global scan from above. -/
theorem findFrom_le_of_true (P : Nat → Bool) (n j : Nat) (hj : P j = true) :
    findFrom P 0 n ≤ j := by
  by_contra h
  push_neg at h
  have := findFrom_skipped P 0 n j (Nat.zero_le _) h
  rw [hj] at this
  exact absurd this (by simp)

/-- For an upward-monotone predicate, a failing position bounds the global
scan from below. -/
theorem findFrom_lt_of_false (P : Nat → Bool) (n j : Nat)
    (hmono : ∀ i j', i ≤ j' → j' < n → P i = true → P j' = true)
    (hj : P j = false) (hjn : j < n) : j < findFrom P 0 n := by
  by_contra h
  push_neg at h
  have hfn : findFrom P 0 n < n := lt_of_le_of_lt h hjn
  have hfound := findFrom_found P 0 n hfn
  have := hmono (findFrom P 0 n) j h hjn hfound
  rw [hj] at this
  exact absurd this (by simp)

/-- The leftward exponential search brackets the global scan result: it exits
with begin at or below it and end at or above it, for any upward-monotone
predicate. -/
theorem gallopDownLoop_bracket (P : Nat → Bool) (n : Nat)
    (hmono : ∀ i j, i ≤ j → j < n → P i = true → P j = true) :
    ∀ fuel k b e, b ≤ fuel → 1 ≤ k → b < n → b ≤ e → findFrom P 0 n ≤ e → e ≤ n →
      (gallopDownLoop P 0 fuel k b e).1 ≤ findFrom P 0 n ∧
      findFrom P 0 n ≤ (gallopDownLoop P 0 fuel k b e).2 ∧
      (gallopDownLoop P 0 fuel k b e).2 ≤ n := by
  intro fuel
  induction fuel with
  | zero =>
    intro k b e hbf _ _ _ he hen
    have hb0 : b = 0 := by omega
    subst hb0
    exact ⟨Nat.zero_le _, he, hen⟩
  | succ fuel ih =>
    intro k b e hbf hk hbn hbe he hen
    unfold gallopDownLoop
    split
    · rename_i h
      have hPb : P b = true := h.2
      have hlb : findFrom P 0 n ≤ b := findFrom_le_of_true P n b hPb
      have h2k : 2 ≤ 2 ^ k := by
        calc (2 : Nat) = 2 ^ 1 := rfl
        _ ≤ 2 ^ k := Nat.pow_le_pow_right (by omega) hk
      exact ih (k + 1) (b - 2 ^ k) b (by omega) (by omega) (by omega) (by omega) hlb (by omega)
    · rename_i h
      refine ⟨?_, he, hen⟩
      rcases Nat.eq_zero_or_pos b with rfl | hpos
      · exact Nat.zero_le _
      · have hPb : P b = false := by
          rcases hPb : P b with _ | _
          · rfl
          · exact absurd ⟨hpos, hPb⟩ h
        exact le_of_lt (findFrom_lt_of_false P n b hmono hPb hbn)

/-- The rightward exponential search brackets the global scan result. Q is
the loop guard, the negation of the predicate P being searched for. -/
theorem gallopUpLoop_bracket (P Q : Nat → Bool) (n : Nat)
    (hmono : ∀ i j, i ≤ j → j < n → P i = true → P j = true)
    (hQ : ∀ i, Q i = !P i) :
    ∀ fuel k b e, n - e ≤ fuel → 1 ≤ k → b < findFrom P 0 n → b < e →
      (gallopUpLoop Q n fuel k b e).1 ≤ findFrom P 0 n ∧
      findFrom P 0 n ≤ (if (gallopUpLoop Q n fuel k b e).2 ≤ n then (gallopUpLoop Q n fuel k b e).2 else n) ∧
      (if (gallopUpLoop Q n fuel k b e).2 ≤ n then (gallopUpLoop Q n fuel k b e).2 else n) ≤ n := by
  intro fuel
  induction fuel with
  | zero =>
    intro k b e hef _ hb _
    unfold gallopUpLoop
    have hclamp : (if e ≤ n then e else n) = n := by split <;> omega
    rw [hclamp]
    exact ⟨le_of_lt hb, findFrom_le P 0 n (Nat.zero_le _), le_rfl⟩
  | succ fuel ih =>
    intro k b e hef hk hb hbe
    unfold gallopUpLoop
    split
    · rename_i h
      have hPe : P e = false := by
        have := hQ e
        rw [h.2] at this
        rcases hPe : P e with _ | _
        · rfl
        · rw [hPe] at this; exact absurd this (by simp)
      have hlt : e < findFrom P 0 n := findFrom_lt_of_false P n e hmono hPe h.1
      have h2k : 2 ≤ 2 ^ k := by
        calc (2 : Nat) = 2 ^ 1 := rfl
        _ ≤ 2 ^ k := Nat.pow_le_pow_right (by omega) hk
      exact ih (k + 1) e (e + 2 ^ k) (by omega) (by omega) hlt (by omega)
    · rename_i h
      rcases Nat.lt_or_ge e n with hen | hen
      · have hQe : Q e = false := by
          rcases hQe : Q e with _ | _
          · rfl
          · exact absurd ⟨hen, hQe⟩ h
        have hPe : P e = true := by
          have := hQ e
          rw [hQe] at this
          rcases hPe : P e with _ | _
          · rw [hPe] at this; exact absurd this (by simp)
          · rfl
        have hle : findFrom P 0 n ≤ e := findFrom_le_of_true P n e hPe
        have hclamp : (if e ≤ n then e else n) = e := by split <;> omega
        rw [hclamp]
        exact ⟨le_of_lt hb, hle, le_of_lt hen⟩
      · have hclamp : (if e ≤ n then e else n) = n := by split <;> omega
        rw [hclamp]
        exact ⟨le_of_lt hb, findFrom_le P 0 n (Nat.zero_le _), le_rfl⟩

/-- Adjacent sortedness, read through getD. -/
theorem chainAscending_getD [Inhabited α] {comp : α → α → Bool} {arr : List α}
    (hch : chainAscending comp arr) (i : Nat) (hi : i + 1 < arr.length) :
    comp (arr.getD (i + 1) default) (arr.getD i default) = false := by
  unfold chainAscending at hch
  rw [List.chain'_iff_get] at hch
  have h := hch i (by omega)
  rw [List.getD_eq_getElem _ _ (by omega : i < arr.length),
      List.getD_eq_getElem _ _ hi]
  simpa using h

/-- Sortedness extends from adjacent pairs to arbitrary pairs given
irreflexivity and negative transitivity. -/
theorem chainAscending_pairwise [Inhabited α] {comp : α → α → Bool} {arr : List α}
    (hirr : ∀ a, comp a a = false) (hnt : negTrans comp) (hch : chainAscending comp arr) :
    ∀ i j, i ≤ j → j < arr.length →
      comp (arr.getD j default) (arr.getD i default) = false := by
  have key : ∀ d i j, i ≤ j → j < arr.length → j - i ≤ d →
      comp (arr.getD j default) (arr.getD i default) = false := by
    intro d
    induction d with
    | zero =>
      intro i j hij hj hd
      have : i = j := by omega
      subst this
      exact hirr _
    | succ d ih =>
      intro i j hij hj hd
      rcases Nat.eq_or_lt_of_le hij with rfl | hlt
      · exact hirr _
      · have h1 : comp (arr.getD j default) (arr.getD (j - 1) default) = false := by
          have := chainAscending_getD hch (j - 1) (by omega)
          rw [Nat.sub_add_cancel (by omega : 1 ≤ j)] at this
          exact this
        have h2 : comp (arr.getD (j - 1) default) (arr.getD i default) = false :=
          ih i (j - 1) (by omega) (by omega) (by omega)
        exact hnt _ _ _ h1 h2
  exact fun i j hij hj => key j i j hij hj (by omega)

/-- GallopLeft returns the lower bound on sorted data. -/
theorem gallopLeft_eq_lowerBound [Inhabited α] (arr : List α) (comp : α → α → Bool)
    (value : α) (hint : Nat) (hhint : hint < arr.length)
    (hirr : ∀ a, comp a a = false) (hnt : negTrans comp)
    (hch : chainAscending comp arr) :
    gallopLeft arr comp 0 arr.length hint value = lowerBoundIdx arr comp value 0 arr.length := by
  have hpair := chainAscending_pairwise hirr hnt hch
  set n := arr.length with hn
  set P := fun i => !comp (arr.getD i default) value with hP
  have hmono : ∀ i j, i ≤ j → j < n → P i = true → P j = true := by
    intro i j hij hj hPi
    simp only [hP, Bool.not_eq_true'] at hPi ⊢
    exact hnt _ _ _ (hpair i j hij hj) hPi
  have htarget : lowerBoundIdx arr comp value 0 n = findFrom P 0 n := rfl
  unfold gallopLeft
  split
  · rename_i hdir
    have hlbhint : findFrom P 0 n ≤ hint := findFrom_le_of_true P n hint hdir
    obtain ⟨h1, h2, h3⟩ := gallopDownLoop_bracket P n hmono hint 1 (hint - 1) hint
      (by omega) le_rfl (by omega) (by omega) hlbhint (by omega)
    dsimp only
    rw [if_pos (Nat.zero_le _)]
    rw [htarget]
    unfold lowerBoundIdx
    exact findFrom_eq_of _ _ _ _ h1 h2
      (fun i _ hi => findFrom_skipped P 0 n i (Nat.zero_le _) hi)
      (fun hlt => findFrom_found P 0 n (by omega))
  · rename_i hdir
    have hPhint : P hint = false := by
      rcases hPh : P hint with _ | _
      · rfl
      · exact absurd hPh hdir
    have hlbhint : hint < findFrom P 0 n := findFrom_lt_of_false P n hint hmono hPhint hhint
    have hQ : ∀ i, (fun i => comp (arr.getD i default) value) i = !P i := by
      intro i
      simp [hP]
    obtain ⟨h1, h2, h3⟩ := gallopUpLoop_bracket P _ n hmono hQ (n - hint) 1 hint (hint + 1)
      (by omega) le_rfl hlbhint (by omega)
    dsimp only
    rw [htarget]
    unfold lowerBoundIdx
    split
    · rename_i hcl
      rw [if_pos hcl] at h2 h3
      exact findFrom_eq_of _ _ _ _ h1 h2
        (fun i _ hi => findFrom_skipped P 0 n i (Nat.zero_le _) hi)
        (fun hlt => findFrom_found P 0 n (by omega))
    · rename_i hcl
      rw [if_neg hcl] at h2 h3
      exact findFrom_eq_of _ _ _ _ h1 h2
        (fun i _ hi => findFrom_skipped P 0 n i (Nat.zero_le _) hi)
        (fun hlt => findFrom_found P 0 n (by omega))

/-- GallopRight returns the upper bound on sorted data. -/
theorem gallopRight_eq_upperBound [Inhabited α] (arr : List α) (comp : α → α → Bool)
    (value : α) (hint : Nat) (hhint : hint < arr.length)
    (hirr : ∀ a, comp a a = false) (hnt : negTrans comp)
    (hch : chainAscending comp arr) :
    gallopRight arr comp 0 arr.length hint value = upperBoundIdx arr comp value 0 arr.length := by
  have hpair := chainAscending_pairwise hirr hnt hch
  set n := arr.length with hn
  set P := fun i => comp value (arr.getD i default) with hP
  have hmono : ∀ i j, i ≤ j → j < n → P i = true → P j = true := by
    intro i j hij hj hPi
    simp only [hP] at hPi ⊢
    rcases hPj : comp value (arr.getD j default) with _ | _
    · have := hnt _ _ _ hPj (hpair i j hij hj)
      rw [this] at hPi
      exact absurd hPi (by simp)
    · rfl
  have htarget : upperBoundIdx arr comp value 0 n = findFrom P 0 n := rfl
  unfold gallopRight
  split
  · rename_i hdir
    have hlbhint : findFrom P 0 n ≤ hint := findFrom_le_of_true P n hint hdir
    obtain ⟨h1, h2, h3⟩ := gallopDownLoop_bracket P n hmono hint 1 (hint - 1) hint
      (by omega) le_rfl (by omega) (by omega) hlbhint (by omega)
    dsimp only
    rw [if_pos (Nat.zero_le _)]
    rw [htarget]
    unfold upperBoundIdx
    exact findFrom_eq_of _ _ _ _ h1 h2
      (fun i _ hi => findFrom_skipped P 0 n i (Nat.zero_le _) hi)
      (fun hlt => findFrom_found P 0 n (by omega))
  · rename_i hdir
    have hPhint : P hint = false := by
      rcases hPh : P hint with _ | _
      · rfl
      · exact absurd hPh hdir
    have hlbhint : hint < findFrom P 0 n := findFrom_lt_of_false P n hint hmono hPhint hhint
    have hQ : ∀ i, (fun i => !comp value (arr.getD i default)) i = !P i := by
      intro i
      simp [hP]
    obtain ⟨h1, h2, h3⟩ := gallopUpLoop_bracket P _ n hmono hQ (n - hint) 1 hint (hint + 1)
      (by omega) le_rfl hlbhint (by omega)
    dsimp only
    rw [htarget]
    unfold upperBoundIdx
    split
    · rename_i hcl
      rw [if_pos hcl] at h2 h3
      exact findFrom_eq_of _ _ _ _ h1 h2
        (fun i _ hi => findFrom_skipped P 0 n i (Nat.zero_le _) hi)
        (fun hlt => findFrom_found P 0 n (by omega))
    · rename_i hcl
      rw [if_neg hcl] at h2 h3
      exact findFrom_eq_of _ _ _ _ h1 h2
        (fun i _ hi => findFrom_skipped P 0 n i (Nat.zero_le _) hi)
        (fun hlt => findFrom_found P 0 n (by omega))

/-- C6: on every weakly-ascending range and for every in-range hint,
GallopLeft returns the same position as lower_bound (the leftmost p with
!less(*p, v)) and GallopRight the same position as upper_bound (the leftmost
p with less(v, *p)). The comparator hypotheses (irreflexivity and negative
transitivity) are consequences of less being a strict weak order. -/
theorem c6_gallop_eq_stl_bounds [Inhabited α] (arr : List α) (comp : α → α → Bool)
    (value : α) (hint : Nat) (hhint : hint < arr.length)
    (hirr : ∀ a, comp a a = false) (hnt : negTrans comp)
    (hch : chainAscending comp arr) :
    gallopLeft arr comp 0 arr.length hint value = lowerBoundIdx arr comp value 0 arr.length ∧
    gallopRight arr comp 0 arr.length hint value = upperBoundIdx arr comp value 0 arr.length :=
  ⟨gallopLeft_eq_lowerBound arr comp value hint hhint hirr hnt hch,
   gallopRight_eq_upperBound arr comp value hint hhint hirr hnt hch⟩

/-- Witness for c6_gallop_eq_stl_bounds on the array [1,2,2,10] with value 2
and hint 1. -/
theorem c6_gallop_eq_stl_bounds_applied :
    (1 < ([1, 2, 2, 10] : List Nat).length) ∧
    (∀ a : Nat, natLt a a = false) ∧ negTrans natLt ∧
    chainAscending natLt [1, 2, 2, 10] ∧
    (gallopLeft [1, 2, 2, 10] natLt 0 4 1 2 = lowerBoundIdx [1, 2, 2, 10] natLt 2 0 4 ∧
     gallopRight [1, 2, 2, 10] natLt 0 4 1 2 = upperBoundIdx [1, 2, 2, 10] natLt 2 0 4) := by
  refine ⟨by decide, ?_, ?_, ?_, ?_⟩
  · intro a; simp [natLt]
  · intro a b c h1 h2
    simp only [natLt, decide_eq_false_iff_not] at h1 h2 ⊢
    omega
  · unfold chainAscending
    simp [List.chain'_cons, List.chain'_singleton, natLt]
  · exact c6_gallop_eq_stl_bounds [1, 2, 2, 10] natLt 2 1 (by decide)
      (fun a => by simp [natLt])
      (fun a b c h1 h2 => by
        simp only [natLt, decide_eq_false_iff_not] at h1 h2 ⊢
        omega)
      (by
        unfold chainAscending
        simp [List.chain'_cons, List.chain'_singleton, natLt])


/-! Machinery for C3: Sort returns a permutation of its input. First a small
kit about slice, set and the copy loops. -/

/-- Length of a slice. -/
theorem slice_length (l : List α) (i j : Nat) :
    (slice l i j).length = min (j - i) (l.length - i) := by
  simp [slice]

/-- Elements of a slice, read through getElem?. -/
theorem slice_getElem? (l : List α) (i j m : Nat) (h : m < j - i) :
    (slice l i j)[m]? = l[i + m]? := by
  simp [slice, List.getElem?_take, h, List.getElem?_drop]

/-- Empty slice. -/
theorem slice_eq_nil (l : List α) (i j : Nat) (h : j ≤ i) : slice l i j = [] := by
  simp [slice, Nat.sub_eq_zero_of_le h]

/-- The whole list as a slice. -/
theorem slice_all (l : List α) : slice l 0 l.length = l := by
  simp [slice]

/-- Slices concatenate at an interior point. -/
theorem slice_split (l : List α) (i k j : Nat) (h1 : i ≤ k) (h2 : k ≤ j) :
    slice l i j = slice l i k ++ slice l k j := by
  unfold slice
  have hsum : j - i = (k - i) + (j - k) := by omega
  have e : i + (k - i) = k := by omega
  rw [hsum, List.take_add, List.drop_drop, e]

/-- A one-element slice. -/
theorem slice_singleton [Inhabited α] (l : List α) (i : Nat) (h : i < l.length) :
    slice l i (i + 1) = [l.getD i default] := by
  apply List.ext_getElem?
  intro n
  cases n with
  | zero =>
    rw [slice_getElem? l i (i + 1) 0 (by omega)]
    simp [List.getElem?_eq_getElem h, List.getD_eq_getElem?_getD]
  | succ n =>
    have h1 : (slice l i (i + 1)).length ≤ n + 1 := by rw [slice_length]; omega
    rw [List.getElem?_eq_none h1, List.getElem?_eq_none (by simp)]

/-- Slices of lists that agree on the window are equal. -/
theorem slice_congr (l₁ l₂ : List α) (i j : Nat)
    (hlen : l₁.length = l₂.length)
    (h : ∀ k, i ≤ k → k < j → l₁[k]? = l₂[k]?) :
    slice l₁ i j = slice l₂ i j := by
  apply List.ext_getElem?
  intro n
  rcases Nat.lt_or_ge n (j - i) with hn | hn
  · rw [slice_getElem? _ _ _ _ hn, slice_getElem? _ _ _ _ hn]
    exact h (i + n) (by omega) (by omega)
  · have h1 : (slice l₁ i j).length ≤ n := by rw [slice_length]; omega
    have h2 : (slice l₂ i j).length ≤ n := by rw [slice_length]; omega
    rw [List.getElem?_eq_none h1, List.getElem?_eq_none h2]

/-- Replacing the contents of a region [i, j) by a permutation of them,
leaving everything else in place, permutes the whole list. -/
theorem perm_of_region (lnew l : List α) (i j : Nat) (h1 : i ≤ j) (h2 : j ≤ l.length)
    (hlen : lnew.length = l.length)
    (hout : ∀ k, k < i ∨ j ≤ k → lnew[k]? = l[k]?)
    (hperm : (slice lnew i j).Perm (slice l i j)) : lnew.Perm l := by
  have e1 : lnew = slice lnew 0 i ++ slice lnew i j ++ slice lnew j lnew.length := by
    rw [← slice_split lnew 0 i j (by omega) h1,
        ← slice_split lnew 0 j lnew.length (by omega) (by omega), slice_all]
  have e2 : l = slice l 0 i ++ slice l i j ++ slice l j l.length := by
    rw [← slice_split l 0 i j (by omega) h1,
        ← slice_split l 0 j l.length (by omega) h2, slice_all]
  have q1 : slice lnew 0 i = slice l 0 i :=
    slice_congr _ _ _ _ hlen (fun k _ hk => hout k (Or.inl hk))
  have q2 : slice lnew j lnew.length = slice l j l.length := by
    rw [hlen]
    exact slice_congr _ _ _ _ hlen (fun k hk _ => hout k (Or.inr hk))
  rw [e1, e2, q1, q2]
  exact ((List.Perm.refl _).append hperm).append (List.Perm.refl _)

/-- getD of a set at a different position. -/
theorem getD_set_ne [Inhabited α] (l : List α) (i j : Nat) (x : α) (h : i ≠ j) :
    (l.set i x).getD j default = l.getD j default := by
  rw [List.getD_eq_getElem?_getD, List.getD_eq_getElem?_getD, List.getElem?_set_ne h]

/-- copyFromTo preserves the length of the target. -/
theorem copyFromTo_length [Inhabited α] (src : List α) :
    ∀ n s t (dst : List α), (copyFromTo src dst s t n).length = dst.length := by
  intro n
  induction n with
  | zero => intro s t dst; rfl
  | succ n ih =>
    intro s t dst
    unfold copyFromTo
    rw [ih]
    simp

/-- copyFromTo only touches the window [t, t+n). -/
theorem copyFromTo_getElem?_outside [Inhabited α] (src : List α) :
    ∀ n s t (dst : List α) k, (k < t ∨ t + n ≤ k) →
      (copyFromTo src dst s t n)[k]? = dst[k]? := by
  intro n
  induction n with
  | zero => intro s t dst k _; rfl
  | succ n ih =>
    intro s t dst k hk
    unfold copyFromTo
    rw [ih _ _ _ _ (by omega)]
    exact List.getElem?_set_ne (by omega)

/-- copyFromTo unrolled at the far end. -/
theorem copyFromTo_snoc [Inhabited α] (src : List α) :
    ∀ n s t (dst : List α),
      copyFromTo src dst s t (n + 1) =
        (copyFromTo src dst s t n).set (t + n) (src.getD (s + n) default) := by
  intro n
  induction n with
  | zero => intro s t dst; simp [copyFromTo]
  | succ n ih =>
    intro s t dst
    show copyFromTo src (dst.set t (src.getD s default)) (s + 1) (t + 1) (n + 1) = _
    rw [ih]
    show _ = (copyFromTo src (dst.set t (src.getD s default)) (s + 1) (t + 1) n).set
      (t + (n + 1)) (src.getD (s + (n + 1)) default)
    have e1 : t + 1 + n = t + (n + 1) := by omega
    have e2 : s + 1 + n = s + (n + 1) := by omega
    rw [e1, e2]

/-- copyFromTo commutes with a set outside its window. -/
theorem copyFromTo_set_comm [Inhabited α] (src : List α) :
    ∀ n s t (dst : List α) p x, (p < t ∨ t + n ≤ p) →
      copyFromTo src (dst.set p x) s t n = (copyFromTo src dst s t n).set p x := by
  intro n
  induction n with
  | zero => intro s t dst p x _; rfl
  | succ n ih =>
    intro s t dst p x hp
    show copyFromTo src ((dst.set p x).set t (src.getD s default)) (s + 1) (t + 1) n = _
    rw [List.set_comm _ _ _ (by omega : p ≠ t), ih _ _ _ _ _ (by omega)]
    rfl

/-- Values copyFromTo writes, read through getElem?. -/
theorem copyFromTo_getElem?_inside [Inhabited α] (src : List α) :
    ∀ n s t (dst : List α) m, m < n → t + n ≤ dst.length → s + n ≤ src.length →
      (copyFromTo src dst s t n)[t + m]? = src[s + m]? := by
  intro n
  induction n with
  | zero => intro s t dst m hm _ _; omega
  | succ n ih =>
    intro s t dst m hm ht hs
    show (copyFromTo src (dst.set t (src.getD s default)) (s + 1) (t + 1) n)[t + m]? = _
    cases m with
    | zero =>
      simp only [Nat.add_zero]
      rw [copyFromTo_getElem?_outside src n (s + 1) (t + 1) _ t (by omega)]
      rw [List.getElem?_set_self (by simpa using (by omega : t < dst.length))]
      rw [List.getD_eq_getElem?_getD]
      rw [List.getElem?_eq_getElem (by omega : s < src.length)]
      simp
    | succ m =>
      have e1 : t + (m + 1) = (t + 1) + m := by omega
      have e2 : s + (m + 1) = (s + 1) + m := by omega
      rw [e1, e2]
      exact ih (s + 1) (t + 1) _ m (by omega) (by simpa using (by omega)) (by omega)

/-- The window copyFromTo writes equals the corresponding source window. -/
theorem copyFromTo_slice [Inhabited α] (src : List α)
    (n s t : Nat) (dst : List α) (ht : t + n ≤ dst.length) (hs : s + n ≤ src.length) :
    slice (copyFromTo src dst s t n) t (t + n) = slice src s (s + n) := by
  apply List.ext_getElem?
  intro m
  rcases Nat.lt_or_ge m n with hm | hm
  · rw [slice_getElem? _ _ _ _ (by omega), slice_getElem? _ _ _ _ (by omega)]
    exact copyFromTo_getElem?_inside src n s t dst m hm ht hs
  · have h1 : (slice (copyFromTo src dst s t n) t (t + n)).length ≤ m := by
      rw [slice_length, copyFromTo_length]; omega
    have h2 : (slice src s (s + n)).length ≤ m := by rw [slice_length]; omega
    rw [List.getElem?_eq_none h1, List.getElem?_eq_none h2]

/-- Backward copy from a separate source is the forward copy of the shifted
windows. -/
theorem copyBackwardFromTo_eq [Inhabited α] (src : List α) :
    ∀ n se te (dst : List α), n ≤ se → n ≤ te →
      copyBackwardFromTo src dst se te n = copyFromTo src dst (se - n) (te - n) n := by
  intro n
  induction n with
  | zero => intro se te dst _ _; rfl
  | succ n ih =>
    intro se te dst hse hte
    show copyBackwardFromTo src (dst.set (te - 1) (src.getD (se - 1) default)) (se - 1) (te - 1) n = _
    rw [ih (se - 1) (te - 1) _ (by omega) (by omega)]
    rw [copyFromTo_set_comm src n (se - 1 - n) (te - 1 - n) dst (te - 1) _ (by omega)]
    rw [copyFromTo_snoc]
    have e1 : se - (n + 1) = se - 1 - n := by omega
    have e2 : te - (n + 1) = te - 1 - n := by omega
    have e3 : te - 1 - n + n = te - 1 := by omega
    have e4 : se - 1 - n + n = se - 1 := by omega
    rw [e1, e2, e3, e4]

/-- A forward in-place copy with destination at or left of the source reads
only unwritten positions, so it equals the copy from a snapshot. -/
theorem copyWithin_eq [Inhabited α] :
    ∀ n s t (l src0 : List α), t ≤ s →
      (∀ m, m < n → l.getD (s + m) default = src0.getD (s + m) default) →
      copyWithin l s t n = copyFromTo src0 l s t n := by
  intro n
  induction n with
  | zero => intro s t l src0 _ _; rfl
  | succ n ih =>
    intro s t l src0 hts hagree
    show copyWithin (l.set t (l.getD s default)) (s + 1) (t + 1) n = _
    have hv : l.getD s default = src0.getD s default := by
      have := hagree 0 (by omega)
      simpa using this
    rw [hv]
    show _ = copyFromTo src0 (l.set t (src0.getD s default)) (s + 1) (t + 1) n
    apply ih
    · omega
    · intro m hm
      rw [getD_set_ne _ _ _ _ (by omega : t ≠ s + 1 + m)]
      have := hagree (m + 1) (by omega)
      have e : s + (m + 1) = s + 1 + m := by omega
      rw [e] at this
      exact this

/-- A backward in-place copy with destination at or right of the source reads
only unwritten positions, so it equals the copy from a snapshot. -/
theorem copyBackwardWithin_eq [Inhabited α] :
    ∀ n se te (l src0 : List α), se ≤ te → n ≤ se →
      (∀ m, m < n → l.getD (se - 1 - m) default = src0.getD (se - 1 - m) default) →
      copyBackwardWithin l se te n = copyBackwardFromTo src0 l se te n := by
  intro n
  induction n with
  | zero => intro se te l src0 _ _ _; rfl
  | succ n ih =>
    intro se te l src0 hst hn hagree
    show copyBackwardWithin (l.set (te - 1) (l.getD (se - 1) default)) (se - 1) (te - 1) n = _
    have hv : l.getD (se - 1) default = src0.getD (se - 1) default := by
      have := hagree 0 (by omega)
      simpa using this
    rw [hv]
    show _ = copyBackwardFromTo src0 (l.set (te - 1) (src0.getD (se - 1) default)) (se - 1) (te - 1) n
    apply ih
    · omega
    · omega
    · intro m hm
      rw [getD_set_ne _ _ _ _ (by omega : te - 1 ≠ se - 1 - 1 - m)]
      have := hagree (m + 1) (by omega)
      have e : se - 1 - (m + 1) = se - 1 - 1 - m := by omega
      rw [e] at this
      exact this


/-- getD of a set at the written position. -/
theorem getD_set_self_of_lt {β : Type} (l : List β) (i : Nat) (x d : β) (h : i < l.length) :
    (l.set i x).getD i d = x := by
  rw [List.getD_eq_getElem?_getD, List.getElem?_set_self h]
  rfl

/-- getD of a set at another position (explicit default). -/
theorem getD_set_neq {β : Type} (l : List β) (i j : Nat) (x d : β) (h : i ≠ j) :
    (l.set i x).getD j d = l.getD j d := by
  rw [List.getD_eq_getElem?_getD, List.getD_eq_getElem?_getD, List.getElem?_set_ne h]

/-- Slice of a set outside the window. -/
theorem slice_set_outside (l : List α) (t i j : Nat) (x : α) (h : t < i ∨ j ≤ t) :
    slice (l.set t x) i j = slice l i j :=
  slice_congr _ _ _ _ (by simp) (fun k hk hk2 => List.getElem?_set_ne (by omega))

/-- A set at the right end of a window extends the slice by its value. -/
theorem slice_set_snoc [Inhabited α] (l : List α) (D t : Nat) (x : α) (hD : D ≤ t)
    (ht : t < l.length) :
    slice (l.set t x) D (t + 1) = slice l D t ++ [x] := by
  rw [slice_split _ D t (t + 1) hD (by omega)]
  congr 1
  · exact slice_set_outside l t D t x (by omega)
  · rw [slice_singleton _ t (by simp [ht]), getD_set_self_of_lt _ _ _ _ ht]

/-- Peeling the first element off a slice. -/
theorem slice_cons [Inhabited α] (l : List α) (i j : Nat) (h1 : i < j) (h2 : i < l.length) :
    slice l i j = l.getD i default :: slice l (i + 1) j := by
  rw [slice_split l i (i + 1) j (by omega) (by omega), slice_singleton l i h2]
  rfl

/-- Slices of a copyFromTo outside the written window. -/
theorem slice_copyFromTo_outside [Inhabited α] (src dst : List α) (n s t i j : Nat)
    (h : j ≤ t ∨ t + n ≤ i) :
    slice (copyFromTo src dst s t n) i j = slice dst i j :=
  slice_congr _ _ _ _ (copyFromTo_length src n s t dst)
    (fun k hk hk2 => copyFromTo_getElem?_outside src n s t dst k (by omega))

/-- Swapping two entries permutes the list. -/
theorem set_set_swap_perm [Inhabited α] (l : List α) (i j : Nat) (h1 : i < j)
    (h2 : j < l.length) :
    (((l.set i (l.getD j default)).set j (l.getD i default))).Perm l := by
  set a := l.getD i default with ha
  set b := l.getD j default with hb
  set lnew := (l.set i b).set j a with hlnew
  have hlen : lnew.length = l.length := by simp [hlnew]
  apply perm_of_region lnew l i (j + 1) (by omega) (by omega) hlen
  · intro k hk
    rw [hlnew, List.getElem?_set_ne (by omega : j ≠ k), List.getElem?_set_ne (by omega : i ≠ k)]
  · have e1 : slice lnew i (j + 1) = b :: (slice l (i + 1) j ++ [a]) := by
      rw [slice_cons lnew i (j + 1) (by omega) (by simp [hlnew]; omega)]
      congr 1
      · rw [hlnew, getD_set_neq _ _ _ _ _ (by omega : j ≠ i), getD_set_self_of_lt _ _ _ _ (by omega)]
      · rw [slice_split lnew (i + 1) j (j + 1) (by omega) (by omega)]
        congr 1
        · rw [hlnew, slice_set_outside _ j (i + 1) j _ (by omega),
              slice_set_outside _ i (i + 1) j _ (by omega)]
        · rw [slice_singleton lnew j (by simp [hlnew]; omega)]
          rw [hlnew, getD_set_self_of_lt _ _ _ _ (by simpa using h2)]
    have e2 : slice l i (j + 1) = a :: (slice l (i + 1) j ++ [b]) := by
      rw [slice_cons l i (j + 1) (by omega) (by omega)]
      congr 1
      rw [slice_split l (i + 1) j (j + 1) (by omega) (by omega), slice_singleton l j h2]
    rw [e1, e2]
    have p1 : (slice l (i + 1) j ++ [a]).Perm (a :: slice l (i + 1) j) := by
      simpa using @List.perm_middle _ a (slice l (i + 1) j) []
    have p2 : (slice l (i + 1) j ++ [b]).Perm (b :: slice l (i + 1) j) := by
      simpa using @List.perm_middle _ b (slice l (i + 1) j) []
    exact ((p1.cons b).trans (List.Perm.swap a b _)).trans ((p2.cons a).symm)

/-- The reverse loop permutes the array. -/
theorem reverseRunLoop_perm [Inhabited α] :
    ∀ fuel (l : List α) first last, last < l.length →
      (reverseRunLoop fuel l first last).Perm l := by
  intro fuel
  induction fuel with
  | zero => intro l first last _; exact List.Perm.refl _
  | succ fuel ih =>
    intro l first last hlast
    unfold reverseRunLoop
    split
    · rename_i hfl
      refine (ih _ (first + 1) (last - 1) ?_).trans (set_set_swap_perm l first last hfl hlast)
      simp
      omega
    · exact List.Perm.refl _

/-- ReverseRun permutes the array. -/
theorem reverseRun_perm [Inhabited α] (l : List α) (first last : Nat) (h : last ≤ l.length) (h2 : 0 < last) :
    (reverseRun l first last).Perm l :=
  reverseRunLoop_perm last l first (last - 1) (by omega)

/-- reverseRunLoop preserves length. -/
theorem reverseRunLoop_length [Inhabited α] :
    ∀ fuel (l : List α) first last, (reverseRunLoop fuel l first last).length = l.length := by
  intro fuel
  induction fuel with
  | zero => intro l first last; rfl
  | succ fuel ih =>
    intro l first last
    unfold reverseRunLoop
    split
    · rw [ih]; simp
    · rfl

/-- The ascending detection loop stays in [p, last]. -/
theorem detectAscLoop_bounds [Inhabited α] (arr : List α) (comp : α → α → Bool) (last : Nat) :
    ∀ fuel p, p < last → p ≤ detectAscLoop arr comp last fuel p ∧ detectAscLoop arr comp last fuel p ≤ last := by
  intro fuel
  induction fuel with
  | zero => intro p h; unfold detectAscLoop; exact ⟨le_rfl, by omega⟩
  | succ fuel ih =>
    intro p h
    unfold detectAscLoop
    dsimp only
    split
    · rename_i hg
      have := ih (p + 1) hg.1
      exact ⟨by omega, this.2⟩
    · exact ⟨by omega, by omega⟩

/-- The descending detection loop stays in [p, last]. -/
theorem detectDescLoop_bounds [Inhabited α] (arr : List α) (comp : α → α → Bool) (last : Nat) :
    ∀ fuel p, p < last → p ≤ detectDescLoop arr comp last fuel p ∧ detectDescLoop arr comp last fuel p ≤ last := by
  intro fuel
  induction fuel with
  | zero => intro p h; unfold detectDescLoop; exact ⟨le_rfl, by omega⟩
  | succ fuel ih =>
    intro p h
    unfold detectDescLoop
    dsimp only
    split
    · rename_i hg
      have := ih (p + 1) hg.1
      exact ⟨by omega, this.2⟩
    · exact ⟨by omega, by omega⟩

/-- DetectRunAndMakeAscending permutes the array, preserves its length, and
returns a boundary in (first, last]. -/
theorem detectRun_sound [Inhabited α] (arr : List α) (le comp : α → α → Bool)
    (first last : Nat) (h1 : first < last) (h2 : last ≤ arr.length) :
    first < (detectRunAndMakeAscending arr le comp first last).1 ∧
    (detectRunAndMakeAscending arr le comp first last).1 ≤ last ∧
    ((detectRunAndMakeAscending arr le comp first last).2).Perm arr ∧
    ((detectRunAndMakeAscending arr le comp first last).2).length = arr.length := by
  unfold detectRunAndMakeAscending
  rw [if_neg (by omega)]
  split
  · exact ⟨by omega, by omega, List.Perm.refl _, rfl⟩
  · rename_i hgt
    dsimp only
    split
    · have := detectAscLoop_bounds arr comp last last (first + 1) (by omega)
      exact ⟨by omega, this.2, List.Perm.refl _, rfl⟩
    · have hb := detectDescLoop_bounds arr comp last last (first + 1) (by omega)
      have hp2 : 0 < detectDescLoop arr comp last last (first + 1) := by omega
      refine ⟨by omega, hb.2, ?_, ?_⟩
      · exact reverseRun_perm arr first _ (by omega) hp2
      · unfold reverseRun
        rw [reverseRunLoop_length]

/-- Both exponential-search loops keep their window ordered and inside the
range; facts needed to bound the gallop results. -/
theorem gallopDownLoop_window (P : Nat → Bool) (first : Nat) :
    ∀ fuel k b e, b ≤ e → first ≤ e →
      (gallopDownLoop P first fuel k b e).1 ≤ (gallopDownLoop P first fuel k b e).2 ∧
      first ≤ (gallopDownLoop P first fuel k b e).2 ∧
      (gallopDownLoop P first fuel k b e).2 ≤ e := by
  intro fuel
  induction fuel with
  | zero => intro k b e hbe hfe; exact ⟨hbe, hfe, le_rfl⟩
  | succ fuel ih =>
    intro k b e hbe hfe
    unfold gallopDownLoop
    split
    · rename_i hg
      obtain ⟨hfb, hPb⟩ := hg
      have hp : 0 < 2 ^ k := Nat.pos_pow_of_pos k (by omega)
      have hrec := ih (k + 1) (b - 2 ^ k) b (by omega) (by omega)
      exact ⟨hrec.1, hrec.2.1, le_trans hrec.2.2 hbe⟩
    · exact ⟨hbe, hfe, le_rfl⟩

/-- The rightward loop keeps begin below both end and last. -/
theorem gallopUpLoop_window (Q : Nat → Bool) (last : Nat) :
    ∀ fuel k b e, b < e → b < last →
      b ≤ (gallopUpLoop Q last fuel k b e).1 ∧
      (gallopUpLoop Q last fuel k b e).1 < (gallopUpLoop Q last fuel k b e).2 ∧
      (gallopUpLoop Q last fuel k b e).1 < last := by
  intro fuel
  induction fuel with
  | zero => intro k b e hbe hbl; exact ⟨le_rfl, hbe, hbl⟩
  | succ fuel ih =>
    intro k b e hbe hbl
    unfold gallopUpLoop
    split
    · rename_i hg
      have h2k : 1 ≤ 2 ^ k := Nat.one_le_two_pow
      have := ih (k + 1) e (e + 2 ^ k) (by omega) hg.1
      exact ⟨by omega, this.2.1, this.2.2⟩
    · exact ⟨le_rfl, hbe, hbl⟩

/-- GallopLeft stays inside [first, last]. -/
theorem gallopLeft_bounds [Inhabited α] (arr : List α) (comp : α → α → Bool)
    (first last hint : Nat) (value : α) (h1 : first ≤ hint) (h2 : hint < last) :
    first ≤ gallopLeft arr comp first last hint value ∧
    gallopLeft arr comp first last hint value ≤ last := by
  unfold gallopLeft
  split
  · dsimp only
    set be := gallopDownLoop (fun i => !comp (arr.getD i default) value) first hint 1 (hint - 1) hint with hbe
    have hw := gallopDownLoop_window (fun i => !comp (arr.getD i default) value) first hint 1
      (hint - 1) hint (by omega) h1
    rw [← hbe] at hw
    set b := if first ≤ be.1 then be.1 else first with hb
    have hb1 : first ≤ b := by rw [hb]; split <;> omega
    have hb2 : b ≤ be.2 := by rw [hb]; split <;> omega
    unfold lowerBoundIdx
    constructor
    · exact le_trans hb1 (findFrom_ge _ b be.2)
    · have := findFrom_le (fun i => !comp (arr.getD i default) value) b be.2 hb2
      omega
  · dsimp only
    set be := gallopUpLoop (fun i => comp (arr.getD i default) value) last (last - hint) 1 hint (hint + 1) with hbe
    have hw := gallopUpLoop_window (fun i => comp (arr.getD i default) value) last (last - hint) 1
      hint (hint + 1) (by omega) h2
    rw [← hbe] at hw
    set e := if be.2 ≤ last then be.2 else last with he
    have he1 : be.1 ≤ e := by rw [he]; split <;> omega
    have he2 : e ≤ last := by rw [he]; split <;> omega
    unfold lowerBoundIdx
    constructor
    · have := findFrom_ge (fun i => !comp (arr.getD i default) value) be.1 e
      omega
    · have := findFrom_le (fun i => !comp (arr.getD i default) value) be.1 e he1
      omega

/-- GallopRight stays inside [first, last]. -/
theorem gallopRight_bounds [Inhabited α] (arr : List α) (comp : α → α → Bool)
    (first last hint : Nat) (value : α) (h1 : first ≤ hint) (h2 : hint < last) :
    first ≤ gallopRight arr comp first last hint value ∧
    gallopRight arr comp first last hint value ≤ last := by
  unfold gallopRight
  split
  · dsimp only
    set be := gallopDownLoop (fun i => comp value (arr.getD i default)) first hint 1 (hint - 1) hint with hbe
    have hw := gallopDownLoop_window (fun i => comp value (arr.getD i default)) first hint 1
      (hint - 1) hint (by omega) h1
    rw [← hbe] at hw
    set b := if first ≤ be.1 then be.1 else first with hb
    have hb1 : first ≤ b := by rw [hb]; split <;> omega
    have hb2 : b ≤ be.2 := by rw [hb]; split <;> omega
    unfold upperBoundIdx
    constructor
    · exact le_trans hb1 (findFrom_ge _ b be.2)
    · have := findFrom_le (fun i => comp value (arr.getD i default)) b be.2 hb2
      omega
  · dsimp only
    set be := gallopUpLoop (fun i => !comp value (arr.getD i default)) last (last - hint) 1 hint (hint + 1) with hbe
    have hw := gallopUpLoop_window (fun i => !comp value (arr.getD i default)) last (last - hint) 1
      hint (hint + 1) (by omega) h2
    rw [← hbe] at hw
    set e := if be.2 ≤ last then be.2 else last with he
    have he1 : be.1 ≤ e := by rw [he]; split <;> omega
    have he2 : e ≤ last := by rw [he]; split <;> omega
    unfold upperBoundIdx
    constructor
    · have := findFrom_ge (fun i => comp value (arr.getD i default)) be.1 e
      omega
    · have := findFrom_le (fun i => comp value (arr.getD i default)) be.1 e he1
      omega


/-- Each binary-insertion step rotates [j, i] one step: a permutation. -/
theorem binaryInsertionSortLoop_perm [Inhabited α] (comp : α → α → Bool) (first last : Nat) :
    ∀ fuel (arr : List α) i, first ≤ i → last ≤ arr.length →
      (binaryInsertionSortLoop comp first last fuel arr i).Perm arr ∧
      (binaryInsertionSortLoop comp first last fuel arr i).length = arr.length := by
  intro fuel
  induction fuel with
  | zero => intro arr i _ _; exact ⟨List.Perm.refl _, rfl⟩
  | succ fuel ih =>
    intro arr i hfi hla
    unfold binaryInsertionSortLoop
    split
    · rename_i hil
      dsimp only
      set value := arr.getD i default with hval
      set j := upperBoundIdx arr comp value first i with hj
      have hjb1 : first ≤ j := findFrom_ge _ first i
      have hjb2 : j ≤ i := findFrom_le _ first i hfi
      have hilen : i < arr.length := by omega
      have hcb : copyBackwardWithin arr i (i + 1) (i - j) =
          copyFromTo arr arr j (j + 1) (i - j) := by
        rw [copyBackwardWithin_eq (i - j) i (i + 1) arr arr (by omega) (by omega)
              (fun m _ => rfl),
            copyBackwardFromTo_eq arr (i - j) i (i + 1) arr (by omega) (by omega)]
        congr 1 <;> omega
      rw [hcb]
      set arr2 := copyFromTo arr arr j (j + 1) (i - j) with harr2
      have hlen2 : arr2.length = arr.length := by rw [harr2, copyFromTo_length]
      have hstep : ((arr2.set j value)).Perm arr := by
        apply perm_of_region (arr2.set j value) arr j (i + 1) (by omega) (by omega)
        · simp [hlen2]
        · intro k hk
          rw [List.getElem?_set_ne (by omega : j ≠ k), harr2,
              copyFromTo_getElem?_outside arr (i - j) j (j + 1) arr k (by omega)]
        · have e1 : slice (arr2.set j value) j (i + 1) = value :: slice arr j i := by
            rw [slice_cons _ j (i + 1) (by omega) (by rw [List.length_set, hlen2]; omega)]
            rw [getD_set_self_of_lt _ _ _ _ (by rw [hlen2]; omega)]
            rw [slice_set_outside _ j (j + 1) (i + 1) _ (by omega)]
            congr 1
            have e2 : i + 1 = (j + 1) + (i - j) := by omega
            have e3 : i = j + (i - j) := by omega
            rw [e2, harr2, copyFromTo_slice arr (i - j) j (j + 1) arr (by omega) (by omega), ← e3]
          have e4 : slice arr j (i + 1) = slice arr j i ++ [value] := by
            rw [slice_split arr j i (i + 1) hjb2 (by omega), slice_singleton arr i hilen]
          rw [e1, e4]
          have hmid : (slice arr j i ++ [value]).Perm (value :: slice arr j i) := by
            simpa using @List.perm_middle _ value (slice arr j i) []
          exact hmid.symm
      have hslen : (arr2.set j value).length = arr.length := by
        rw [List.length_set, hlen2]
      have hrec := ih (arr2.set j value) (i + 1) (by omega) (by omega)
      exact ⟨hrec.1.trans hstep, by rw [hrec.2, hslen]⟩
    · exact ⟨List.Perm.refl _, rfl⟩

/-- BinaryInsertionSort permutes the array and preserves its length. -/
theorem binaryInsertionSort_sound [Inhabited α] (arr : List α) (comp : α → α → Bool)
    (first last : Nat) (h : last ≤ arr.length) :
    (binaryInsertionSort arr comp first last).Perm arr ∧
    (binaryInsertionSort arr comp first last).length = arr.length :=
  binaryInsertionSortLoop_perm comp first last (last - first) arr (first + 1) (by omega) h


/-- MLStep is transitive. -/
theorem MLStep_trans [Inhabited α] {scratch : List α} {pA lastAs lastB : Nat}
    {v1 v2 v3 : MergeVars α} (h1 : MLStep scratch pA lastAs lastB v1 v2)
    (h2 : MLStep scratch pA lastAs lastB v2 v3) : MLStep scratch pA lastAs lastB v1 v3 :=
  ⟨h2.1.trans h1.1, fun k hk => (h2.2.1 k hk).trans (h1.2.1 k hk), h2.2.2.trans h1.2.2⟩

/-- A step followed by a finished loop gives books for the earlier state. -/
theorem MLBooks_of_step [Inhabited α] {scratch : List α} {pA lastAs lastB : Nat}
    {v1 v2 : MergeVars α} {out : List α} (h1 : MLStep scratch pA lastAs lastB v1 v2)
    (h2 : MLBooks scratch pA lastAs lastB v2 out) : MLBooks scratch pA lastAs lastB v1 out :=
  ⟨h2.1.trans h1.1, fun k hk => (h2.2.1 k hk).trans (h1.2.1 k hk), h2.2.2.trans h1.2.2⟩

/-- Moving an element to the end of the written prefix from the head of the
trailing block. -/
theorem perm_emit_head (P S T : List α) (b : α) :
    (((P ++ [b]) ++ S) ++ T).Perm ((P ++ S) ++ (b :: T)) := by
  have hmid : (b :: (S ++ T)).Perm (S ++ b :: T) := (@List.perm_middle _ b S T).symm
  have h : (P ++ (b :: (S ++ T))).Perm (P ++ (S ++ (b :: T))) :=
    List.Perm.append_left P hmid
  simpa [List.append_assoc] using h

/-- Moving a whole block from after the middle block to before it. -/
theorem perm_emit_block (P S T C : List α) :
    (((P ++ C) ++ S) ++ T).Perm ((P ++ S) ++ (C ++ T)) := by
  have h : (P ++ ((C ++ S) ++ T)).Perm (P ++ ((S ++ C) ++ T)) :=
    List.Perm.append_left P (List.Perm.append List.perm_append_comm (List.Perm.refl T))
  simpa [List.append_assoc] using h

/-- Emitting the current element of run B in MergeLow. -/
theorem ml_emitB [Inhabited α] (scratch : List α) (pA lastAs lastB N : Nat)
    (v vnew : MergeVars α) (hInv : MLInv scratch pA lastAs lastB N v) (hB1 : 1 ≤ v.lengthB)
    (ha : vnew.arr = v.arr.set v.cursorDest (v.arr.getD v.cursorB default))
    (hd : vnew.cursorDest = v.cursorDest + 1) (hb : vnew.cursorB = v.cursorB + 1)
    (hlb : vnew.lengthB = v.lengthB - 1) (hca : vnew.cursorA = v.cursorA)
    (hla : vnew.lengthA = v.lengthA) :
    MLInv scratch pA lastAs lastB N vnew ∧ MLStep scratch pA lastAs lastB v vnew := by
  obtain ⟨hN, hsl, hA, hBtot, hlbN, hBd, hpd⟩ := hInv
  have hcdN : v.cursorDest < N := by omega
  have hcbN : v.cursorB < N := by omega
  refine ⟨⟨?_, hsl, ?_, ?_, hlbN, ?_, ?_⟩, ⟨?_, ?_, ?_⟩⟩
  · rw [ha, List.length_set, hN]
  · rw [hca, hla]; exact hA
  · rw [hb, hlb]; omega
  · rw [hb, hd, hla]; omega
  · rw [hd]; omega
  · rw [ha, List.length_set]
  · intro k hk
    rw [ha]
    exact List.getElem?_set_ne (by omega)
  · unfold comboLow
    rw [ha, hd, hb, hca]
    have e1 : slice (v.arr.set v.cursorDest (v.arr.getD v.cursorB default)) pA (v.cursorDest + 1) =
        slice v.arr pA v.cursorDest ++ [v.arr.getD v.cursorB default] :=
      slice_set_snoc v.arr pA v.cursorDest _ hpd (by omega)
    have e2 : slice (v.arr.set v.cursorDest (v.arr.getD v.cursorB default)) (v.cursorB + 1) lastB =
        slice v.arr (v.cursorB + 1) lastB :=
      slice_set_outside _ _ _ _ _ (by omega)
    have e3 : slice v.arr v.cursorB lastB =
        v.arr.getD v.cursorB default :: slice v.arr (v.cursorB + 1) lastB :=
      slice_cons v.arr v.cursorB lastB (by omega) (by omega)
    rw [e1, e2, e3]
    exact perm_emit_head _ _ _ _

/-- Emitting the current element of run A (from the merge area) in
MergeLow. -/
theorem ml_emitA [Inhabited α] (scratch : List α) (pA lastAs lastB N : Nat)
    (v vnew : MergeVars α) (hInv : MLInv scratch pA lastAs lastB N v) (hA1 : 1 ≤ v.lengthA)
    (ha : vnew.arr = v.arr.set v.cursorDest (scratch.getD v.cursorA default))
    (hd : vnew.cursorDest = v.cursorDest + 1) (hcb : vnew.cursorB = v.cursorB)
    (hlb : vnew.lengthB = v.lengthB) (hca : vnew.cursorA = v.cursorA + 1)
    (hla : vnew.lengthA = v.lengthA - 1) :
    MLInv scratch pA lastAs lastB N vnew ∧ MLStep scratch pA lastAs lastB v vnew := by
  obtain ⟨hN, hsl, hA, hBtot, hlbN, hBd, hpd⟩ := hInv
  have hcdN : v.cursorDest < N := by omega
  refine ⟨⟨?_, hsl, ?_, ?_, hlbN, ?_, ?_⟩, ⟨?_, ?_, ?_⟩⟩
  · rw [ha, List.length_set, hN]
  · rw [hca, hla]; omega
  · rw [hcb, hlb]; omega
  · rw [hcb, hd, hla]; omega
  · rw [hd]; omega
  · rw [ha, List.length_set]
  · intro k hk
    rw [ha]
    exact List.getElem?_set_ne (by omega)
  · unfold comboLow
    rw [ha, hd, hcb, hca]
    have e1 : slice (v.arr.set v.cursorDest (scratch.getD v.cursorA default)) pA (v.cursorDest + 1) =
        slice v.arr pA v.cursorDest ++ [scratch.getD v.cursorA default] :=
      slice_set_snoc v.arr pA v.cursorDest _ hpd (by omega)
    have e2 : slice (v.arr.set v.cursorDest (scratch.getD v.cursorA default)) v.cursorB lastB =
        slice v.arr v.cursorB lastB :=
      slice_set_outside _ _ _ _ _ (by omega)
    have e3 : slice scratch v.cursorA lastAs =
        scratch.getD v.cursorA default :: slice scratch (v.cursorA + 1) lastAs :=
      slice_cons scratch v.cursorA lastAs (by omega) (by omega)
    rw [e1, e2, e3]
    have he : (slice v.arr pA v.cursorDest ++ [scratch.getD v.cursorA default]) ++
        slice scratch (v.cursorA + 1) lastAs =
        slice v.arr pA v.cursorDest ++
          (scratch.getD v.cursorA default :: slice scratch (v.cursorA + 1) lastAs) := by
      simp [List.append_assoc]
    rw [he]

/-- Bulk-copying a galloped chunk of run A from the merge area in
MergeLow. -/
theorem ml_chunkA [Inhabited α] (scratch : List α) (pA lastAs lastB N : Nat)
    (v vnew : MergeVars α) (cA : Nat) (hInv : MLInv scratch pA lastAs lastB N v)
    (hcA : cA ≤ v.lengthA)
    (ha : vnew.arr = copyFromTo scratch v.arr v.cursorA v.cursorDest cA)
    (hd : vnew.cursorDest = v.cursorDest + cA) (hcb : vnew.cursorB = v.cursorB)
    (hlb : vnew.lengthB = v.lengthB) (hca : vnew.cursorA = v.cursorA + cA)
    (hla : vnew.lengthA = v.lengthA - cA) :
    MLInv scratch pA lastAs lastB N vnew ∧ MLStep scratch pA lastAs lastB v vnew := by
  obtain ⟨hN, hsl, hA, hBtot, hlbN, hBd, hpd⟩ := hInv
  have hdG : v.cursorDest + cA ≤ N := by omega
  refine ⟨⟨?_, hsl, ?_, ?_, hlbN, ?_, ?_⟩, ⟨?_, ?_, ?_⟩⟩
  · rw [ha, copyFromTo_length, hN]
  · rw [hca, hla]; omega
  · rw [hcb, hlb]; omega
  · rw [hcb, hd, hla]; omega
  · rw [hd]; omega
  · rw [ha, copyFromTo_length]
  · intro k hk
    rw [ha]
    exact copyFromTo_getElem?_outside scratch cA v.cursorA v.cursorDest v.arr k (by omega)
  · unfold comboLow
    rw [ha, hd, hcb, hca]
    have e1 : slice (copyFromTo scratch v.arr v.cursorA v.cursorDest cA) pA (v.cursorDest + cA) =
        slice v.arr pA v.cursorDest ++ slice scratch v.cursorA (v.cursorA + cA) := by
      rw [slice_split _ pA v.cursorDest (v.cursorDest + cA) hpd (by omega)]
      congr 1
      · exact slice_copyFromTo_outside scratch v.arr cA v.cursorA v.cursorDest pA v.cursorDest
          (Or.inl le_rfl)
      · exact copyFromTo_slice scratch cA v.cursorA v.cursorDest v.arr (by omega) (by omega)
    have e2 : slice (copyFromTo scratch v.arr v.cursorA v.cursorDest cA) v.cursorB lastB =
        slice v.arr v.cursorB lastB :=
      slice_copyFromTo_outside scratch v.arr cA v.cursorA v.cursorDest v.cursorB lastB
        (Or.inr (by omega))
    have e3 : slice scratch v.cursorA lastAs =
        slice scratch v.cursorA (v.cursorA + cA) ++ slice scratch (v.cursorA + cA) lastAs :=
      slice_split scratch v.cursorA (v.cursorA + cA) lastAs (by omega) (by omega)
    rw [e1, e2, e3]
    have he : ((slice v.arr pA v.cursorDest ++ slice scratch v.cursorA (v.cursorA + cA)) ++
        slice scratch (v.cursorA + cA) lastAs) =
        (slice v.arr pA v.cursorDest ++
          (slice scratch v.cursorA (v.cursorA + cA) ++ slice scratch (v.cursorA + cA) lastAs)) := by
      simp [List.append_assoc]
    rw [he]

/-- Bulk-copying a galloped chunk of run B in place in MergeLow. -/
theorem ml_chunkB [Inhabited α] (scratch : List α) (pA lastAs lastB N : Nat)
    (v vnew : MergeVars α) (cB : Nat) (hInv : MLInv scratch pA lastAs lastB N v)
    (hcB : cB ≤ v.lengthB)
    (ha : vnew.arr = copyWithin v.arr v.cursorB v.cursorDest cB)
    (hd : vnew.cursorDest = v.cursorDest + cB) (hcb : vnew.cursorB = v.cursorB + cB)
    (hlb : vnew.lengthB = v.lengthB - cB) (hca : vnew.cursorA = v.cursorA)
    (hla : vnew.lengthA = v.lengthA) :
    MLInv scratch pA lastAs lastB N vnew ∧ MLStep scratch pA lastAs lastB v vnew := by
  obtain ⟨hN, hsl, hA, hBtot, hlbN, hBd, hpd⟩ := hInv
  have ha' : vnew.arr = copyFromTo v.arr v.arr v.cursorB v.cursorDest cB := by
    rw [ha, copyWithin_eq cB v.cursorB v.cursorDest v.arr v.arr (by omega) (fun m _ => rfl)]
  refine ⟨⟨?_, hsl, ?_, ?_, hlbN, ?_, ?_⟩, ⟨?_, ?_, ?_⟩⟩
  · rw [ha', copyFromTo_length, hN]
  · rw [hca, hla]; omega
  · rw [hcb, hlb]; omega
  · rw [hcb, hd, hla]; omega
  · rw [hd]; omega
  · rw [ha', copyFromTo_length]
  · intro k hk
    rw [ha']
    exact copyFromTo_getElem?_outside v.arr cB v.cursorB v.cursorDest v.arr k (by omega)
  · unfold comboLow
    rw [ha', hd, hcb, hca]
    have e1 : slice (copyFromTo v.arr v.arr v.cursorB v.cursorDest cB) pA (v.cursorDest + cB) =
        slice v.arr pA v.cursorDest ++ slice v.arr v.cursorB (v.cursorB + cB) := by
      rw [slice_split _ pA v.cursorDest (v.cursorDest + cB) hpd (by omega)]
      congr 1
      · exact slice_copyFromTo_outside v.arr v.arr cB v.cursorB v.cursorDest pA v.cursorDest
          (Or.inl le_rfl)
      · exact copyFromTo_slice v.arr cB v.cursorB v.cursorDest v.arr (by omega) (by omega)
    have e2 : slice (copyFromTo v.arr v.arr v.cursorB v.cursorDest cB) (v.cursorB + cB) lastB =
        slice v.arr (v.cursorB + cB) lastB :=
      slice_copyFromTo_outside v.arr v.arr cB v.cursorB v.cursorDest (v.cursorB + cB) lastB
        (Or.inr (by omega))
    have e3 : slice v.arr v.cursorB lastB =
        slice v.arr v.cursorB (v.cursorB + cB) ++ slice v.arr (v.cursorB + cB) lastB :=
      slice_split v.arr v.cursorB (v.cursorB + cB) lastB (by omega) (by omega)
    rw [e1, e2, e3]
    exact perm_emit_block _ _ _ _

/-- The LABEL_COPY_MERGE_AREA_TO_DEST handler settles the books when run B
is exhausted. -/
theorem ml_toDest_books [Inhabited α] (scratch : List α) (pA lastAs lastB N : Nat)
    (v : MergeVars α) (hInv : MLInv scratch pA lastAs lastB N v) (hB0 : v.lengthB = 0) :
    MLBooks scratch pA lastAs lastB v (mergeLowCopyRest scratch v) := by
  obtain ⟨hN, hsl, hA, hBtot, hlbN, hBd, hpd⟩ := hInv
  have hdl : v.cursorDest + v.lengthA = lastB := by omega
  unfold mergeLowCopyRest
  refine ⟨?_, ?_, ?_⟩
  · rw [copyFromTo_length]
  · intro k hk
    exact copyFromTo_getElem?_outside scratch v.lengthA v.cursorA v.cursorDest v.arr k (by omega)
  · unfold comboLow
    have e1 : slice (copyFromTo scratch v.arr v.cursorA v.cursorDest v.lengthA) pA lastB =
        slice v.arr pA v.cursorDest ++ slice scratch v.cursorA lastAs := by
      rw [slice_split _ pA v.cursorDest lastB hpd (by omega)]
      congr 1
      · exact slice_copyFromTo_outside scratch v.arr v.lengthA v.cursorA v.cursorDest pA
          v.cursorDest (Or.inl le_rfl)
      · have e : lastB = v.cursorDest + v.lengthA := hdl.symm
        rw [e, copyFromTo_slice scratch v.lengthA v.cursorA v.cursorDest v.arr (by omega) (by omega)]
        congr 1
    have e2 : slice v.arr v.cursorB lastB = [] := slice_eq_nil _ _ _ (by omega)
    rw [e1, e2]
    simp

/-- The LABEL_COPY_B_TO_DEST_AND_APPEND_A handler settles the books when run
A has one element left. -/
theorem ml_appendA_books [Inhabited α] (scratch : List α) (pA lastAs lastB N : Nat)
    (v : MergeVars α) (hInv : MLInv scratch pA lastAs lastB N v) (hA1 : v.lengthA = 1)
    (hB1 : 1 ≤ v.lengthB) :
    MLBooks scratch pA lastAs lastB v (mergeLowAppendA scratch v) := by
  obtain ⟨hN, hsl, hA, hBtot, hlbN, hBd, hpd⟩ := hInv
  have hend : v.cursorDest + v.lengthB + 1 = lastB := by omega
  unfold mergeLowAppendA
  have hcw : copyWithin v.arr v.cursorB v.cursorDest v.lengthB =
      copyFromTo v.arr v.arr v.cursorB v.cursorDest v.lengthB :=
    copyWithin_eq v.lengthB v.cursorB v.cursorDest v.arr v.arr (by omega) (fun m _ => rfl)
  rw [hcw]
  set arr2 := copyFromTo v.arr v.arr v.cursorB v.cursorDest v.lengthB with harr2
  have hlen2 : arr2.length = N := by rw [harr2, copyFromTo_length, hN]
  refine ⟨?_, ?_, ?_⟩
  · rw [List.length_set, hlen2, hN]
  · intro k hk
    rw [List.getElem?_set_ne (by omega), harr2]
    exact copyFromTo_getElem?_outside v.arr v.lengthB v.cursorB v.cursorDest v.arr k (by omega)
  · unfold comboLow
    have e1 : slice (arr2.set (v.cursorDest + v.lengthB) (scratch.getD v.cursorA default)) pA lastB =
        (slice v.arr pA v.cursorDest ++ slice v.arr v.cursorB (v.cursorB + v.lengthB)) ++
          [scratch.getD v.cursorA default] := by
      have es : lastB = (v.cursorDest + v.lengthB) + 1 := by omega
      rw [es, slice_set_snoc arr2 pA (v.cursorDest + v.lengthB) _ (by omega) (by omega)]
      congr 1
      rw [slice_split arr2 pA v.cursorDest (v.cursorDest + v.lengthB) hpd (by omega)]
      congr 1
      · exact slice_copyFromTo_outside v.arr v.arr v.lengthB v.cursorB v.cursorDest pA
          v.cursorDest (Or.inl le_rfl)
      · exact copyFromTo_slice v.arr v.lengthB v.cursorB v.cursorDest v.arr (by omega) (by omega)
    have e2 : slice scratch v.cursorA lastAs = [scratch.getD v.cursorA default] := by
      have ea : lastAs = v.cursorA + 1 := by omega
      rw [ea, slice_singleton scratch v.cursorA (by omega)]
    have e3 : slice v.arr v.cursorB lastB = slice v.arr v.cursorB (v.cursorB + v.lengthB) := by
      congr 1
      omega
    rw [e1, e2, e3]
    have hmid : ((slice v.arr pA v.cursorDest ++ slice v.arr v.cursorB (v.cursorB + v.lengthB)) ++
        [scratch.getD v.cursorA default]).Perm
        ((slice v.arr pA v.cursorDest ++ [scratch.getD v.cursorA default]) ++
          slice v.arr v.cursorB (v.cursorB + v.lengthB)) := by
      have h := perm_emit_block (slice v.arr pA v.cursorDest)
        [scratch.getD v.cursorA default] ([] : List α)
        (slice v.arr v.cursorB (v.cursorB + v.lengthB))
      simpa [List.append_assoc] using h
    refine hmid.trans ?_
    have he : (slice v.arr pA v.cursorDest ++ [scratch.getD v.cursorA default]) ++
        slice v.arr v.cursorB (v.cursorB + v.lengthB) =
        (slice v.arr pA v.cursorDest ++ [scratch.getD v.cursorA default]) ++
          slice v.arr v.cursorB (v.cursorB + v.lengthB) := rfl
    rw [he]

/-- The in-loop return (run A exhausted in galloping mode) settles the
books. -/
theorem ml_retFinal_books [Inhabited α] (scratch : List α) (pA lastAs lastB N : Nat)
    (v : MergeVars α) (hInv : MLInv scratch pA lastAs lastB N v) (hA0 : v.lengthA = 0) :
    MLBooks scratch pA lastAs lastB v v.arr := by
  obtain ⟨hN, hsl, hA, hBtot, hlbN, hBd, hpd⟩ := hInv
  refine ⟨rfl, fun k _ => rfl, ?_⟩
  unfold comboLow
  have e1 : slice v.arr pA lastB = slice v.arr pA v.cursorDest ++ slice v.arr v.cursorB lastB := by
    rw [slice_split v.arr pA v.cursorDest lastB hpd (by omega)]
    congr 2
    omega
  have e2 : slice scratch v.cursorA lastAs = [] := slice_eq_nil _ _ _ (by omega)
  rw [e1, e2]
  simp


/-- MLStep is reflexive. -/
theorem MLStep_refl [Inhabited α] (scratch : List α) (pA lastAs lastB : Nat) (v : MergeVars α) :
    MLStep scratch pA lastAs lastB v v :=
  ⟨rfl, fun k _ => rfl, List.Perm.refl _⟩

/-- A good outcome of a later state is a good outcome of an earlier state one
step back. -/
theorem MLGood_of_step [Inhabited α] {scratch : List α} {pA lastAs lastB N : Nat}
    {v v1 : MergeVars α} {r : MergeRes α}
    (h1 : MLStep scratch pA lastAs lastB v v1)
    (hm : v1.lengthA + v1.lengthB ≤ v.lengthA + v.lengthB)
    (h2 : MLGood scratch pA lastAs lastB N v1 r) :
    MLGood scratch pA lastAs lastB N v r := by
  cases r with
  | fuelOut v2 => exact h2
  | toDest v2 =>
    obtain ⟨⟨hi, hs⟩, hx⟩ := h2
    exact ⟨⟨hi, MLStep_trans h1 hs⟩, hx⟩
  | toAppend v2 =>
    obtain ⟨⟨hi, hs⟩, hx⟩ := h2
    exact ⟨⟨hi, MLStep_trans h1 hs⟩, hx⟩
  | retDirect v2 =>
    obtain ⟨⟨hi, hs⟩, hx⟩ := h2
    exact ⟨⟨hi, MLStep_trans h1 hs⟩, hx⟩
  | nextOuter v2 =>
    obtain ⟨⟨hi, hs⟩, hx1, hx2, hx3⟩ := h2
    exact ⟨⟨hi, MLStep_trans h1 hs⟩, hx1, hx2, by omega⟩

/-- The pairwise mode of MergeLow always exits well when given fuel at least
the number of unmerged elements. -/
theorem mergeLowPairwise_good [Inhabited α] (comp : α → α → Bool) (scratch : List α)
    (pA lastAs lastB N : Nat) :
    ∀ fuel v, MLInv scratch pA lastAs lastB N v → 2 ≤ v.lengthA → 1 ≤ v.lengthB →
      v.lengthA + v.lengthB ≤ fuel →
      MLGood scratch pA lastAs lastB N v (mergeLowPairwise comp scratch fuel v) := by
  intro fuel
  induction fuel with
  | zero => intro v hInv hA hB hf; omega
  | succ fuel ih =>
    intro v hInv hA hB hf
    unfold mergeLowPairwise
    dsimp only
    split
    · have hstep := ml_emitB scratch pA lastAs lastB N v
        { v with
          arr := v.arr.set v.cursorDest (v.arr.getD v.cursorB default),
          cursorDest := v.cursorDest + 1, cursorB := v.cursorB + 1,
          lengthB := v.lengthB - 1, countA := 0, countB := v.countB + 1 }
        hInv hB rfl rfl rfl rfl rfl rfl
      split
      · next h0 => exact ⟨⟨hstep.1, hstep.2⟩, h0⟩
      · next h0 =>
        split
        · exact MLGood_of_step hstep.2 (by dsimp only; omega)
            (ih _ hstep.1 (by dsimp only; omega) (by dsimp only; omega) (by dsimp only; omega))
        · exact ⟨⟨hstep.1, hstep.2⟩, by dsimp only; omega, by dsimp only; omega,
            by dsimp only; omega⟩
    · have hstep := ml_emitA scratch pA lastAs lastB N v
        { v with
          arr := v.arr.set v.cursorDest (scratch.getD v.cursorA default),
          cursorDest := v.cursorDest + 1, cursorA := v.cursorA + 1,
          lengthA := v.lengthA - 1, countA := v.countA + 1, countB := 0 }
        hInv (by omega) rfl rfl rfl rfl rfl rfl
      split
      · next h0 => exact ⟨⟨hstep.1, hstep.2⟩, h0, by dsimp only; omega⟩
      · next h0 =>
        split
        · exact MLGood_of_step hstep.2 (by dsimp only; omega)
            (ih _ hstep.1 (by dsimp only at h0 ⊢; omega) (by dsimp only; omega)
              (by dsimp only; omega))
        · exact ⟨⟨hstep.1, hstep.2⟩, by dsimp only at h0 ⊢; omega, by dsimp only; omega,
            by dsimp only; omega⟩


set_option maxHeartbeats 2000000 in
/-- The galloping mode of MergeLow always exits well when given fuel beyond
the number of remaining B elements. -/
theorem mergeLowGallop_good [Inhabited α] (comp : α → α → Bool) (scratch : List α)
    (pA lastAs lastB N : Nat) :
    ∀ fuel v, MLInv scratch pA lastAs lastB N v → 2 ≤ v.lengthA → 1 ≤ v.lengthB →
      v.lengthB + 1 ≤ fuel →
      MLGood scratch pA lastAs lastB N v (mergeLowGallop comp scratch lastAs lastB fuel v) := by
  intro fuel
  induction fuel with
  | zero => intro v hInv hA hB hf; omega
  | succ fuel ih =>
    intro v0 hInv0 hA0 hB0 hf
    have hInv0' := hInv0
    obtain ⟨hN, hsl, hA, hBtot, hlbN, hBd, hpd⟩ := hInv0'
    unfold mergeLowGallop
    dsimp only
    set p := gallopRight scratch comp v0.cursorA lastAs v0.cursorA (v0.arr.getD v0.cursorB default) with hp
    have hpb := gallopRight_bounds scratch comp v0.cursorA lastAs v0.cursorA
      (v0.arr.getD v0.cursorB default) le_rfl (by omega)
    rw [← hp] at hpb
    set V1 : MergeVars α := if p - v0.cursorA ≠ 0 then
        { v0 with
          arr := copyFromTo scratch v0.arr v0.cursorA v0.cursorDest (p - v0.cursorA),
          cursorDest := v0.cursorDest + (p - v0.cursorA), cursorA := v0.cursorA + (p - v0.cursorA),
          lengthA := v0.lengthA - (p - v0.cursorA), countA := p - v0.cursorA }
      else { v0 with countA := p - v0.cursorA }
      with hV1
    have hV1f : MLInv scratch pA lastAs lastB N V1 ∧ MLStep scratch pA lastAs lastB v0 V1 ∧
        V1.lengthA = v0.lengthA - (p - v0.cursorA) ∧ V1.lengthB = v0.lengthB := by
      rw [hV1]
      by_cases hcA : p - v0.cursorA ≠ 0
      · rw [if_pos hcA]
        have h := ml_chunkA scratch pA lastAs lastB N v0
          { v0 with
            arr := copyFromTo scratch v0.arr v0.cursorA v0.cursorDest (p - v0.cursorA),
            cursorDest := v0.cursorDest + (p - v0.cursorA),
            cursorA := v0.cursorA + (p - v0.cursorA),
            lengthA := v0.lengthA - (p - v0.cursorA), countA := p - v0.cursorA }
          (p - v0.cursorA) hInv0 (by omega) rfl rfl rfl rfl rfl rfl
        exact ⟨h.1, h.2, rfl, rfl⟩
      · rw [if_neg hcA]
        have hc0 : p - v0.cursorA = 0 := by omega
        exact ⟨hInv0, MLStep_refl scratch pA lastAs lastB v0, by dsimp only; omega, rfl⟩
    obtain ⟨hInv1, hstep1, hlA1, hlB1⟩ := hV1f
    split
    · next h => exact ⟨⟨hInv1, hstep1⟩, h.2⟩
    · next hx1 =>
      split
      · next h => exact ⟨⟨hInv1, hstep1⟩, h.2, by omega⟩
      · next hx2 =>
        have hA1 : 2 ≤ V1.lengthA := by
          by_cases hcA : p - v0.cursorA = 0
          · omega
          · have h0 : ¬ V1.lengthA = 0 := fun hh => hx1 ⟨hcA, hh⟩
            have h1 : ¬ V1.lengthA = 1 := fun hh => hx2 ⟨hcA, hh⟩
            omega
        have hstep2 := ml_emitB scratch pA lastAs lastB N V1
          { V1 with
            arr := V1.arr.set V1.cursorDest (V1.arr.getD V1.cursorB default),
            cursorDest := V1.cursorDest + 1, cursorB := V1.cursorB + 1,
            lengthB := V1.lengthB - 1 }
          hInv1 (by omega) rfl rfl rfl rfl rfl rfl
        split
        · next h0 => exact MLGood_of_step hstep1 (by omega) ⟨⟨hstep2.1, hstep2.2⟩, h0⟩
        · next hx3 =>
          have hB2tot := hstep2.1.2.2.2.1
          dsimp only at hB2tot
          set q := gallopLeft (V1.arr.set V1.cursorDest (V1.arr.getD V1.cursorB default)) comp
            (V1.cursorB + 1) lastB (V1.cursorB + 1) (scratch.getD V1.cursorA default) with hq
          have hqb := gallopLeft_bounds (V1.arr.set V1.cursorDest (V1.arr.getD V1.cursorB default))
            comp (V1.cursorB + 1) lastB (V1.cursorB + 1) (scratch.getD V1.cursorA default)
            le_rfl (by omega)
          rw [← hq] at hqb
          set V3 : MergeVars α := if q - (V1.cursorB + 1) ≠ 0 then
              { V1 with
                arr := copyWithin (V1.arr.set V1.cursorDest (V1.arr.getD V1.cursorB default))
                  (V1.cursorB + 1) (V1.cursorDest + 1) (q - (V1.cursorB + 1)),
                cursorDest := V1.cursorDest + 1 + (q - (V1.cursorB + 1)),
                cursorB := V1.cursorB + 1 + (q - (V1.cursorB + 1)),
                lengthB := V1.lengthB - 1 - (q - (V1.cursorB + 1)),
                countB := q - (V1.cursorB + 1) }
            else
              { V1 with
                arr := V1.arr.set V1.cursorDest (V1.arr.getD V1.cursorB default),
                cursorDest := V1.cursorDest + 1, cursorB := V1.cursorB + 1,
                lengthB := V1.lengthB - 1, countB := q - (V1.cursorB + 1) }
            with hV3
          have hV3f : MLInv scratch pA lastAs lastB N V3 ∧
              MLStep scratch pA lastAs lastB
                { V1 with
                  arr := V1.arr.set V1.cursorDest (V1.arr.getD V1.cursorB default),
                  cursorDest := V1.cursorDest + 1, cursorB := V1.cursorB + 1,
                  lengthB := V1.lengthB - 1 } V3 ∧
              V3.lengthA = V1.lengthA ∧ V3.lengthB = V1.lengthB - 1 - (q - (V1.cursorB + 1)) := by
            rw [hV3]
            by_cases hcB : q - (V1.cursorB + 1) ≠ 0
            · rw [if_pos hcB]
              have h := ml_chunkB scratch pA lastAs lastB N
                { V1 with
                  arr := V1.arr.set V1.cursorDest (V1.arr.getD V1.cursorB default),
                  cursorDest := V1.cursorDest + 1, cursorB := V1.cursorB + 1,
                  lengthB := V1.lengthB - 1 }
                { V1 with
                  arr := copyWithin (V1.arr.set V1.cursorDest (V1.arr.getD V1.cursorB default))
                    (V1.cursorB + 1) (V1.cursorDest + 1) (q - (V1.cursorB + 1)),
                  cursorDest := V1.cursorDest + 1 + (q - (V1.cursorB + 1)),
                  cursorB := V1.cursorB + 1 + (q - (V1.cursorB + 1)),
                  lengthB := V1.lengthB - 1 - (q - (V1.cursorB + 1)),
                  countB := q - (V1.cursorB + 1) }
                (q - (V1.cursorB + 1)) hstep2.1 (by dsimp only; omega) rfl rfl rfl rfl rfl rfl
              exact ⟨h.1, h.2, rfl, rfl⟩
            · rw [if_neg hcB]
              have hc0 : q - (V1.cursorB + 1) = 0 := by omega
              exact ⟨hstep2.1, MLStep_refl scratch pA lastAs lastB _, rfl, by dsimp only; omega⟩
          obtain ⟨hInv3, hstep3, hlA3, hlB3⟩ := hV3f
          split
          · next h0 =>
            exact MLGood_of_step hstep1 (by omega)
              (MLGood_of_step hstep2.2 (by dsimp only; omega) ⟨⟨hInv3, hstep3⟩, h0.2⟩)
          · next hx4 =>
            have h1B3 : 1 ≤ V3.lengthB := by
              by_cases hcB : q - (V1.cursorB + 1) = 0
              · omega
              · have h0 : ¬ V3.lengthB = 0 := fun hh => hx4 ⟨hcB, hh⟩
                omega
            have hstep4 := ml_emitA scratch pA lastAs lastB N V3
              { V3 with
                arr := V3.arr.set V3.cursorDest (scratch.getD V3.cursorA default),
                cursorDest := V3.cursorDest + 1, cursorA := V3.cursorA + 1,
                lengthA := V3.lengthA - 1 }
              hInv3 (by omega) rfl rfl rfl rfl rfl rfl
            split
            · next h4 =>
              refine ⟨⟨hstep4.1,
                MLStep_trans hstep1 (MLStep_trans hstep2.2 (MLStep_trans hstep3 hstep4.2))⟩,
                h4, ?_⟩
              dsimp only
              omega
            · next hx5 =>
              have hA4 : 2 ≤ V3.lengthA - 1 := by
                have : ¬ V3.lengthA - 1 = 1 := hx5
                omega
              have hInv5 : MLInv scratch pA lastAs lastB N
                  { V3 with
                    arr := V3.arr.set V3.cursorDest (scratch.getD V3.cursorA default),
                    cursorDest := V3.cursorDest + 1, cursorA := V3.cursorA + 1,
                    lengthA := V3.lengthA - 1,
                    minGallop := V3.minGallop - (if 1 < V3.minGallop then 1 else 0) } := hstep4.1
              have hstep5 : MLStep scratch pA lastAs lastB V3
                  { V3 with
                    arr := V3.arr.set V3.cursorDest (scratch.getD V3.cursorA default),
                    cursorDest := V3.cursorDest + 1, cursorA := V3.cursorA + 1,
                    lengthA := V3.lengthA - 1,
                    minGallop := V3.minGallop - (if 1 < V3.minGallop then 1 else 0) } := hstep4.2
              split
              · exact MLGood_of_step hstep1 (by omega)
                  (MLGood_of_step hstep2.2 (by dsimp only; omega)
                    (MLGood_of_step hstep3 (by dsimp only; omega)
                      (MLGood_of_step hstep5 (by dsimp only; omega)
                        (ih _ hInv5 (by dsimp only; omega) (by dsimp only; omega)
                          (by dsimp only; omega)))))
              · refine ⟨⟨hInv5,
                  MLStep_trans hstep1 (MLStep_trans hstep2.2 (MLStep_trans hstep3 hstep5))⟩,
                  by dsimp only; omega, by dsimp only; omega, by dsimp only; omega⟩


/-- The main loop of MergeLow settles the books when given fuel at least the
number of unmerged elements. -/
theorem mergeLowMainLoop_books [Inhabited α] (comp : α → α → Bool) (scratch : List α)
    (pA lastAs lastB N g : Nat) :
    ∀ fuel v, MLInv scratch pA lastAs lastB N v → 2 ≤ v.lengthA → 1 ≤ v.lengthB →
      v.lengthA + v.lengthB ≤ fuel →
      MLBooks scratch pA lastAs lastB v (mergeLowMainLoop comp scratch lastAs lastB g fuel v).1 := by
  intro fuel
  induction fuel with
  | zero => intro v hInv hA hB hf; omega
  | succ fuel ih =>
    intro v hInv hA hB hf
    unfold mergeLowMainLoop
    rw [if_neg (by omega : ¬ (1 : Nat) = 0)]
    dsimp only
    have hg := mergeLowPairwise_good comp scratch pA lastAs lastB N
      (v.lengthA + v.lengthB + 1) { v with countA := 0, countB := 0 } hInv hA hB
      (by dsimp only; omega)
    split
    · next v1 heq =>
      rw [heq] at hg
      obtain ⟨⟨hInv1, hstep1⟩, hA1, hB1, hm1⟩ := hg
      dsimp only at hm1
      have hg2 := mergeLowGallop_good comp scratch pA lastAs lastB N
        (v1.lengthB + 1) v1 hInv1 hA1 hB1 le_rfl
      split
      · next v2 heq2 =>
        rw [heq2] at hg2
        obtain ⟨⟨hInv2, hstep2⟩, hA2, hB2, hm2⟩ := hg2
        exact MLBooks_of_step hstep1 (MLBooks_of_step hstep2
          (ih _ hInv2 hA2 hB2 (by dsimp only; omega)))
      · next v2 heq2 =>
        rw [heq2] at hg2
        obtain ⟨⟨hInv2, hstep2⟩, h0⟩ := hg2
        exact MLBooks_of_step hstep1 (MLBooks_of_step hstep2
          (ml_toDest_books scratch pA lastAs lastB N v2 hInv2 h0))
      · next v2 heq2 =>
        rw [heq2] at hg2
        obtain ⟨⟨hInv2, hstep2⟩, hA2, hB2⟩ := hg2
        exact MLBooks_of_step hstep1 (MLBooks_of_step hstep2
          (ml_appendA_books scratch pA lastAs lastB N v2 hInv2 hA2 hB2))
      · next v2 heq2 =>
        rw [heq2] at hg2
        obtain ⟨⟨hInv2, hstep2⟩, h0⟩ := hg2
        exact MLBooks_of_step hstep1 (MLBooks_of_step hstep2
          (ml_retFinal_books scratch pA lastAs lastB N v2 hInv2 h0))
      · next v2 heq2 =>
        rw [heq2] at hg2
        exact hg2.elim
    · next v1 heq =>
      rw [heq] at hg
      obtain ⟨⟨hInv1, hstep1⟩, h0⟩ := hg
      exact MLBooks_of_step hstep1 (ml_toDest_books scratch pA lastAs lastB N v1 hInv1 h0)
    · next v1 heq =>
      rw [heq] at hg
      obtain ⟨⟨hInv1, hstep1⟩, hA1, hB1⟩ := hg
      exact MLBooks_of_step hstep1 (ml_appendA_books scratch pA lastAs lastB N v1 hInv1 hA1 hB1)
    · next v1 heq =>
      rw [heq] at hg
      obtain ⟨⟨hInv1, hstep1⟩, h0⟩ := hg
      exact MLBooks_of_step hstep1 (ml_retFinal_books scratch pA lastAs lastB N v1 hInv1 h0)
    · next v1 heq =>
      rw [heq] at hg
      exact hg.elim

/-- Books plus the initial combo fact give a whole-array permutation. -/
theorem ml_books_final [Inhabited α] (scratch : List α) (pA lastAs lastB : Nat)
    (arr out : List α) (v0 : MergeVars α) (b : α)
    (hva : v0.arr = arr.set pA b)
    (hb : MLBooks scratch pA lastAs lastB v0 out)
    (hcombo : (comboLow scratch pA lastAs lastB v0).Perm (slice arr pA lastB))
    (hpa : pA < lastB) (hlb : lastB ≤ arr.length) :
    out.Perm arr ∧ out.length = arr.length := by
  have hlen : out.length = arr.length := by rw [hb.1, hva, List.length_set]
  refine ⟨perm_of_region out arr pA lastB (by omega) hlb hlen ?_ ?_, hlen⟩
  · intro k hk
    rw [hb.2.1 k hk, hva]
    exact List.getElem?_set_ne (by omega)
  · exact hb.2.2.trans hcombo


/-- MergeLow permutes the array and preserves its length, for every
comparator. -/
theorem mergeLow_perm [Inhabited α] (comp : α → α → Bool) (g : Nat) (arr : List α)
    (firstA lastA firstB lastB : Nat) (h1 : firstA < lastA) (h2 : lastA = firstB)
    (h3 : firstB < lastB) (h4 : lastB ≤ arr.length) :
    (mergeLow comp g arr firstA lastA firstB lastB).1.Perm arr ∧
    (mergeLow comp g arr firstA lastA firstB lastB).1.length = arr.length := by
  unfold mergeLow
  dsimp only
  set V0 : MergeVars α := {
      arr := arr.set firstA (arr.getD firstB default), cursorA := 0,
      cursorB := firstB + 1, cursorDest := firstA + 1, lengthA := lastA - firstA,
      lengthB := lastB - firstB - 1, minGallop := g, countA := 0, countB := 0 } with hV0
  have hsl : (slice arr firstA lastA).length = lastA - firstA := by
    rw [slice_length]; omega
  have hInv0 : MLInv (slice arr firstA lastA) firstA (lastA - firstA) lastB arr.length V0 := by
    refine ⟨?_, hsl, ?_, ?_, h4, ?_, ?_⟩ <;> rw [hV0] <;> dsimp only
    · simp
    all_goals omega
  have hcombo : (comboLow (slice arr firstA lastA) firstA (lastA - firstA) lastB V0).Perm
      (slice arr firstA lastB) := by
    rw [hV0]
    unfold comboLow
    dsimp only
    have e1 : slice (arr.set firstA (arr.getD firstB default)) firstA (firstA + 1) =
        [arr.getD firstB default] := by
      rw [slice_singleton _ firstA (by rw [List.length_set]; omega),
        getD_set_self_of_lt _ _ _ _ (by omega)]
    have e2 : slice (slice arr firstA lastA) 0 (lastA - firstA) = slice arr firstA lastA := by
      have h := slice_all (slice arr firstA lastA)
      rw [hsl] at h
      exact h
    have e3 : slice (arr.set firstA (arr.getD firstB default)) (firstB + 1) lastB =
        slice arr (firstB + 1) lastB :=
      slice_set_outside _ _ _ _ _ (by omega)
    rw [e1, e2, e3]
    have e4 : slice arr firstA lastB = slice arr firstA firstB ++ slice arr firstB lastB :=
      slice_split arr firstA firstB lastB (by omega) (by omega)
    have e5 : slice arr firstB lastB = arr.getD firstB default :: slice arr (firstB + 1) lastB :=
      slice_cons arr firstB lastB (by omega) (by omega)
    have e6 : slice arr firstA lastA = slice arr firstA firstB := by rw [h2]
    rw [e4, e5, e6]
    have hper := perm_emit_head ([] : List α) (slice arr firstA firstB)
      (slice arr (firstB + 1) lastB) (arr.getD firstB default)
    simpa using hper
  split
  · next h0 =>
    exact ml_books_final _ firstA (lastA - firstA) lastB arr _ V0 _ rfl
      (ml_toDest_books _ firstA (lastA - firstA) lastB arr.length V0 hInv0 h0)
      hcombo (by omega) h4
  · next hx0 =>
    split
    · next hA1 =>
      exact ml_books_final _ firstA (lastA - firstA) lastB arr _ V0 _ rfl
        (ml_appendA_books _ firstA (lastA - firstA) lastB arr.length V0 hInv0 hA1
          (by rw [hV0]; dsimp only; omega))
        hcombo (by omega) h4
    · next hA1 =>
      have hbooks := mergeLowMainLoop_books comp (slice arr firstA lastA) firstA
        (lastA - firstA) lastB arr.length g ((lastA - firstA) + (lastB - firstB) + 1) V0
        hInv0 (by rw [hV0]; dsimp only; omega)
        (by rw [hV0]; dsimp only; omega)
        (by rw [hV0]; dsimp only; omega)
      exact ml_books_final _ firstA (lastA - firstA) lastB arr _ V0 _ rfl hbooks
        hcombo (by omega) h4


/-- MHStep is reflexive. -/
theorem MHStep_refl [Inhabited α] (scratch : List α) (firstA lastB : Nat) (v : MergeVars α) :
    MHStep scratch firstA lastB v v :=
  ⟨rfl, fun k _ => rfl, List.Perm.refl _⟩

/-- MHStep is transitive. -/
theorem MHStep_trans [Inhabited α] {scratch : List α} {firstA lastB : Nat}
    {v1 v2 v3 : MergeVars α} (h1 : MHStep scratch firstA lastB v1 v2)
    (h2 : MHStep scratch firstA lastB v2 v3) : MHStep scratch firstA lastB v1 v3 :=
  ⟨h2.1.trans h1.1, fun k hk => (h2.2.1 k hk).trans (h1.2.1 k hk), h2.2.2.trans h1.2.2⟩

/-- A step followed by finished books gives books for the earlier state. -/
theorem MHBooks_of_step [Inhabited α] {scratch : List α} {firstA lastB : Nat}
    {v1 v2 : MergeVars α} {out : List α} (h1 : MHStep scratch firstA lastB v1 v2)
    (h2 : MHBooks scratch firstA lastB v2 out) : MHBooks scratch firstA lastB v1 out :=
  ⟨h2.1.trans h1.1, fun k hk => (h2.2.1 k hk).trans (h1.2.1 k hk), h2.2.2.trans h1.2.2⟩

/-- What LABEL_COPY_MERGE_AREA_TO_DEST of MergeHigh computes, for any state
whose destination cursor sits exactly one whole B-block above firstA. -/
theorem mh_copyRest_books [Inhabited α] (scratch : List α) (firstA lastB N : Nat)
    (v : MergeVars α) (hlen : v.arr.length = N) (hsb : v.cursorB + 1 ≤ scratch.length)
    (hfd : firstA + v.cursorB + 1 = v.cursorDest + 1) (hdl : v.cursorDest < lastB)
    (hlN : lastB ≤ N) :
    (mergeHighCopyRest scratch v).length = v.arr.length ∧
    (∀ k, k < firstA ∨ lastB ≤ k → (mergeHighCopyRest scratch v)[k]? = v.arr[k]?) ∧
    slice (mergeHighCopyRest scratch v) firstA lastB =
      slice scratch 0 (v.cursorB + 1) ++ slice v.arr (v.cursorDest + 1) lastB := by
  unfold mergeHighCopyRest
  rw [copyBackwardFromTo_eq scratch (v.cursorB + 1) (v.cursorB + 1) (v.cursorDest + 1) v.arr
    le_rfl (by omega)]
  have e0 : v.cursorB + 1 - (v.cursorB + 1) = 0 := by omega
  have e1 : v.cursorDest + 1 - (v.cursorB + 1) = firstA := by omega
  rw [e0, e1]
  refine ⟨copyFromTo_length _ _ _ _ _, ?_, ?_⟩
  · intro k hk
    exact copyFromTo_getElem?_outside scratch (v.cursorB + 1) 0 firstA v.arr k (by omega)
  · rw [slice_split _ firstA (v.cursorDest + 1) lastB (by omega) (by omega)]
    congr 1
    · have e2 : v.cursorDest + 1 = firstA + (v.cursorB + 1) := by omega
      rw [e2, copyFromTo_slice scratch (v.cursorB + 1) 0 firstA v.arr (by omega) (by omega),
        Nat.zero_add]
    · exact slice_copyFromTo_outside scratch v.arr (v.cursorB + 1) 0 firstA
        (v.cursorDest + 1) lastB (Or.inr (by omega))

/-- Emitting the current element of run A in MergeHigh. -/
theorem mh_emitA [Inhabited α] (scratch : List α) (firstA lastB N : Nat)
    (v vnew : MergeVars α) (hInv : MHInv scratch firstA lastB N v) (hA2 : 2 ≤ v.lengthA)
    (ha : vnew.arr = v.arr.set v.cursorDest (v.arr.getD v.cursorA default))
    (hd : vnew.cursorDest = v.cursorDest - 1) (hca : vnew.cursorA = v.cursorA - 1)
    (hla : vnew.lengthA = v.lengthA - 1) (hcb : vnew.cursorB = v.cursorB)
    (hlb : vnew.lengthB = v.lengthB) :
    MHInv scratch firstA lastB N vnew ∧ MHStep scratch firstA lastB v vnew := by
  obtain ⟨hN, hA, hB, hsb, hD, hdl, hlN⟩ := hInv
  refine ⟨⟨?_, ?_, ?_, ?_, ?_, ?_, hlN⟩, ⟨?_, ?_, ?_⟩⟩
  · rw [ha, List.length_set, hN]
  · rw [hca, hla]; omega
  · rw [hcb, hlb]; omega
  · rw [hcb]; exact hsb
  · rw [hd, hla, hlb]; omega
  · rw [hd]; omega
  · rw [ha, List.length_set]
  · intro k hk
    rw [ha]
    exact List.getElem?_set_ne (by omega)
  · unfold comboHigh
    rw [ha, hd, hca, hcb]
    have e0 : v.cursorA - 1 + 1 = v.cursorA := by omega
    have e1 : v.cursorDest - 1 + 1 = v.cursorDest := by omega
    rw [e0, e1]
    have e2 : slice (v.arr.set v.cursorDest (v.arr.getD v.cursorA default)) firstA v.cursorA =
        slice v.arr firstA v.cursorA :=
      slice_set_outside _ _ _ _ _ (by omega)
    have e3 : slice (v.arr.set v.cursorDest (v.arr.getD v.cursorA default)) v.cursorDest lastB =
        v.arr.getD v.cursorA default :: slice v.arr (v.cursorDest + 1) lastB := by
      rw [slice_cons _ v.cursorDest lastB (by omega) (by rw [List.length_set]; omega),
        getD_set_self_of_lt _ _ _ _ (by omega),
        slice_set_outside _ _ _ _ _ (by omega)]
    have e4 : slice v.arr firstA (v.cursorA + 1) =
        slice v.arr firstA v.cursorA ++ [v.arr.getD v.cursorA default] := by
      rw [slice_split v.arr firstA v.cursorA (v.cursorA + 1) (by omega) (by omega),
        slice_singleton v.arr v.cursorA (by omega)]
    rw [e2, e3, e4]
    exact (perm_emit_head _ _ _ _).symm

/-- Emitting the current element of run B (from the merge area) in
MergeHigh. -/
theorem mh_emitB [Inhabited α] (scratch : List α) (firstA lastB N : Nat)
    (v vnew : MergeVars α) (hInv : MHInv scratch firstA lastB N v) (hB2 : 2 ≤ v.lengthB)
    (ha : vnew.arr = v.arr.set v.cursorDest (scratch.getD v.cursorB default))
    (hd : vnew.cursorDest = v.cursorDest - 1) (hcb : vnew.cursorB = v.cursorB - 1)
    (hlb : vnew.lengthB = v.lengthB - 1) (hca : vnew.cursorA = v.cursorA)
    (hla : vnew.lengthA = v.lengthA) :
    MHInv scratch firstA lastB N vnew ∧ MHStep scratch firstA lastB v vnew := by
  obtain ⟨hN, hA, hB, hsb, hD, hdl, hlN⟩ := hInv
  refine ⟨⟨?_, ?_, ?_, ?_, ?_, ?_, hlN⟩, ⟨?_, ?_, ?_⟩⟩
  · rw [ha, List.length_set, hN]
  · rw [hca, hla]; omega
  · rw [hcb, hlb]; omega
  · rw [hcb]; omega
  · rw [hd, hla, hlb]; omega
  · rw [hd]; omega
  · rw [ha, List.length_set]
  · intro k hk
    rw [ha]
    exact List.getElem?_set_ne (by omega)
  · unfold comboHigh
    rw [ha, hd, hcb, hca]
    have e0 : v.cursorB - 1 + 1 = v.cursorB := by omega
    have e1 : v.cursorDest - 1 + 1 = v.cursorDest := by omega
    rw [e0, e1]
    have e2 : slice (v.arr.set v.cursorDest (scratch.getD v.cursorB default)) firstA
        (v.cursorA + 1) = slice v.arr firstA (v.cursorA + 1) :=
      slice_set_outside _ _ _ _ _ (by omega)
    have e3 : slice (v.arr.set v.cursorDest (scratch.getD v.cursorB default)) v.cursorDest lastB =
        scratch.getD v.cursorB default :: slice v.arr (v.cursorDest + 1) lastB := by
      rw [slice_cons _ v.cursorDest lastB (by omega) (by rw [List.length_set]; omega),
        getD_set_self_of_lt _ _ _ _ (by omega),
        slice_set_outside _ _ _ _ _ (by omega)]
    have e4 : slice scratch 0 (v.cursorB + 1) =
        slice scratch 0 v.cursorB ++ [scratch.getD v.cursorB default] := by
      rw [slice_split scratch 0 v.cursorB (v.cursorB + 1) (by omega) (by omega),
        slice_singleton scratch v.cursorB (by omega)]
    rw [e2, e3, e4]
    have h := (perm_emit_head (slice v.arr firstA (v.cursorA + 1) ++ slice scratch 0 v.cursorB)
      ([] : List α) (slice v.arr (v.cursorDest + 1) lastB)
      (scratch.getD v.cursorB default)).symm
    simpa [List.append_assoc] using h

/-- Bulk-copying a galloped chunk of run A in place in MergeHigh. -/
theorem mh_chunkA [Inhabited α] (scratch : List α) (firstA lastB N : Nat)
    (v vnew : MergeVars α) (cA : Nat) (hInv : MHInv scratch firstA lastB N v)
    (hcA : cA < v.lengthA)
    (ha : vnew.arr = copyBackwardWithin v.arr (v.cursorA + 1) (v.cursorDest + 1) cA)
    (hd : vnew.cursorDest = v.cursorDest - cA) (hca : vnew.cursorA = v.cursorA - cA)
    (hla : vnew.lengthA = v.lengthA - cA) (hcb : vnew.cursorB = v.cursorB)
    (hlb : vnew.lengthB = v.lengthB) :
    MHInv scratch firstA lastB N vnew ∧ MHStep scratch firstA lastB v vnew := by
  obtain ⟨hN, hA, hB, hsb, hD, hdl, hlN⟩ := hInv
  have ha' : vnew.arr = copyFromTo v.arr v.arr (v.cursorA + 1 - cA) (v.cursorDest + 1 - cA) cA := by
    rw [ha, copyBackwardWithin_eq cA (v.cursorA + 1) (v.cursorDest + 1) v.arr v.arr
      (by omega) (by omega) (fun m _ => rfl),
      copyBackwardFromTo_eq v.arr cA (v.cursorA + 1) (v.cursorDest + 1) v.arr
      (by omega) (by omega)]
  refine ⟨⟨?_, ?_, ?_, ?_, ?_, ?_, hlN⟩, ⟨?_, ?_, ?_⟩⟩
  · rw [ha', copyFromTo_length, hN]
  · rw [hca, hla]; omega
  · rw [hcb, hlb]; omega
  · rw [hcb]; exact hsb
  · rw [hd, hla, hlb]; omega
  · rw [hd]; omega
  · rw [ha', copyFromTo_length]
  · intro k hk
    rw [ha']
    exact copyFromTo_getElem?_outside v.arr cA (v.cursorA + 1 - cA) (v.cursorDest + 1 - cA)
      v.arr k (by omega)
  · unfold comboHigh
    rw [ha', hd, hca, hcb]
    have e0 : v.cursorA - cA + 1 = v.cursorA + 1 - cA := by omega
    have e1 : v.cursorDest - cA + 1 = v.cursorDest + 1 - cA := by omega
    rw [e0, e1]
    have e2 : slice (copyFromTo v.arr v.arr (v.cursorA + 1 - cA) (v.cursorDest + 1 - cA) cA)
        firstA (v.cursorA + 1 - cA) = slice v.arr firstA (v.cursorA + 1 - cA) :=
      slice_copyFromTo_outside _ _ _ _ _ _ _ (Or.inl (by omega))
    have e3 : slice (copyFromTo v.arr v.arr (v.cursorA + 1 - cA) (v.cursorDest + 1 - cA) cA)
        (v.cursorDest + 1 - cA) lastB =
        slice v.arr (v.cursorA + 1 - cA) (v.cursorA + 1) ++ slice v.arr (v.cursorDest + 1) lastB := by
      rw [slice_split _ (v.cursorDest + 1 - cA) (v.cursorDest + 1) lastB (by omega) (by omega)]
      congr 1
      · have e5 := copyFromTo_slice v.arr cA (v.cursorA + 1 - cA) (v.cursorDest + 1 - cA) v.arr
          (by omega) (by omega)
        have eS : v.cursorA + 1 - cA + cA = v.cursorA + 1 := by omega
        have eT : v.cursorDest + 1 - cA + cA = v.cursorDest + 1 := by omega
        rw [eS, eT] at e5
        exact e5
      · exact slice_copyFromTo_outside _ _ _ _ _ _ _ (Or.inr (by omega))
    have e4 : slice v.arr firstA (v.cursorA + 1) =
        slice v.arr firstA (v.cursorA + 1 - cA) ++
          slice v.arr (v.cursorA + 1 - cA) (v.cursorA + 1) :=
      slice_split v.arr firstA (v.cursorA + 1 - cA) (v.cursorA + 1) (by omega) (by omega)
    rw [e2, e3, e4]
    exact (perm_emit_block _ _ _ _).symm

/-- Bulk-copying a galloped chunk of run B from the merge area in
MergeHigh. -/
theorem mh_chunkB [Inhabited α] (scratch : List α) (firstA lastB N : Nat)
    (v vnew : MergeVars α) (cB : Nat) (hInv : MHInv scratch firstA lastB N v)
    (hcB : cB < v.lengthB)
    (ha : vnew.arr = copyBackwardFromTo scratch v.arr (v.cursorB + 1) (v.cursorDest + 1) cB)
    (hd : vnew.cursorDest = v.cursorDest - cB) (hcb : vnew.cursorB = v.cursorB - cB)
    (hlb : vnew.lengthB = v.lengthB - cB) (hca : vnew.cursorA = v.cursorA)
    (hla : vnew.lengthA = v.lengthA) :
    MHInv scratch firstA lastB N vnew ∧ MHStep scratch firstA lastB v vnew := by
  obtain ⟨hN, hA, hB, hsb, hD, hdl, hlN⟩ := hInv
  have ha' : vnew.arr = copyFromTo scratch v.arr (v.cursorB + 1 - cB) (v.cursorDest + 1 - cB) cB := by
    rw [ha, copyBackwardFromTo_eq scratch cB (v.cursorB + 1) (v.cursorDest + 1) v.arr
      (by omega) (by omega)]
  refine ⟨⟨?_, ?_, ?_, ?_, ?_, ?_, hlN⟩, ⟨?_, ?_, ?_⟩⟩
  · rw [ha', copyFromTo_length, hN]
  · rw [hca, hla]; omega
  · rw [hcb, hlb]; omega
  · rw [hcb]; omega
  · rw [hd, hla, hlb]; omega
  · rw [hd]; omega
  · rw [ha', copyFromTo_length]
  · intro k hk
    rw [ha']
    exact copyFromTo_getElem?_outside scratch cB (v.cursorB + 1 - cB) (v.cursorDest + 1 - cB)
      v.arr k (by omega)
  · unfold comboHigh
    rw [ha', hd, hcb, hca]
    have e0 : v.cursorB - cB + 1 = v.cursorB + 1 - cB := by omega
    have e1 : v.cursorDest - cB + 1 = v.cursorDest + 1 - cB := by omega
    rw [e0, e1]
    have e2 : slice (copyFromTo scratch v.arr (v.cursorB + 1 - cB) (v.cursorDest + 1 - cB) cB)
        firstA (v.cursorA + 1) = slice v.arr firstA (v.cursorA + 1) :=
      slice_copyFromTo_outside _ _ _ _ _ _ _ (Or.inl (by omega))
    have e3 : slice (copyFromTo scratch v.arr (v.cursorB + 1 - cB) (v.cursorDest + 1 - cB) cB)
        (v.cursorDest + 1 - cB) lastB =
        slice scratch (v.cursorB + 1 - cB) (v.cursorB + 1) ++
          slice v.arr (v.cursorDest + 1) lastB := by
      rw [slice_split _ (v.cursorDest + 1 - cB) (v.cursorDest + 1) lastB (by omega) (by omega)]
      congr 1
      · have e5 := copyFromTo_slice scratch cB (v.cursorB + 1 - cB) (v.cursorDest + 1 - cB) v.arr
          (by omega) (by omega)
        have eS : v.cursorB + 1 - cB + cB = v.cursorB + 1 := by omega
        have eT : v.cursorDest + 1 - cB + cB = v.cursorDest + 1 := by omega
        rw [eS, eT] at e5
        exact e5
      · exact slice_copyFromTo_outside _ _ _ _ _ _ _ (Or.inr (by omega))
    have e4 : slice scratch 0 (v.cursorB + 1) =
        slice scratch 0 (v.cursorB + 1 - cB) ++ slice scratch (v.cursorB + 1 - cB) (v.cursorB + 1) :=
      slice_split scratch 0 (v.cursorB + 1 - cB) (v.cursorB + 1) (by omega) (by omega)
    rw [e2, e3, e4]
    have he : (slice v.arr firstA (v.cursorA + 1) ++
        (slice scratch 0 (v.cursorB + 1 - cB) ++
          slice scratch (v.cursorB + 1 - cB) (v.cursorB + 1))) ++
        slice v.arr (v.cursorDest + 1) lastB =
        (slice v.arr firstA (v.cursorA + 1) ++ slice scratch 0 (v.cursorB + 1 - cB)) ++
          (slice scratch (v.cursorB + 1 - cB) (v.cursorB + 1) ++
            slice v.arr (v.cursorDest + 1) lastB) := by
      simp [List.append_assoc]
    rw [he]


/-- Emitting the final element of run A in MergeHigh and then running
LABEL_COPY_MERGE_AREA_TO_DEST settles the books (the state after the emit may
hold a clamped cursorA when firstA = 0; the handler never reads it). -/
theorem mh_emitA_toDest [Inhabited α] (scratch : List α) (firstA lastB N : Nat)
    (v vnew : MergeVars α) (hInv : MHInv scratch firstA lastB N v) (hA1 : v.lengthA = 1)
    (ha : vnew.arr = v.arr.set v.cursorDest (v.arr.getD v.cursorA default))
    (hd : vnew.cursorDest = v.cursorDest - 1) (hcb : vnew.cursorB = v.cursorB) :
    MHBooks scratch firstA lastB v (mergeHighCopyRest scratch vnew) := by
  obtain ⟨hN, hA, hB, hsb, hD, hdl, hlN⟩ := hInv
  have hfa : v.cursorA = firstA := by omega
  have hcd : v.cursorDest = firstA + v.cursorB + 1 := by omega
  have hcr := mh_copyRest_books scratch firstA lastB N vnew
    (by rw [ha, List.length_set]; exact hN)
    (by rw [hcb]; exact hsb)
    (by rw [hcb, hd]; omega)
    (by rw [hd]; omega) hlN
  obtain ⟨hl, hout, hsl2⟩ := hcr
  refine ⟨?_, ?_, ?_⟩
  · rw [hl, ha, List.length_set]
  · intro k hk
    rw [hout k hk, ha]
    exact List.getElem?_set_ne (by omega)
  · rw [hsl2, hcb, hd, ha]
    have e1 : v.cursorDest - 1 + 1 = v.cursorDest := by omega
    rw [e1]
    have e2 : slice (v.arr.set v.cursorDest (v.arr.getD v.cursorA default)) v.cursorDest lastB =
        v.arr.getD v.cursorA default :: slice v.arr (v.cursorDest + 1) lastB := by
      rw [slice_cons _ v.cursorDest lastB (by omega) (by rw [List.length_set]; omega),
        getD_set_self_of_lt _ _ _ _ (by omega),
        slice_set_outside _ _ _ _ _ (by omega)]
    rw [e2]
    unfold comboHigh
    have e3 : slice v.arr firstA (v.cursorA + 1) = [v.arr.getD v.cursorA default] := by
      rw [hfa, slice_singleton v.arr firstA (by omega)]
    rw [e3]
    have h := (perm_emit_head ([] : List α) (slice scratch 0 (v.cursorB + 1))
      (slice v.arr (v.cursorDest + 1) lastB) (v.arr.getD v.cursorA default)).symm
    simpa using h

/-- Galloping all of run A back in MergeHigh and then running
LABEL_COPY_MERGE_AREA_TO_DEST settles the books. -/
theorem mh_chunkA_toDest [Inhabited α] (scratch : List α) (firstA lastB N : Nat)
    (v vnew : MergeVars α) (cA : Nat) (hInv : MHInv scratch firstA lastB N v)
    (hcA : cA = v.lengthA) (h1 : 1 ≤ v.lengthA)
    (ha : vnew.arr = copyBackwardWithin v.arr (v.cursorA + 1) (v.cursorDest + 1) cA)
    (hd : vnew.cursorDest = v.cursorDest - cA) (hcb : vnew.cursorB = v.cursorB) :
    MHBooks scratch firstA lastB v (mergeHighCopyRest scratch vnew) := by
  obtain ⟨hN, hA, hB, hsb, hD, hdl, hlN⟩ := hInv
  have ha2 : vnew.arr = copyFromTo v.arr v.arr (v.cursorA + 1 - cA) (v.cursorDest + 1 - cA) cA := by
    rw [ha, copyBackwardWithin_eq cA (v.cursorA + 1) (v.cursorDest + 1) v.arr v.arr
      (by omega) (by omega) (fun m _ => rfl),
      copyBackwardFromTo_eq v.arr cA (v.cursorA + 1) (v.cursorDest + 1) v.arr (by omega) (by omega)]
  have hcr := mh_copyRest_books scratch firstA lastB N vnew
    (by rw [ha2, copyFromTo_length]; exact hN)
    (by rw [hcb]; exact hsb)
    (by rw [hcb, hd]; omega)
    (by rw [hd]; omega) hlN
  obtain ⟨hl, hout, hsl2⟩ := hcr
  refine ⟨?_, ?_, ?_⟩
  · rw [hl, ha2, copyFromTo_length]
  · intro k hk
    rw [hout k hk, ha2]
    exact copyFromTo_getElem?_outside _ _ _ _ _ _ (by omega)
  · rw [hsl2, hcb, hd]
    have e1 : v.cursorDest - cA + 1 = firstA + v.lengthB := by omega
    rw [e1, ha2]
    have e2 : slice (copyFromTo v.arr v.arr (v.cursorA + 1 - cA) (v.cursorDest + 1 - cA) cA)
        (firstA + v.lengthB) lastB =
        slice v.arr firstA (v.cursorA + 1) ++ slice v.arr (v.cursorDest + 1) lastB := by
      rw [slice_split _ (firstA + v.lengthB) (v.cursorDest + 1) lastB (by omega) (by omega)]
      congr 1
      · have eS : v.cursorA + 1 - cA = firstA := by omega
        have eT : v.cursorDest + 1 - cA = firstA + v.lengthB := by omega
        rw [eS, eT]
        have e5 := copyFromTo_slice v.arr cA firstA (firstA + v.lengthB) v.arr
          (by omega) (by omega)
        have eU : firstA + v.lengthB + cA = v.cursorDest + 1 := by omega
        have eV : firstA + cA = v.cursorA + 1 := by omega
        rw [eU, eV] at e5
        exact e5
      · exact slice_copyFromTo_outside _ _ _ _ _ _ _ (Or.inr (by omega))
    rw [e2]
    unfold comboHigh
    have h := (perm_emit_block ([] : List α) (slice scratch 0 (v.cursorB + 1))
      (slice v.arr (v.cursorDest + 1) lastB) (slice v.arr firstA (v.cursorA + 1))).symm
    simpa using h

/-- Galloping all of run B back in MergeHigh finishes the merge: the array
returned directly already holds the books. -/
theorem mh_chunkB_retDirect [Inhabited α] (scratch : List α) (firstA lastB N : Nat)
    (v vnew : MergeVars α) (cB : Nat) (hInv : MHInv scratch firstA lastB N v)
    (hcB : cB = v.lengthB)
    (ha : vnew.arr = copyBackwardFromTo scratch v.arr (v.cursorB + 1) (v.cursorDest + 1) cB) :
    MHBooks scratch firstA lastB v vnew.arr := by
  obtain ⟨hN, hA, hB, hsb, hD, hdl, hlN⟩ := hInv
  have ha2 : vnew.arr = copyFromTo scratch v.arr 0 (firstA + v.lengthA) cB := by
    rw [ha, copyBackwardFromTo_eq scratch cB (v.cursorB + 1) (v.cursorDest + 1) v.arr
      (by omega) (by omega)]
    have e1 : v.cursorB + 1 - cB = 0 := by omega
    have e2 : v.cursorDest + 1 - cB = firstA + v.lengthA := by omega
    rw [e1, e2]
  refine ⟨?_, ?_, ?_⟩
  · rw [ha2, copyFromTo_length]
  · intro k hk
    rw [ha2]
    exact copyFromTo_getElem?_outside _ _ _ _ _ _ (by omega)
  · rw [ha2]
    unfold comboHigh
    rw [slice_split _ firstA (firstA + v.lengthA) lastB (by omega) (by omega),
      slice_split _ (firstA + v.lengthA) (firstA + v.lengthA + cB) lastB (by omega) (by omega)]
    have ea : slice (copyFromTo scratch v.arr 0 (firstA + v.lengthA) cB) firstA
        (firstA + v.lengthA) = slice v.arr firstA (v.cursorA + 1) := by
      rw [slice_copyFromTo_outside _ _ _ _ _ _ _ (Or.inl le_rfl)]
      congr 1
    have eb : slice (copyFromTo scratch v.arr 0 (firstA + v.lengthA) cB)
        (firstA + v.lengthA) (firstA + v.lengthA + cB) = slice scratch 0 (v.cursorB + 1) := by
      rw [copyFromTo_slice scratch cB 0 (firstA + v.lengthA) v.arr (by omega) (by omega),
        Nat.zero_add]
      congr 1
      omega
    have ec : slice (copyFromTo scratch v.arr 0 (firstA + v.lengthA) cB)
        (firstA + v.lengthA + cB) lastB = slice v.arr (v.cursorDest + 1) lastB := by
      rw [slice_copyFromTo_outside _ _ _ _ _ _ _ (Or.inr le_rfl)]
      congr 1
      omega
    rw [ea, eb, ec, ← List.append_assoc]

/-- LABEL_COPY_A_TO_DEST_AND_PREPEND_B of MergeHigh settles the books when
run B has one element left. -/
theorem mh_prependB_books [Inhabited α] (scratch : List α) (firstA lastB N : Nat)
    (v : MergeVars α) (hInv : MHInv scratch firstA lastB N v) (hB1 : v.lengthB = 1)
    (hA1 : 1 ≤ v.lengthA) :
    MHBooks scratch firstA lastB v (mergeHighPrependB scratch firstA v) := by
  obtain ⟨hN, hA, hB, hsb, hD, hdl, hlN⟩ := hInv
  have hcb0 : v.cursorB = 0 := by omega
  have hcd : v.cursorDest = v.cursorA + 1 := by omega
  unfold mergeHighPrependB
  rw [hcb0]
  have hn : v.cursorA + 1 - firstA = v.lengthA := by omega
  have hcw : copyBackwardWithin v.arr (v.cursorA + 1) (v.cursorDest + 1) (v.cursorA + 1 - firstA) =
      copyFromTo v.arr v.arr firstA (firstA + 1) v.lengthA := by
    rw [hn, copyBackwardWithin_eq v.lengthA (v.cursorA + 1) (v.cursorDest + 1) v.arr v.arr
      (by omega) (by omega) (fun m _ => rfl),
      copyBackwardFromTo_eq v.arr v.lengthA (v.cursorA + 1) (v.cursorDest + 1) v.arr
      (by omega) (by omega)]
    have e1 : v.cursorA + 1 - v.lengthA = firstA := by omega
    have e2 : v.cursorDest + 1 - v.lengthA = firstA + 1 := by omega
    rw [e1, e2]
  rw [hcw]
  have hsp : v.cursorDest - v.lengthA = firstA := by omega
  rw [hsp]
  have hclen : (copyFromTo v.arr v.arr firstA (firstA + 1) v.lengthA).length = v.arr.length :=
    copyFromTo_length _ _ _ _ _
  refine ⟨?_, ?_, ?_⟩
  · rw [List.length_set, hclen]
  · intro k hk
    rw [List.getElem?_set_ne (by omega)]
    exact copyFromTo_getElem?_outside _ _ _ _ _ _ (by omega)
  · rw [slice_split _ firstA (firstA + 1) lastB (by omega) (by omega),
      slice_split _ (firstA + 1) (v.cursorDest + 1) lastB (by omega) (by omega)]
    have ea : slice ((copyFromTo v.arr v.arr firstA (firstA + 1) v.lengthA).set firstA
        (scratch.getD 0 default)) firstA (firstA + 1) = [scratch.getD 0 default] := by
      rw [slice_singleton _ firstA (by rw [List.length_set, hclen]; omega),
        getD_set_self_of_lt _ _ _ _ (by rw [hclen]; omega)]
    have eb : slice ((copyFromTo v.arr v.arr firstA (firstA + 1) v.lengthA).set firstA
        (scratch.getD 0 default)) (firstA + 1) (v.cursorDest + 1) =
        slice v.arr firstA (v.cursorA + 1) := by
      rw [slice_set_outside _ _ _ _ _ (Or.inl (by omega))]
      have e5 := copyFromTo_slice v.arr v.lengthA firstA (firstA + 1) v.arr
        (by omega) (by omega)
      have eU : firstA + 1 + v.lengthA = v.cursorDest + 1 := by omega
      have eV : firstA + v.lengthA = v.cursorA + 1 := by omega
      rw [eU, eV] at e5
      exact e5
    have ec : slice ((copyFromTo v.arr v.arr firstA (firstA + 1) v.lengthA).set firstA
        (scratch.getD 0 default)) (v.cursorDest + 1) lastB =
        slice v.arr (v.cursorDest + 1) lastB := by
      rw [slice_set_outside _ _ _ _ _ (Or.inl (by omega)),
        slice_copyFromTo_outside _ _ _ _ _ _ _ (Or.inr (by omega))]
    rw [ea, eb, ec]
    unfold comboHigh
    rw [hcb0]
    have e6 : slice scratch 0 (0 + 1) = [scratch.getD 0 default] :=
      slice_singleton scratch 0 (by omega)
    rw [e6]
    have h := (@List.perm_middle α (scratch.getD 0 default)
      (slice v.arr firstA (v.cursorA + 1)) (slice v.arr (v.cursorDest + 1) lastB)).symm
    simpa [List.append_assoc] using h


/-- A good outcome of a later state is a good outcome of an earlier state one
step back (MergeHigh). -/
theorem MHGood_of_step [Inhabited α] {scratch : List α} {firstA lastB N : Nat}
    {v v1 : MergeVars α} {r : MergeRes α}
    (h1 : MHStep scratch firstA lastB v v1)
    (hm : v1.lengthA + v1.lengthB ≤ v.lengthA + v.lengthB)
    (h2 : MHGood scratch firstA lastB N v1 r) :
    MHGood scratch firstA lastB N v r := by
  cases r with
  | fuelOut v2 => exact h2
  | toDest v2 => exact MHBooks_of_step h1 h2
  | toAppend v2 =>
    obtain ⟨⟨hi, hs⟩, hx⟩ := h2
    exact ⟨⟨hi, MHStep_trans h1 hs⟩, hx⟩
  | retDirect v2 => exact MHBooks_of_step h1 h2
  | nextOuter v2 =>
    obtain ⟨⟨hi, hs⟩, hx1, hx2, hx3⟩ := h2
    exact ⟨⟨hi, MHStep_trans h1 hs⟩, hx1, hx2, by omega⟩

/-- The pairwise mode of MergeHigh always exits well when given fuel at least
the number of unmerged elements. -/
theorem mergeHighPairwise_good [Inhabited α] (comp : α → α → Bool) (scratch : List α)
    (firstA lastB N : Nat) :
    ∀ fuel v, MHInv scratch firstA lastB N v → 1 ≤ v.lengthA → 2 ≤ v.lengthB →
      v.lengthA + v.lengthB ≤ fuel →
      MHGood scratch firstA lastB N v (mergeHighPairwise comp scratch fuel v) := by
  intro fuel
  induction fuel with
  | zero => intro v hInv hA hB hf; omega
  | succ fuel ih =>
    intro v hInv hA hB hf
    unfold mergeHighPairwise
    dsimp only
    split
    · split
      · next h0 =>
        exact mh_emitA_toDest scratch firstA lastB N v
          { v with
            arr := v.arr.set v.cursorDest (v.arr.getD v.cursorA default),
            cursorDest := v.cursorDest - 1, cursorA := v.cursorA - 1,
            lengthA := v.lengthA - 1, countA := v.countA + 1, countB := 0 }
          hInv (by omega) rfl rfl rfl
      · next h0 =>
        have hstep := mh_emitA scratch firstA lastB N v
          { v with
            arr := v.arr.set v.cursorDest (v.arr.getD v.cursorA default),
            cursorDest := v.cursorDest - 1, cursorA := v.cursorA - 1,
            lengthA := v.lengthA - 1, countA := v.countA + 1, countB := 0 }
          hInv (by omega) rfl rfl rfl rfl rfl rfl
        split
        · exact MHGood_of_step hstep.2 (by dsimp only; omega)
            (ih _ hstep.1 (by dsimp only at h0 ⊢; omega) (by dsimp only; omega)
              (by dsimp only; omega))
        · exact ⟨⟨hstep.1, hstep.2⟩, by dsimp only at h0 ⊢; omega, by dsimp only; omega,
            by dsimp only; omega⟩
    · have hstep := mh_emitB scratch firstA lastB N v
        { v with
          arr := v.arr.set v.cursorDest (scratch.getD v.cursorB default),
          cursorDest := v.cursorDest - 1, cursorB := v.cursorB - 1,
          lengthB := v.lengthB - 1, countA := 0, countB := v.countB + 1 }
        hInv hB rfl rfl rfl rfl rfl rfl
      split
      · next h0 => exact ⟨⟨hstep.1, hstep.2⟩, h0, by dsimp only; omega⟩
      · next h0 =>
        split
        · exact MHGood_of_step hstep.2 (by dsimp only; omega)
            (ih _ hstep.1 (by dsimp only; omega) (by dsimp only at h0 ⊢; omega)
              (by dsimp only; omega))
        · exact ⟨⟨hstep.1, hstep.2⟩, by dsimp only; omega, by dsimp only at h0 ⊢; omega,
            by dsimp only; omega⟩


set_option maxHeartbeats 2000000 in
/-- The galloping mode of MergeHigh always exits well when given fuel beyond
the number of remaining B elements. -/
theorem mergeHighGallop_good [Inhabited α] (comp : α → α → Bool) (scratch : List α)
    (firstA lastB N : Nat) :
    ∀ fuel v, MHInv scratch firstA lastB N v → 1 ≤ v.lengthA → 2 ≤ v.lengthB →
      v.lengthB + 1 ≤ fuel →
      MHGood scratch firstA lastB N v (mergeHighGallop comp scratch firstA fuel v) := by
  intro fuel
  induction fuel with
  | zero => intro v hInv hA hB hf; omega
  | succ fuel ih =>
    intro v0 hInv0 hA0 hB0 hf
    have hInv0x := hInv0
    obtain ⟨hN, hAe, hBe, hsb, hD, hdl, hlN⟩ := hInv0x
    unfold mergeHighGallop
    dsimp only
    set p := gallopRight v0.arr comp firstA (v0.cursorA + 1) v0.cursorA (scratch.getD v0.cursorB default) with hp
    have hpb := gallopRight_bounds v0.arr comp firstA (v0.cursorA + 1) v0.cursorA
      (scratch.getD v0.cursorB default) (by omega) (by omega)
    rw [← hp] at hpb
    set V1 : MergeVars α := if v0.cursorA + 1 - p ≠ 0 then
        { v0 with
          arr := copyBackwardWithin v0.arr (v0.cursorA + 1) (v0.cursorDest + 1) (v0.cursorA + 1 - p),
          cursorDest := v0.cursorDest - (v0.cursorA + 1 - p),
          cursorA := v0.cursorA - (v0.cursorA + 1 - p),
          lengthA := v0.lengthA - (v0.cursorA + 1 - p), countA := v0.cursorA + 1 - p }
      else { v0 with countA := v0.cursorA + 1 - p }
      with hV1
    have hVlA : V1.lengthA = v0.lengthA - (v0.cursorA + 1 - p) := by
      rw [hV1]
      by_cases hcA0 : v0.cursorA + 1 - p ≠ 0
      · rw [if_pos hcA0]
      · rw [if_neg hcA0]
        dsimp only
        omega
    have hVlB : V1.lengthB = v0.lengthB := by
      rw [hV1]
      by_cases hcA0 : v0.cursorA + 1 - p ≠ 0
      · rw [if_pos hcA0]
      · rw [if_neg hcA0]
    have hcAle : v0.cursorA + 1 - p ≤ v0.lengthA := by omega
    split
    · next h =>
      rw [hV1, if_pos h.1]
      have h2 := h.2
      rw [hVlA] at h2
      exact mh_chunkA_toDest scratch firstA lastB N v0 _ (v0.cursorA + 1 - p) hInv0
        (by omega) (by omega) rfl rfl rfl
    · next hx1 =>
      have hInv1p : MHInv scratch firstA lastB N V1 ∧ MHStep scratch firstA lastB v0 V1 := by
        rw [hV1]
        by_cases hcA0 : v0.cursorA + 1 - p ≠ 0
        · rw [if_pos hcA0]
          have h0 : ¬ V1.lengthA = 0 := fun hh => hx1 ⟨hcA0, hh⟩
          rw [hVlA] at h0
          exact mh_chunkA scratch firstA lastB N v0 _ (v0.cursorA + 1 - p) hInv0
            (by omega) rfl rfl rfl rfl rfl rfl
        · rw [if_neg hcA0]
          exact ⟨hInv0, MHStep_refl scratch firstA lastB v0⟩
      obtain ⟨hInv1, hstep1⟩ := hInv1p
      have hA1 : 1 ≤ V1.lengthA := by
        by_cases hcA0 : v0.cursorA + 1 - p ≠ 0
        · have h0 : ¬ V1.lengthA = 0 := fun hh => hx1 ⟨hcA0, hh⟩
          omega
        · rw [hVlA]
          omega
      have hBe1 := hInv1.2.2.1
      have hstep2 := mh_emitB scratch firstA lastB N V1
        { V1 with
          arr := V1.arr.set V1.cursorDest (scratch.getD V1.cursorB default),
          cursorDest := V1.cursorDest - 1, cursorB := V1.cursorB - 1,
          lengthB := V1.lengthB - 1 }
        hInv1 (by omega) rfl rfl rfl rfl rfl rfl
      split
      · next h0 =>
        exact ⟨⟨hstep2.1, MHStep_trans hstep1 hstep2.2⟩, h0, by dsimp only; omega⟩
      · next hx2 =>
        set q := gallopLeft scratch comp 0 (V1.cursorB - 1 + 1) (V1.cursorB - 1)
          ((V1.arr.set V1.cursorDest (scratch.getD V1.cursorB default)).getD V1.cursorA default) with hq
        have hqb := gallopLeft_bounds scratch comp 0 (V1.cursorB - 1 + 1) (V1.cursorB - 1)
          ((V1.arr.set V1.cursorDest (scratch.getD V1.cursorB default)).getD V1.cursorA default)
          (by omega) (by omega)
        rw [← hq] at hqb
        set V3 : MergeVars α := if V1.cursorB - 1 + 1 - q ≠ 0 then
            { V1 with
              arr := copyBackwardFromTo scratch
                (V1.arr.set V1.cursorDest (scratch.getD V1.cursorB default))
                (V1.cursorB - 1 + 1) (V1.cursorDest - 1 + 1) (V1.cursorB - 1 + 1 - q),
              cursorDest := V1.cursorDest - 1 - (V1.cursorB - 1 + 1 - q),
              cursorB := V1.cursorB - 1 - (V1.cursorB - 1 + 1 - q),
              lengthB := V1.lengthB - 1 - (V1.cursorB - 1 + 1 - q),
              countB := V1.cursorB - 1 + 1 - q }
          else
            { V1 with
              arr := V1.arr.set V1.cursorDest (scratch.getD V1.cursorB default),
              cursorDest := V1.cursorDest - 1, cursorB := V1.cursorB - 1,
              lengthB := V1.lengthB - 1, countB := V1.cursorB - 1 + 1 - q }
          with hV3
        have hV3lB : V3.lengthB = V1.lengthB - 1 - (V1.cursorB - 1 + 1 - q) := by
          rw [hV3]
          by_cases hcB0 : V1.cursorB - 1 + 1 - q ≠ 0
          · rw [if_pos hcB0]
          · rw [if_neg hcB0]
            dsimp only
            omega
        have hV3lA : V3.lengthA = V1.lengthA := by
          rw [hV3]
          by_cases hcB0 : V1.cursorB - 1 + 1 - q ≠ 0
          · rw [if_pos hcB0]
          · rw [if_neg hcB0]
        have hcBle : V1.cursorB - 1 + 1 - q ≤ V1.lengthB - 1 := by omega
        split
        · next h =>
          rw [hV3, if_pos h.1]
          have h2 := h.2
          rw [hV3lB] at h2
          exact MHBooks_of_step (MHStep_trans hstep1 hstep2.2)
            (mh_chunkB_retDirect scratch firstA lastB N _ _ (V1.cursorB - 1 + 1 - q)
              hstep2.1 (by dsimp only; omega) rfl)
        · next hx3 =>
          split
          · next h =>
            have h2 := h.2
            rw [hV3lB] at h2
            have h3 : MHInv scratch firstA lastB N V3 ∧ MHStep scratch firstA lastB
                { V1 with
                  arr := V1.arr.set V1.cursorDest (scratch.getD V1.cursorB default),
                  cursorDest := V1.cursorDest - 1, cursorB := V1.cursorB - 1,
                  lengthB := V1.lengthB - 1 } V3 := by
              rw [hV3, if_pos h.1]
              exact mh_chunkB scratch firstA lastB N _ _ (V1.cursorB - 1 + 1 - q)
                hstep2.1 (by dsimp only; omega) rfl rfl rfl rfl rfl rfl
            exact ⟨⟨h3.1, MHStep_trans hstep1 (MHStep_trans hstep2.2 h3.2)⟩, h.2, by omega⟩
          · next hx4 =>
            have h3 : MHInv scratch firstA lastB N V3 ∧ MHStep scratch firstA lastB
                { V1 with
                  arr := V1.arr.set V1.cursorDest (scratch.getD V1.cursorB default),
                  cursorDest := V1.cursorDest - 1, cursorB := V1.cursorB - 1,
                  lengthB := V1.lengthB - 1 } V3 := by
              rw [hV3]
              by_cases hcB0 : V1.cursorB - 1 + 1 - q ≠ 0
              · rw [if_pos hcB0]
                have h0 : ¬ V3.lengthB = 0 := fun hh => hx3 ⟨hcB0, hh⟩
                rw [hV3lB] at h0
                exact mh_chunkB scratch firstA lastB N _ _ (V1.cursorB - 1 + 1 - q)
                  hstep2.1 (by dsimp only; omega) rfl rfl rfl rfl rfl rfl
              · rw [if_neg hcB0]
                exact ⟨hstep2.1, MHStep_refl scratch firstA lastB _⟩
            obtain ⟨hInv3, hstep3⟩ := h3
            have hB3 : 2 ≤ V3.lengthB := by
              by_cases hcB0 : V1.cursorB - 1 + 1 - q ≠ 0
              · have h0 : ¬ V3.lengthB = 0 := fun hh => hx3 ⟨hcB0, hh⟩
                have h1x : ¬ V3.lengthB = 1 := fun hh => hx4 ⟨hcB0, hh⟩
                omega
              · rw [hV3lB]
                omega
            split
            · next h0 =>
              have h0x : V3.lengthA = 1 := by omega
              exact MHBooks_of_step (MHStep_trans hstep1 (MHStep_trans hstep2.2 hstep3))
                (mh_emitA_toDest scratch firstA lastB N V3 _ hInv3 h0x rfl rfl rfl)
            · next hx5 =>
              have hA3 : 2 ≤ V3.lengthA := by omega
              have hstep4 := mh_emitA scratch firstA lastB N V3
                { V3 with
                  arr := V3.arr.set V3.cursorDest (V3.arr.getD V3.cursorA default),
                  cursorDest := V3.cursorDest - 1, cursorA := V3.cursorA - 1,
                  lengthA := V3.lengthA - 1 }
                hInv3 hA3 rfl rfl rfl rfl rfl rfl
              have hInv5 : MHInv scratch firstA lastB N
                  { V3 with
                    arr := V3.arr.set V3.cursorDest (V3.arr.getD V3.cursorA default),
                    cursorDest := V3.cursorDest - 1, cursorA := V3.cursorA - 1,
                    lengthA := V3.lengthA - 1,
                    minGallop := V3.minGallop - (if 1 < V3.minGallop then 1 else 0) } := hstep4.1
              have hstep5 : MHStep scratch firstA lastB V3
                  { V3 with
                    arr := V3.arr.set V3.cursorDest (V3.arr.getD V3.cursorA default),
                    cursorDest := V3.cursorDest - 1, cursorA := V3.cursorA - 1,
                    lengthA := V3.lengthA - 1,
                    minGallop := V3.minGallop - (if 1 < V3.minGallop then 1 else 0) } := hstep4.2
              split
              · exact MHGood_of_step hstep1 (by omega)
                  (MHGood_of_step hstep2.2 (by dsimp only; omega)
                    (MHGood_of_step hstep3 (by dsimp only; omega)
                      (MHGood_of_step hstep5 (by dsimp only; omega)
                        (ih _ hInv5 (by dsimp only; omega) (by dsimp only; omega)
                          (by dsimp only; omega)))))
              · refine ⟨⟨hInv5,
                  MHStep_trans hstep1 (MHStep_trans hstep2.2 (MHStep_trans hstep3 hstep5))⟩,
                  by dsimp only; omega, by dsimp only; omega, by dsimp only; omega⟩


/-- The main loop of MergeHigh settles the books when given fuel at least the
number of unmerged elements. -/
theorem mergeHighMainLoop_books [Inhabited α] (comp : α → α → Bool) (scratch : List α)
    (firstA lastB N g : Nat) :
    ∀ fuel v, MHInv scratch firstA lastB N v → 1 ≤ v.lengthA → 2 ≤ v.lengthB →
      v.lengthA + v.lengthB ≤ fuel →
      MHBooks scratch firstA lastB v (mergeHighMainLoop comp scratch firstA g fuel v).1 := by
  intro fuel
  induction fuel with
  | zero => intro v hInv hA hB hf; omega
  | succ fuel ih =>
    intro v hInv hA hB hf
    unfold mergeHighMainLoop
    rw [if_neg (by omega : ¬ (1 : Nat) = 0)]
    dsimp only
    have hg := mergeHighPairwise_good comp scratch firstA lastB N
      (v.lengthA + v.lengthB + 1) { v with countA := 0, countB := 0 } hInv hA hB
      (by dsimp only; omega)
    split
    · next v1 heq =>
      rw [heq] at hg
      obtain ⟨⟨hInv1, hstep1⟩, hA1, hB1, hm1⟩ := hg
      dsimp only at hm1
      have hg2 := mergeHighGallop_good comp scratch firstA lastB N
        (v1.lengthB + 1) v1 hInv1 hA1 hB1 le_rfl
      split
      · next v2 heq2 =>
        rw [heq2] at hg2
        obtain ⟨⟨hInv2, hstep2⟩, hA2, hB2, hm2⟩ := hg2
        exact MHBooks_of_step hstep1 (MHBooks_of_step hstep2
          (ih _ hInv2 hA2 hB2 (by dsimp only; omega)))
      · next v2 heq2 =>
        rw [heq2] at hg2
        exact MHBooks_of_step hstep1 hg2
      · next v2 heq2 =>
        rw [heq2] at hg2
        obtain ⟨⟨hInv2, hstep2⟩, hB2, hA2⟩ := hg2
        exact MHBooks_of_step hstep1 (MHBooks_of_step hstep2
          (mh_prependB_books scratch firstA lastB N v2 hInv2 hB2 hA2))
      · next v2 heq2 =>
        rw [heq2] at hg2
        exact MHBooks_of_step hstep1 hg2
      · next v2 heq2 =>
        rw [heq2] at hg2
        exact hg2.elim
    · next v1 heq =>
      rw [heq] at hg
      exact hg
    · next v1 heq =>
      rw [heq] at hg
      obtain ⟨⟨hInv1, hstep1⟩, hB1, hA1⟩ := hg
      exact MHBooks_of_step hstep1 (mh_prependB_books scratch firstA lastB N v1 hInv1 hB1 hA1)
    · next v1 heq =>
      rw [heq] at hg
      exact hg
    · next v1 heq =>
      rw [heq] at hg
      exact hg.elim

/-- High-side books plus the initial combo fact give a whole-array
permutation. -/
theorem mh_books_final [Inhabited α] (scratch : List α) (firstA lastB : Nat)
    (arr out : List α) (v0 : MergeVars α) (b : α) (t : Nat)
    (hva : v0.arr = arr.set t b) (ht1 : firstA ≤ t) (ht2 : t < lastB)
    (hb : MHBooks scratch firstA lastB v0 out)
    (hcombo : (comboHigh scratch firstA lastB v0).Perm (slice arr firstA lastB))
    (hlb : lastB ≤ arr.length) :
    out.Perm arr ∧ out.length = arr.length := by
  have hlen : out.length = arr.length := by rw [hb.1, hva, List.length_set]
  refine ⟨perm_of_region out arr firstA lastB (by omega) hlb hlen ?_ ?_, hlen⟩
  · intro k hk
    rw [hb.2.1 k hk, hva]
    exact List.getElem?_set_ne (by omega)
  · exact hb.2.2.trans hcombo

/-- MergeHigh permutes the array and preserves its length, for every
comparator. -/
theorem mergeHigh_perm [Inhabited α] (comp : α → α → Bool) (g : Nat) (arr : List α)
    (firstA lastA firstB lastB : Nat) (h1 : firstA < lastA) (h2 : lastA = firstB)
    (h3 : firstB < lastB) (h4 : lastB ≤ arr.length) :
    (mergeHigh comp g arr firstA lastA firstB lastB).1.Perm arr ∧
    (mergeHigh comp g arr firstA lastA firstB lastB).1.length = arr.length := by
  have hlB2 : 2 ≤ lastB := by omega
  unfold mergeHigh
  dsimp only
  set V0 : MergeVars α := {
      arr := arr.set (lastB - 1) (arr.getD (lastA - 1) default),
      cursorA := lastA - 1 - 1, cursorB := lastB - firstB - 1, cursorDest := lastB - 1 - 1,
      lengthA := lastA - firstA - 1, lengthB := lastB - firstB,
      minGallop := g, countA := 0, countB := 0 } with hV0
  have hsl : (slice arr firstB lastB).length = lastB - firstB := by
    rw [slice_length]; omega
  split
  · next h0 =>
    -- lengthA - 1 = 0 : copy the merge area straight back
    have hA1 : lastA = firstA + 1 := by omega
    have hcr := mh_copyRest_books (slice arr firstB lastB) firstA lastB arr.length V0
      (by rw [hV0]; dsimp only; rw [List.length_set])
      (by rw [hV0]; dsimp only; omega)
      (by rw [hV0]; dsimp only; omega)
      (by rw [hV0]; dsimp only; omega) h4
    obtain ⟨hl, hout, hsl2⟩ := hcr
    have hlen : (mergeHighCopyRest (slice arr firstB lastB) V0).length = arr.length := by
      rw [hl, hV0]
      dsimp only
      rw [List.length_set]
    refine ⟨perm_of_region _ arr firstA lastB (by omega) h4 hlen ?_ ?_, hlen⟩
    · intro k hk
      rw [hout k hk, hV0]
      dsimp only
      exact List.getElem?_set_ne (by omega)
    · rw [hsl2, hV0]
      dsimp only
      have eB : lastB - firstB - 1 + 1 = lastB - firstB := by omega
      have eD : lastB - 1 - 1 + 1 = lastB - 1 := by omega
      rw [eB, eD]
      have e2 : slice (slice arr firstB lastB) 0 (lastB - firstB) = slice arr firstB lastB := by
        have h := slice_all (slice arr firstB lastB)
        rw [hsl] at h
        exact h
      have e3 : slice (arr.set (lastB - 1) (arr.getD (lastA - 1) default)) (lastB - 1) lastB =
          [arr.getD (lastA - 1) default] := by
        have el : lastB - 1 + 1 = lastB := by omega
        have e9 := slice_singleton (arr.set (lastB - 1) (arr.getD (lastA - 1) default))
          (lastB - 1) (by rw [List.length_set]; omega)
        rw [el, getD_set_self_of_lt _ _ _ _ (by omega)] at e9
        exact e9
      rw [e2, e3]
      have e4 : slice arr firstA lastB = slice arr firstA lastA ++ slice arr lastA lastB :=
        slice_split arr firstA lastA lastB (by omega) (by omega)
      have e5 : slice arr firstA lastA = [arr.getD (lastA - 1) default] := by
        have e : lastA = firstA + 1 := hA1
        rw [e, slice_singleton arr firstA (by omega)]
        have e6 : firstA + 1 - 1 = firstA := by omega
        rw [e6]
      have e7 : slice arr lastA lastB = slice arr firstB lastB := by rw [h2]
      rw [e4, e5, e7]
      exact List.perm_append_comm
  · next hx0 =>
    have hA1 : 1 ≤ lastA - firstA - 1 := by omega
    have hInv0 : MHInv (slice arr firstB lastB) firstA lastB arr.length V0 := by
      refine ⟨?_, ?_, ?_, ?_, ?_, ?_, h4⟩ <;> rw [hV0] <;> dsimp only
      · rw [List.length_set]
      · omega
      · omega
      · rw [hsl]; omega
      · omega
      · omega
    have hcombo : (comboHigh (slice arr firstB lastB) firstA lastB V0).Perm
        (slice arr firstA lastB) := by
      rw [hV0]
      unfold comboHigh
      dsimp only
      have eA : lastA - 1 - 1 + 1 = lastA - 1 := by omega
      have eB : lastB - firstB - 1 + 1 = lastB - firstB := by omega
      have eD : lastB - 1 - 1 + 1 = lastB - 1 := by omega
      rw [eA, eB, eD]
      have e1 : slice (arr.set (lastB - 1) (arr.getD (lastA - 1) default)) firstA (lastA - 1) =
          slice arr firstA (lastA - 1) :=
        slice_set_outside _ _ _ _ _ (by omega)
      have e2 : slice (slice arr firstB lastB) 0 (lastB - firstB) = slice arr firstB lastB := by
        have h := slice_all (slice arr firstB lastB)
        rw [hsl] at h
        exact h
      have e3 : slice (arr.set (lastB - 1) (arr.getD (lastA - 1) default)) (lastB - 1) lastB =
          [arr.getD (lastA - 1) default] := by
        have el : lastB - 1 + 1 = lastB := by omega
        have e9 := slice_singleton (arr.set (lastB - 1) (arr.getD (lastA - 1) default))
          (lastB - 1) (by rw [List.length_set]; omega)
        rw [el, getD_set_self_of_lt _ _ _ _ (by omega)] at e9
        exact e9
      rw [e1, e2, e3]
      have e4 : slice arr firstA lastB =
          slice arr firstA (lastA - 1) ++ slice arr (lastA - 1) lastB :=
        slice_split arr firstA (lastA - 1) lastB (by omega) (by omega)
      have e5 : slice arr (lastA - 1) lastB =
          slice arr (lastA - 1) lastA ++ slice arr lastA lastB :=
        slice_split arr (lastA - 1) lastA lastB (by omega) (by omega)
      have e6 : slice arr (lastA - 1) lastA = [arr.getD (lastA - 1) default] := by
        have el : lastA - 1 + 1 = lastA := by omega
        have e9 := slice_singleton arr (lastA - 1) (by omega)
        rw [el] at e9
        exact e9
      have e8 : slice arr lastA lastB = slice arr firstB lastB := by rw [h2]
      rw [e4, e5, e6, e8]
      have h := (perm_emit_head (slice arr firstA (lastA - 1)) (slice arr firstB lastB)
        ([] : List α) (arr.getD (lastA - 1) default)).symm
      simpa [List.append_assoc] using h
    split
    · next hB1 =>
      have hB1x : V0.lengthB = 1 := hB1
      exact mh_books_final (slice arr firstB lastB) firstA lastB arr _ V0 _ (lastB - 1)
        rfl (by omega) (by omega)
        (mh_prependB_books (slice arr firstB lastB) firstA lastB arr.length V0 hInv0 hB1x
          (by rw [hV0]; dsimp only; omega))
        hcombo h4
    · next hB1 =>
      have hbooks := mergeHighMainLoop_books comp (slice arr firstB lastB) firstA lastB
        arr.length g ((lastA - firstA) + (lastB - firstB) + 1) V0 hInv0
        (by rw [hV0]; dsimp only; omega)
        (by rw [hV0]; dsimp only; omega)
        (by rw [hV0]; dsimp only; omega)
      exact mh_books_final (slice arr firstB lastB) firstA lastB arr _ V0 _ (lastB - 1)
        rfl (by omega) (by omega) hbooks hcombo h4


/-- MergeAt permutes the array and preserves its length whenever the two
stack entries it merges are adjacent, nonempty and in range. -/
theorem mergeAt_perm [Inhabited α] (comp : α → α → Bool) (st : MergeState α) (arr : List α)
    (stackPos : Nat)
    (h1 : (st.mStack.getD stackPos junkRun).first < (st.mStack.getD stackPos junkRun).last)
    (h2 : (st.mStack.getD stackPos junkRun).last = (st.mStack.getD (stackPos + 1) junkRun).first)
    (h3 : (st.mStack.getD (stackPos + 1) junkRun).first <
      (st.mStack.getD (stackPos + 1) junkRun).last)
    (h4 : (st.mStack.getD (stackPos + 1) junkRun).last ≤ arr.length) :
    (mergeAt comp st arr stackPos).1.Perm arr ∧
    (mergeAt comp st arr stackPos).1.length = arr.length := by
  unfold mergeAt
  dsimp only
  set firstA := (st.mStack.getD stackPos junkRun).first with hfA
  set lastA := (st.mStack.getD stackPos junkRun).last with hlA
  set firstB := (st.mStack.getD (stackPos + 1) junkRun).first with hfB
  set lastB := (st.mStack.getD (stackPos + 1) junkRun).last with hlB
  have hpA := gallopRight_bounds arr comp firstA lastA firstA (arr.getD firstB default)
    le_rfl h1
  set pA := gallopRight arr comp firstA lastA firstA (arr.getD firstB default) with hp
  split
  · exact ⟨List.Perm.refl arr, rfl⟩
  · next hzA =>
    have hpB := gallopLeft_bounds arr comp firstB lastB (lastB - 1) (arr.getD (lastA - 1) default)
      (by omega) (by omega)
    set pB := gallopLeft arr comp firstB lastB (lastB - 1) (arr.getD (lastA - 1) default) with hq
    split
    · exact ⟨List.Perm.refl arr, rfl⟩
    · next hzB =>
      split
      · exact mergeLow_perm comp st.mMinGallop arr pA lastA firstB pB (by omega) h2
          (by omega) (by omega)
      · exact mergeHigh_perm comp st.mMinGallop arr pA lastA firstB pB (by omega) h2
          (by omega) (by omega)

/-- MergeAt drops one run and replaces the merged pair by its union on the
stack (no tail slide when the pair is not three below the top). -/
theorem mergeAt_state [Inhabited α] (comp : α → α → Bool) (st : MergeState α) (arr : List α)
    (stackPos : Nat) (hno : ¬ stackPos + 3 = st.mNumRunInStack) :
    (mergeAt comp st arr stackPos).2.mNumRunInStack = st.mNumRunInStack - 1 ∧
    (mergeAt comp st arr stackPos).2.mStack = st.mStack.set stackPos
      ⟨(st.mStack.getD stackPos junkRun).first, (st.mStack.getD (stackPos + 1) junkRun).last⟩ := by
  unfold mergeAt
  dsimp only
  rw [if_neg hno]
  repeat' split
  all_goals exact ⟨rfl, rfl⟩

/-- The TryMerge loop does nothing when at most one run is stacked. -/
theorem tryMergeLoop_le_one [Inhabited α] (comp : α → α → Bool) :
    ∀ fuel (st : MergeState α) (arr : List α), st.mNumRunInStack ≤ 1 →
      tryMergeLoop comp fuel st arr = (arr, st) := by
  intro fuel
  cases fuel with
  | zero => intro st arr h; rfl
  | succ n =>
    intro st arr h
    unfold tryMergeLoop
    rw [if_neg (by omega)]

/-- With exactly two stacked runs, TryMerge merges them at position 0 through
the always-true self-comparison branch and stops. -/
theorem tryMergeLoop_two [Inhabited α] (comp : α → α → Bool) (fuel : Nat) (st : MergeState α)
    (arr : List α) (h2 : st.mNumRunInStack = 2)
    (hm : (mergeAt comp st arr 0).2.mNumRunInStack ≤ 1) :
    tryMergeLoop comp (fuel + 2) st arr =
      ((mergeAt comp st arr 0).1, (mergeAt comp st arr 0).2) := by
  show tryMergeLoop comp ((fuel + 1) + 1) st arr = _
  unfold tryMergeLoop
  rw [if_pos (by omega)]
  dsimp only
  rw [if_neg (fun hc => absurd hc.1 (by omega))]
  rw [if_pos le_rfl]
  have hpos : st.mNumRunInStack - 2 = 0 := by omega
  rw [hpos]
  rw [tryMergeLoop_le_one comp (fuel + 1) _ _ hm]

/-- The ForceMerge loop does nothing when at most one run is stacked. -/
theorem forceMergeLoop_le_one [Inhabited α] (comp : α → α → Bool) :
    ∀ fuel (st : MergeState α) (arr : List α), st.mNumRunInStack ≤ 1 →
      forceMergeLoop comp fuel st arr = (arr, st) := by
  intro fuel
  cases fuel with
  | zero => intro st arr h; rfl
  | succ n =>
    intro st arr h
    unfold forceMergeLoop
    rw [if_neg (by omega)]

/-- ForceMerge does nothing when at most one run is stacked. -/
theorem forceMerge_le_one [Inhabited α] (comp : α → α → Bool) (st : MergeState α)
    (arr : List α) (h : st.mNumRunInStack ≤ 1) : forceMerge comp st arr = (arr, st) := by
  unfold forceMerge
  exact forceMergeLoop_le_one comp st.mNumRunInStack st arr h


set_option maxHeartbeats 2000000 in
/-- The run-building loop of Sort permutes the array, preserves its length
and leaves at most one run stacked, provided the stack starts that way.
TryMerge's always-true self-comparison makes every iteration collapse the
stack back to a single run. -/
theorem sortLoop_sound [Inhabited α] (le comp : α → α → Bool) (N minRunLength : Nat) :
    ∀ fuel (st : MergeState α) (arr : List α) (next : Nat),
      arr.length = N →
      st.mStack.length = kMaxMergeStackSize →
      st.mNumRunInStack ≤ 1 →
      (st.mNumRunInStack = 1 →
        (st.mStack.getD 0 junkRun).first < (st.mStack.getD 0 junkRun).last ∧
        (st.mStack.getD 0 junkRun).last = next ∧ next ≤ N) →
      (sortLoop le comp N minRunLength fuel st arr next).1.Perm arr ∧
      (sortLoop le comp N minRunLength fuel st arr next).1.length = N ∧
      (sortLoop le comp N minRunLength fuel st arr next).2.mNumRunInStack ≤ 1 := by
  intro fuel
  induction fuel with
  | zero => intro st arr next hN hsl hnum hone; exact ⟨List.Perm.refl arr, hN, hnum⟩
  | succ fuel ih =>
    intro st arr next hN hsl hnum hone
    unfold sortLoop
    split
    · next hlt =>
      dsimp only
      set d := detectRunAndMakeAscending arr le comp next N with hd
      have hds := detectRun_sound arr le comp next N hlt (by omega)
      rw [← hd] at hds
      obtain ⟨hd1, hd2, hdp, hdl⟩ := hds
      set B : Nat × List α := if d.1 - next < minRunLength ∧ d.1 - next < N - next then
          (next + (if minRunLength < N - next then minRunLength else N - next),
            binaryInsertionSort d.2 comp next
              (next + (if minRunLength < N - next then minRunLength else N - next)))
        else (d.1, d.2)
        with hB
      have hBf : B.2.Perm arr ∧ B.2.length = N ∧ next < B.1 ∧ B.1 ≤ N := by
        rw [hB]
        split
        · next hc =>
          dsimp only
          have hle2 : next + (if minRunLength < N - next then minRunLength else N - next) ≤
              d.2.length := by
            rw [hdl, hN]
            split <;> omega
          have hbis := binaryInsertionSort_sound d.2 comp next
            (next + (if minRunLength < N - next then minRunLength else N - next)) hle2
          refine ⟨hbis.1.trans hdp, by rw [hbis.2, hdl, hN], ?_, ?_⟩
          · split <;> omega
          · split <;> omega
        · next hc =>
          exact ⟨hdp, by rw [hdl, hN], hd1, hd2⟩
      obtain ⟨hBp, hBl, hB1, hB2⟩ := hBf
      set st1 : MergeState α := { st with
        mStack := st.mStack.set st.mNumRunInStack ⟨next, B.1⟩,
        mNumRunInStack := st.mNumRunInStack + 1 } with hst1
      rcases Nat.le_one_iff_eq_zero_or_eq_one.mp hnum with hz | h1n
      · -- the stack was empty: TryMerge does nothing
        have hr : tryMerge comp st1 B.2 = (B.2, st1) := by
          unfold tryMerge
          exact tryMergeLoop_le_one comp st1.mNumRunInStack st1 B.2
            (by rw [hst1]; dsimp only; omega)
        rw [hr]
        dsimp only
        have hget : st1.mStack.getD 0 junkRun = ⟨next, B.1⟩ := by
          rw [hst1]
          dsimp only
          rw [hz]
          exact getD_set_self_of_lt _ _ _ _ (by rw [hsl]; decide)
        have hres := ih st1 B.2 B.1 hBl
          (by rw [hst1]; dsimp only; rw [List.length_set, hsl])
          (by rw [hst1]; dsimp only; omega)
          (fun _ => by
            rw [hget]
            exact ⟨hB1, rfl, hB2⟩)
        exact ⟨hres.1.trans hBp, hres.2.1, hres.2.2⟩
      · -- one run was stacked: TryMerge merges it with the new run at pos 0
        have hone1 := hone h1n
        have hget0 : st1.mStack.getD 0 junkRun = st.mStack.getD 0 junkRun := by
          rw [hst1]
          dsimp only
          rw [h1n]
          exact getD_set_neq _ _ _ _ _ (by omega)
        have hget1 : st1.mStack.getD (0 + 1) junkRun = ⟨next, B.1⟩ := by
          rw [hst1]
          dsimp only
          rw [h1n]
          exact getD_set_self_of_lt _ _ _ _ (by rw [hsl]; decide)
        have hst1num : st1.mNumRunInStack = 2 := by rw [hst1]; dsimp only; omega
        have hmst := mergeAt_state comp st1 B.2 0 (by omega)
        have hmp := mergeAt_perm comp st1 B.2 0
          (by rw [hget0]; exact hone1.1)
          (by rw [hget0, hget1]; exact hone1.2.1)
          (by rw [hget1]; exact hB1)
          (by rw [hget1, hBl]; exact hB2)
        have hr : tryMerge comp st1 B.2 =
            ((mergeAt comp st1 B.2 0).1, (mergeAt comp st1 B.2 0).2) := by
          unfold tryMerge
          rw [hst1num]
          exact tryMergeLoop_two comp 0 st1 B.2 hst1num (by rw [hmst.1]; omega)
        rw [hr]
        dsimp only
        have hres := ih (mergeAt comp st1 B.2 0).2 (mergeAt comp st1 B.2 0).1 B.1
          (by rw [hmp.2, hBl])
          (by rw [hmst.2, List.length_set, hst1]; dsimp only; rw [List.length_set]; exact hsl)
          (by rw [hmst.1]; omega)
          (fun _ => by
            rw [hmst.2]
            rw [getD_set_self_of_lt _ _ _ _
              (by rw [hst1]; dsimp only; rw [List.length_set, hsl]; decide)]
            rw [hget0, hget1]
            refine ⟨?_, rfl, hB2⟩
            dsimp only
            omega)
        exact ⟨hres.1.trans (hmp.1.trans hBp), hres.2.1, hres.2.2⟩
    · exact ⟨List.Perm.refl arr, hN, hnum⟩

/-- Sort permutes the whole array: the run loop keeps at most one run
stacked, so the final ForceMerge is a no-op. -/
theorem sortWithState_perm [Inhabited α] (le comp : α → α → Bool) (arr : List α) :
    (sortWithState le comp arr).1.Perm arr ∧
    (sortWithState le comp arr).1.length = arr.length := by
  unfold sortWithState
  dsimp only
  have hs := sortLoop_sound le comp arr.length (calcMinRunLength arr.length)
    (arr.length + 1) (initMergeState α arr.length) arr 0 rfl
    (by unfold initMergeState; dsimp only; rw [List.length_replicate])
    (Nat.zero_le 1)
    (fun h => absurd h Nat.zero_ne_one)
  split
  · rw [forceMerge_le_one comp _ _ hs.2.2]
    dsimp only
    exact ⟨hs.1, hs.2.1⟩
  · exact ⟨hs.1, hs.2.1⟩


/-- C3: for every input range and every comparator (in particular every
strict weak order), the range Sort returns holds exactly the input multiset:
the output of TimSort is a permutation of the input. The proof tracks every
element move through BinaryInsertionSort, run reversal, MergeLow/MergeHigh
(pairwise and galloping modes and all three exit handlers), MergeAt, the
always-merging TryMerge and the no-op ForceMerge, for an arbitrary
comparator. -/
theorem c3_sort_is_permutation [Inhabited α] (le comp : α → α → Bool) (arr : List α) :
    (timSort le comp arr).Perm arr := by
  unfold timSort
  exact (sortWithState_perm le comp arr).1

end TimSortImpl
